import Mathlib

/-!
# Ninja manifest loader (`lib/Ninja/ManifestLoader.cpp`)

A shallow embedding of `ManifestLoaderImpl` and a verification of its
template evaluator, its binding scopes and its declaration handlers.

Strings are lists of characters; a `Token` is the text it spans
(`Start`, `Length`).  Pointers and references of the C++ code become
indices into explicit stores.
-/

set_option autoImplicit false

namespace llbuild.ninja

/-- Text of a `std::string`, or the characters a token spans. -/
abbrev Str := List Char

/-- A lexer token, reduced to the text `[Start, Start + Length)`. -/
abbrev Token := Str

/-! ## Collaborators declared outside `ManifestLoader.cpp` -/

/-- The two character classes of `Lexer` used by the loader
(`Lexer::isIdentifierChar`, `Lexer::isSimpleIdentifierChar`); they are declared
in `Lexer.h` and taken as parameters here. -/
structure Lexer where
  isIdentifierChar : Char → Bool
  isSimpleIdentifierChar : Char → Bool

/-- A sample lexer with Ninja's usual classes: letters, digits, `_` and `-`
are simple identifier characters, and `.` is an identifier character too. -/
def ninjaLexer : Lexer where
  isIdentifierChar := fun c => c.isAlphanum || c == '_' || c == '-' || c == '.'
  isSimpleIdentifierChar := fun c => c.isAlphanum || c == '_' || c == '-'

/-- The C library's `isspace` in the "C" locale. -/
def isspace (c : Char) : Bool :=
  c == ' ' || c == '\t' || c == '\n' || c == '\x0b' || c == '\x0c' || c == '\r'

/-- The C library's `strtol (Start, &End, 10)` on the text of a
NUL-terminated string, with a `long` of 64 bits: the value and the text from
`End` on.  Without a digit nothing is converted and `End` is `Start`; a value
out of range is clamped. -/
def strtol (Start : Str) : Int × Str :=
  let Body := Start.dropWhile isspace
  let Signed : Bool × Str :=
    match Body with
    | '-' :: Rest => (true, Rest)
    | '+' :: Rest => (false, Rest)
    | _ => (false, Body)
  match Signed.2.takeWhile Char.isDigit with
  | [] => (0, Start)
  | D :: Ds =>
    let Magnitude : Int := (D :: Ds).foldl (fun n d => 10 * n + ((d.toNat : Int) - 48)) 0
    let Value : Int := if Signed.1 then -Magnitude else Magnitude
    (max (-(2 ^ 63)) (min Value (2 ^ 63 - 1)), Signed.2.dropWhile Char.isDigit)

/-! ## Binding sets -/

/-- Find the value stored under a key in an association table. -/
def tableFind {V : Type} (k : Str) : List (Str × V) → Option V
  | [] => none
  | (k', v) :: m => if k' = k then some v else tableFind k m

/-- Overwrite-or-create the entry of a key in an association table. -/
def tableInsert {V : Type} (k : Str) (v : V) : List (Str × V) → List (Str × V)
  | [] => [(k, v)]
  | (k', v') :: m => if k' = k then (k, v) :: m else (k', v') :: tableInsert k v m

/-- Modelled from the spec: the class `BindingSet` (declared in `Manifest.h`).
A binding scope owns a mapping name→value and holds a non-owning reference to
an optional parent scope; the reference is an index into the store of live
binding sets. -/
structure BindingSet where
  Entries : List (Str × Str)
  ParentScope : Option Nat
deriving DecidableEq, Repr

/-- Walk of `BindingSet::lookup` along the parent references, as deep as the
fuel allows. -/
def BindingSet.lookupFrom (Store : List BindingSet) : Nat → Nat → Str → Str
  | 0, _, _ => []
  | fuel + 1, Ref, Name =>
    match Store.get? Ref with
    | none => []
    | some B =>
      match tableFind Name B.Entries with
      | some V => V
      | none =>
        match B.ParentScope with
        | none => []
        | some P => BindingSet.lookupFrom Store fuel P Name

/-- Modelled from the spec: `BindingSet::lookup` returns the value if present
locally, else delegates to the parent, else returns the empty string. -/
def BindingSet.lookup (Store : List BindingSet) (Ref : Nat) (Name : Str) : Str :=
  BindingSet.lookupFrom Store Store.length Ref Name

/-- Modelled from the spec: `BindingSet::insert` is overwrite-or-create in the
scope itself and never touches the parent. -/
def BindingSet.insert (Store : List BindingSet) (Ref : Nat) (Name Value : Str) :
    List BindingSet :=
  Store.modify (fun B => { B with Entries := tableInsert Name Value B.Entries }) Ref

/-! ## `evalString` -/

/-- The inner `while (true)` of a braced reference, started at `VarStart`:
`none` when the end of the string is reached, otherwise whether the name was
valid, the name `[VarStart, Pos)` and the position after the closing brace. -/
def scanBraced (L : Lexer) : Str → Bool → Str → Option (Bool × Str × Str)
  | [], _, _ => none
  | Char :: Pos, IsValid, Var =>
    if Char = '}' then some (IsValid, Var, Pos)
    else scanBraced L Pos (IsValid && L.isIdentifierChar Char) (Var ++ [Char])

/-- How one pass through the body of the `while (Pos != End)` loop ends:
the loop is left (`break`, or the end of the string), or it goes round again
(`continue`) from a new cursor. -/
inductive LoopStep where
  | exit (Result : Str) (Errors : List String)
  | next (Pos : Str) (Result : Str) (Errors : List String)
deriving DecidableEq, Repr

/-- The body of the `while (Pos != End)` loop of `evalString`; `Pos` is the
text from the cursor to `End`, `Result` the stream, `Errors` the messages
passed to `error` so far. -/
def evalStringBody (L : Lexer) (Store : List BindingSet) (Bindings : Nat)
    (Pos Result : Str) (Errors : List String) : LoopStep :=
  -- Find the next '$' and add the current piece.
  let Result := Result ++ Pos.takeWhile (fun c => c != '$')
  match Pos.dropWhile (fun c => c != '$') with
  | [] => .exit Result Errors
  | _ :: [] => .exit Result (Errors ++ ["invalid '$'-escape at end of string"])
  | _ :: Char :: Pos =>
    if Char = '\n' then
      .next (Pos.dropWhile isspace) Result Errors
    else if Char = ' ' ∨ Char = ':' ∨ Char = '$' then
      .next Pos (Result ++ [Char]) Errors
    else if Char = '{' then
      match scanBraced L Pos true [] with
      | none =>
        .next [] Result
          (Errors ++ ["invalid variable reference in string (missing trailing '\x7d')"])
      | some (false, _, Pos) =>
        .next Pos Result (Errors ++ ["invalid variable name in reference"])
      | some (true, Var, Pos) =>
        .next Pos (Result ++ BindingSet.lookup Store Bindings Var) Errors
    else if L.isSimpleIdentifierChar Char then
      .next (Pos.dropWhile L.isSimpleIdentifierChar)
        (Result ++ BindingSet.lookup Store Bindings
          (Char :: Pos.takeWhile L.isSimpleIdentifierChar)) Errors
    else
      .exit Result (Errors ++ ["invalid '$'-escape (literal '$' should be written as '$$')"])

/-- The `while (Pos != End)` loop of `evalString`.  Each pass consumes at
least one character, so fuel above the remaining length is never used up. -/
def evalStringLoop (L : Lexer) (Store : List BindingSet) (Bindings : Nat) :
    Nat → Str → Str → List String → Str × List String
  | 0, _, Result, Errors => (Result, Errors)
  | _ + 1, [], Result, Errors => (Result, Errors)
  | fuel + 1, Char :: Pos, Result, Errors =>
    match evalStringBody L Store Bindings (Char :: Pos) Result Errors with
    | .exit Result Errors => (Result, Errors)
    | .next Pos Result Errors => evalStringLoop L Store Bindings fuel Pos Result Errors

/-- `ManifestLoaderImpl::evalString`: the evaluated string and the messages
reported through `error`, in order. -/
def evalString (L : Lexer) (Store : List BindingSet) (Bindings : Nat) (Value : Token) :
    Str × List String :=
  evalStringLoop L Store Bindings (Value.length + 1) Value [] []

/-! ## The manifest -/

/-- Modelled from the spec: `Rule` (declared in `Manifest.h`), a named entity
holding a mapping of recognized parameter name → raw (unevaluated) template
string. -/
structure Rule where
  Name : Str
  Parameters : List (Str × Str)
deriving DecidableEq, Repr

/-- Modelled from the spec: `Pool` (declared in `Manifest.h`), a named entity
holding an unsigned depth; depth 0 is "not set" (`getDepth() == 0`). -/
structure Pool where
  Name : Str
  Depth : Nat
deriving DecidableEq, Repr

/-- Modelled from the spec: `Node` (declared in `Manifest.h`), identified by
its resolved path string. -/
structure Node where
  Path : Str
deriving DecidableEq, Repr

/-- A `Rule*` held by a command: the built-in phony rule, or the rule object
in the slot of the rule table under a name. -/
inductive RuleRef where
  | phony
  | named (Name : Str)
deriving DecidableEq, Repr

/-- Modelled from the spec: `Command` (declared in `Manifest.h`): one rule, the
ordered output and input nodes with the explicit and implicit input counts,
and a mapping parameter name → evaluated string.  A `Node*` is the index of the
node in the manifest's node table. -/
structure Command where
  Rule : RuleRef
  Outputs : List Nat
  Inputs : List Nat
  NumExplicitInputs : Nat
  NumImplicitInputs : Nat
  Parameters : List (Str × Str)
deriving DecidableEq, Repr

/-- Modelled from the spec: `Manifest` (declared in `Manifest.h`): the node
table, the rule table, the pool table, the command list in declaration order,
the default-target list and the built-in phony rule.  Its top-level binding
set `getBindings()` is cell 0 of the loader's store of binding sets. -/
structure Manifest where
  Nodes : List Node
  Rules : List (Str × Rule)
  Pools : List (Str × Pool)
  Commands : List Command
  DefaultTargets : List Nat
  PhonyRule : Rule
deriving DecidableEq, Repr

/-- Modelled from the spec: the manifest built by `new Manifest`: empty tables
and the reserved phony rule. -/
def Manifest.new : Manifest :=
  { Nodes := [], Rules := [], Pools := [], Commands := [], DefaultTargets := [],
    PhonyRule := { Name := "phony".toList, Parameters := [] } }

/-- Index of the node with a given path in the node table (`getNodes().find`). -/
def findNode (Path : Str) : List Node → Option Nat
  | [] => none
  | N :: Ns => if N.Path = Path then some 0 else (findNode Path Ns).map (fun i => i + 1)

/-- Modelled from the spec: `Manifest::getOrCreateNode` returns the existing
node if the path was seen before and creates it on first reference. -/
def Manifest.getOrCreateNode (M : Manifest) (Path : Str) : Nat × Manifest :=
  match findNode Path M.Nodes with
  | some i => (i, M)
  | none => (M.Nodes.length, { M with Nodes := M.Nodes ++ [{ Path := Path }] })

/-- Apply a change to the object stored under a key of a table (a change made
through a pointer to that object). -/
def tableModify {V : Type} (k : Str) (f : V → V) : List (Str × V) → List (Str × V)
  | [] => []
  | (k', v) :: m => if k' = k then (k', f v) :: m else (k', v) :: tableModify k f m

/-! ## The syntax driver -/

/-- Modelled from the spec: the declarations the syntax driver (`Parser`)
recognizes in a file, in file order; for each it invokes the callbacks of the
loader: a binding, a default-target list, an include (carrying the
is-shared-scope flag), a build, pool or rule block (begin, one binding
callback per binding, end), or an error. -/
inductive Decl where
  | Binding (Name Value : Token)
  | Default (Names : List Token)
  | Include (IsInclude : Bool) (Path : Token)
  | Build (Name : Token) (Outputs Inputs : List Token)
      (NumExplicitInputs NumImplicitInputs : Nat) (Bindings : List (Token × Token))
      (StartTok : Token)
  | Pool (Name : Token) (Bindings : List (Token × Token)) (StartTok : Token)
  | Rule (Name : Token) (Bindings : List (Token × Token)) (StartTok : Token)
  | Error (Message : String) (At : Token)
deriving DecidableEq, Repr

/-- What the loader takes from outside `ManifestLoader.cpp`: the lexer's
character classes, `Rule::isValidParameterName`, and
`ManifestLoaderActions::readFileContents (FromFilename, Filename, ForToken)`,
whose data is given as the declarations its parser will deliver. -/
structure Env where
  Lexer : Lexer
  isValidParameterName : Str → Bool
  readFileContents : Str → Str → Option Token → Option (List Decl)

/-- An error passed to `ManifestLoaderActions::error`. -/
structure Diag where
  Filename : Str
  Message : String
  At : Token
deriving DecidableEq, Repr

/-- Why a run of the model stops without a result: an `assert` of the source
fails (an empty include stack), or the fuel that bounds the include nesting
is used up. -/
inductive Fault where
  | assertion
  | fuel
deriving DecidableEq, Repr

/-! ## `ManifestLoaderImpl` -/

/-- An entry of the include stack: the file name, the parser over the file's
data (the declarations it will deliver) and a reference to the active binding
set. -/
structure IncludeEntry where
  Filename : Str
  Parser : List Decl
  Bindings : Nat
deriving DecidableEq, Repr

/-- The state of `ManifestLoaderImpl`: the manifest and the include stack
(top of the stack last), with the store of live binding sets (cell 0 is the
manifest's top-level set, the others are the `SubninjaBindings` locals of the
running `actOnIncludeDecl` calls) and the errors reported so far. -/
structure ManifestLoaderImpl where
  MainFilename : Str
  TheManifest : Manifest
  IncludeStack : List IncludeEntry
  BindingSets : List BindingSet
  Errors : List Diag
deriving DecidableEq, Repr

namespace ManifestLoaderImpl

/-- `enterFile`: load the file data and, on success only, push a new entry. -/
def enterFile (S : ManifestLoaderImpl) (E : Env) (Filename : Str) (Bindings : Nat)
    (ForToken : Option Token) : Bool × ManifestLoaderImpl :=
  let FromFilename :=
    match S.IncludeStack.getLast? with
    | none => Filename
    | some Top => Top.Filename
  match E.readFileContents FromFilename Filename ForToken with
  | none => (false, S)
  | some Data =>
    (true, { S with IncludeStack := S.IncludeStack ++
      [{ Filename := Filename, Parser := Data, Bindings := Bindings }] })

/-- `exitCurrentFile`: pop the top entry. -/
def exitCurrentFile (S : ManifestLoaderImpl) : Except Fault ManifestLoaderImpl :=
  match S.IncludeStack with
  | [] => .error .assertion
  | _ :: _ => .ok { S with IncludeStack := S.IncludeStack.dropLast }

/-- `getCurrentParser`, as the declarations the parser will deliver. -/
def getCurrentParser (S : ManifestLoaderImpl) : Except Fault (List Decl) :=
  match S.IncludeStack.getLast? with
  | none => .error .assertion
  | some Top => .ok Top.Parser

/-- `getCurrentFilename`. -/
def getCurrentFilename (S : ManifestLoaderImpl) : Except Fault Str :=
  match S.IncludeStack.getLast? with
  | none => .error .assertion
  | some Top => .ok Top.Filename

/-- `getCurrentBindings`, as a reference into the store. -/
def getCurrentBindings (S : ManifestLoaderImpl) : Except Fault Nat :=
  match S.IncludeStack.getLast? with
  | none => .error .assertion
  | some Top => .ok Top.Bindings

/-- `error`: pass the message to the actions with the current file name. -/
def error (S : ManifestLoaderImpl) (Message : String) (At : Token) :
    Except Fault ManifestLoaderImpl :=
  match S.getCurrentFilename with
  | .error f => .error f
  | .ok Filename =>
    .ok { S with Errors := S.Errors ++ [{ Filename := Filename, Message := Message, At := At }] }

/-- Report the messages of one string evaluation, in order. -/
def errorAll (At : Token) : List String → ManifestLoaderImpl → Except Fault ManifestLoaderImpl
  | [], S => .ok S
  | Message :: Rest, S =>
    match S.error Message At with
    | .error f => .error f
    | .ok S => errorAll At Rest S

/-- The member function `evalString`: the evaluated string, with the errors of
the evaluation reported against the token. -/
def evalString (S : ManifestLoaderImpl) (E : Env) (Value : Token) (Bindings : Nat) :
    Except Fault (Str × ManifestLoaderImpl) :=
  match errorAll Value (ninja.evalString E.Lexer S.BindingSets Bindings Value).2 S with
  | .error f => .error f
  | .ok S1 => .ok ((ninja.evalString E.Lexer S.BindingSets Bindings Value).1, S1)

/-- `actOnEndManifest`. -/
def actOnEndManifest (S : ManifestLoaderImpl) : Except Fault ManifestLoaderImpl :=
  S.exitCurrentFile

/-- `actOnBindingDecl`: evaluate the value string with the current bindings
and insert it under the name. -/
def actOnBindingDecl (S : ManifestLoaderImpl) (E : Env) (NameTok ValueTok : Token) :
    Except Fault ManifestLoaderImpl := do
  let Name := NameTok
  let Bindings ← S.getCurrentBindings
  let (Value, S) ← S.evalString E ValueTok Bindings
  let Bindings ← S.getCurrentBindings
  pure { S with BindingSets := BindingSet.insert S.BindingSets Bindings Name Value }

/-- `actOnDefaultDecl`: resolve each name in the node table; an unknown name
is an error and is skipped. -/
def actOnDefaultDecl : List Token → ManifestLoaderImpl → Except Fault ManifestLoaderImpl
  | [], S => pure S
  | NameTok :: NameToks, S =>
    match findNode NameTok S.TheManifest.Nodes with
    | none => do
      let S ← S.error "unknown target name" NameTok
      actOnDefaultDecl NameToks S
    | some it =>
      actOnDefaultDecl NameToks
        { S with TheManifest :=
          { S.TheManifest with DefaultTargets := S.TheManifest.DefaultTargets ++ [it] } }

/-- `actOnIncludeDecl`; `runParser` stands for `getCurrentParser()->parse()`.
A "subninja" gets a local binding set whose parent is the current one; the
local goes away when the declaration has been handled. -/
def actOnIncludeDecl (S : ManifestLoaderImpl) (E : Env)
    (runParser : ManifestLoaderImpl → Except Fault ManifestLoaderImpl)
    (IsInclude : Bool) (PathTok : Token) : Except Fault ManifestLoaderImpl := do
  let Bindings ← S.getCurrentBindings
  let (Path, S) ← S.evalString E PathTok Bindings
  if IsInclude then
    let Bindings ← S.getCurrentBindings
    match S.enterFile E Path Bindings (some PathTok) with
    | (true, S) => runParser S
    | (false, S) => pure S
  else
    let Parent ← S.getCurrentBindings
    let SubninjaBindings := S.BindingSets.length
    let S : ManifestLoaderImpl :=
      { S with BindingSets := S.BindingSets ++ [{ Entries := [], ParentScope := some Parent }] }
    let S ← match S.enterFile E Path SubninjaBindings (some PathTok) with
      | (true, S) => runParser S
      | (false, S) => pure S
    pure { S with BindingSets := S.BindingSets.take SubninjaBindings }

/-- The two loops of `actOnBeginBuildDecl` over the output and input tokens:
evaluate the token, report an empty path, intern the node. -/
def resolveNodes (E : Env) (EmptyMessage : String) :
    List Token → List Nat → ManifestLoaderImpl → Except Fault (List Nat × ManifestLoaderImpl)
  | [], Nodes, S => pure (Nodes, S)
  | Tok :: Toks, Nodes, S => do
    let Bindings ← S.getCurrentBindings
    let (Path, S) ← S.evalString E Tok Bindings
    let S ← if Path = [] then S.error EmptyMessage Tok else pure S
    let (N, M) := S.TheManifest.getOrCreateNode Path
    resolveNodes E EmptyMessage Toks (Nodes ++ [N]) { S with TheManifest := M }

/-- `actOnBeginBuildDecl`; the `BuildResult` is the index of the new command
in the command list. -/
def actOnBeginBuildDecl (S : ManifestLoaderImpl) (E : Env) (NameTok : Token)
    (OutputTokens InputTokens : List Token) (NumExplicitInputs NumImplicitInputs : Nat) :
    Except Fault (Nat × ManifestLoaderImpl) := do
  let Name := NameTok
  -- Resolve the rule.
  let (Rule, S) ← match tableFind Name S.TheManifest.Rules with
    | none => do
      let S ← S.error "unknown rule" NameTok
      pure (RuleRef.phony, S)
    | some _ => pure (RuleRef.named Name, S)
  -- Resolve all of the inputs and outputs.
  let (Outputs, S) ← resolveNodes E "empty output path" OutputTokens [] S
  let (Inputs, S) ← resolveNodes E "empty input path" InputTokens [] S
  let Decl := S.TheManifest.Commands.length
  pure (Decl, { S with TheManifest := { S.TheManifest with Commands := S.TheManifest.Commands ++
    [{ Rule := Rule, Outputs := Outputs, Inputs := Inputs,
       NumExplicitInputs := NumExplicitInputs, NumImplicitInputs := NumImplicitInputs,
       Parameters := [] }] } })

/-- `actOnBuildBindingDecl`: the value is evaluated immediately with the
current bindings and stored in the command's parameters. -/
def actOnBuildBindingDecl (S : ManifestLoaderImpl) (E : Env) (Decl : Nat)
    (NameTok ValueTok : Token) : Except Fault ManifestLoaderImpl := do
  let Name := NameTok
  let Bindings ← S.getCurrentBindings
  let (Value, S) ← S.evalString E ValueTok Bindings
  let Commands := S.TheManifest.Commands.modify
    (fun C => { C with Parameters := tableInsert Name Value C.Parameters }) Decl
  pure { S with TheManifest := { S.TheManifest with Commands := Commands } }

/-- `actOnEndBuildDecl` does nothing. -/
def actOnEndBuildDecl (S : ManifestLoaderImpl) (_Decl : Nat) (_StartTok : Token) :
    Except Fault ManifestLoaderImpl :=
  pure S

/-- `actOnBeginPoolDecl`: a duplicate is diagnosed and a new pool is still
inserted; the `PoolResult` is the slot of the pool table. -/
def actOnBeginPoolDecl (S : ManifestLoaderImpl) (NameTok : Token) :
    Except Fault (Str × ManifestLoaderImpl) := do
  let Name := NameTok
  let S ← match tableFind Name S.TheManifest.Pools with
    | some _ => S.error "duplicate pool" NameTok
    | none => pure S
  let Pools := tableInsert Name { Name := Name, Depth := 0 } S.TheManifest.Pools
  pure (Name, { S with TheManifest := { S.TheManifest with Pools := Pools } })

/-- `actOnPoolBindingDecl`: only `depth` is known; its value goes through
`strtol` and is stored as a `uint32_t` when the whole string is a positive
number. -/
def actOnPoolBindingDecl (S : ManifestLoaderImpl) (E : Env) (Decl : Str)
    (NameTok ValueTok : Token) : Except Fault ManifestLoaderImpl := do
  let Name := NameTok
  let Bindings ← S.getCurrentBindings
  let (Value, S) ← S.evalString E ValueTok Bindings
  if Name = "depth".toList then
    let Start := Value.takeWhile (fun c => c != '\x00')
    let (IntValue, End) := strtol Start
    if End ≠ [] ∨ IntValue ≤ 0 then
      S.error "invalid depth" ValueTok
    else
      let Pools := tableModify Decl
        (fun P => { P with Depth := IntValue.toNat % 2 ^ 32 }) S.TheManifest.Pools
      pure { S with TheManifest := { S.TheManifest with Pools := Pools } }
  else
    S.error "unexpected variable" NameTok

/-- `actOnEndPoolDecl`: it is an error to not specify the pool depth. -/
def actOnEndPoolDecl (S : ManifestLoaderImpl) (Decl : Str) (StartTok : Token) :
    Except Fault ManifestLoaderImpl :=
  match tableFind Decl S.TheManifest.Pools with
  | none => pure S
  | some P =>
    if P.Depth = 0 then S.error "missing 'depth' variable assignment" StartTok else pure S

/-- `actOnBeginRuleDecl`: a duplicate is diagnosed and a new rule is still
inserted; the `RuleResult` is the slot of the rule table. -/
def actOnBeginRuleDecl (S : ManifestLoaderImpl) (NameTok : Token) :
    Except Fault (Str × ManifestLoaderImpl) := do
  let Name := NameTok
  let S ← match tableFind Name S.TheManifest.Rules with
    | some _ => S.error "duplicate rule" NameTok
    | none => pure S
  let Rules := tableInsert Name { Name := Name, Parameters := [] } S.TheManifest.Rules
  pure (Name, { S with TheManifest := { S.TheManifest with Rules := Rules } })

/-- `actOnRuleBindingDecl`: a valid parameter is stored as the raw text of the
value token. -/
def actOnRuleBindingDecl (S : ManifestLoaderImpl) (E : Env) (Decl : Str)
    (NameTok ValueTok : Token) : Except Fault ManifestLoaderImpl :=
  let Name := NameTok
  if E.isValidParameterName Name then
    let Rules := tableModify Decl
      (fun R => { R with Parameters := tableInsert Name ValueTok R.Parameters })
      S.TheManifest.Rules
    pure { S with TheManifest := { S.TheManifest with Rules := Rules } }
  else
    S.error "unexpected variable" NameTok

/-- `actOnEndRuleDecl`: a rule needs a `command`. -/
def actOnEndRuleDecl (S : ManifestLoaderImpl) (Decl : Str) (StartTok : Token) :
    Except Fault ManifestLoaderImpl :=
  match tableFind Decl S.TheManifest.Rules with
  | none => pure S
  | some R =>
    match tableFind "command".toList R.Parameters with
    | none => S.error "missing 'command' variable assignment" StartTok
    | some _ => pure S

/-- The binding callbacks of a block, one per binding, in order. -/
def actOnBindings (act : ManifestLoaderImpl → Token → Token → Except Fault ManifestLoaderImpl) :
    List (Token × Token) → ManifestLoaderImpl → Except Fault ManifestLoaderImpl
  | [], S => pure S
  | (NameTok, ValueTok) :: Rest, S =>
    match act S NameTok ValueTok with
    | .error f => .error f
    | .ok S => actOnBindings act Rest S

/-- Modelled from the spec: the callbacks the syntax driver makes for one
declaration. -/
def actOnDecl (E : Env) (runParser : ManifestLoaderImpl → Except Fault ManifestLoaderImpl) :
    Decl → ManifestLoaderImpl → Except Fault ManifestLoaderImpl
  | .Binding Name Value, S => S.actOnBindingDecl E Name Value
  | .Default Names, S => actOnDefaultDecl Names S
  | .Include IsInclude Path, S => S.actOnIncludeDecl E runParser IsInclude Path
  | .Build Name Outputs Inputs NumExplicitInputs NumImplicitInputs Bindings StartTok, S => do
    let (Decl, S) ← S.actOnBeginBuildDecl E Name Outputs Inputs NumExplicitInputs
      NumImplicitInputs
    let S ← actOnBindings (fun S N V => S.actOnBuildBindingDecl E Decl N V) Bindings S
    S.actOnEndBuildDecl Decl StartTok
  | .Pool Name Bindings StartTok, S => do
    let (Decl, S) ← S.actOnBeginPoolDecl Name
    let S ← actOnBindings (fun S N V => S.actOnPoolBindingDecl E Decl N V) Bindings S
    S.actOnEndPoolDecl Decl StartTok
  | .Rule Name Bindings StartTok, S => do
    let (Decl, S) ← S.actOnBeginRuleDecl Name
    let S ← actOnBindings (fun S N V => S.actOnRuleBindingDecl E Decl N V) Bindings S
    S.actOnEndRuleDecl Decl StartTok
  | .Error Message At, S => S.error Message At

/-- Modelled from the spec: the callbacks for the declarations of a file, in
file order. -/
def actOnDecls (E : Env) (runParser : ManifestLoaderImpl → Except Fault ManifestLoaderImpl) :
    List Decl → ManifestLoaderImpl → Except Fault ManifestLoaderImpl
  | [], S => pure S
  | D :: Ds, S =>
    match actOnDecl E runParser D S with
    | .error f => .error f
    | .ok S => actOnDecls E runParser Ds S

/-- Modelled from the spec: `Parser::parse` of the parser on top of the include
stack: manifest-begin (`actOnBeginManifest` does nothing), the declarations,
manifest-end.  The fuel bounds the depth of nested includes, for which the
loader has no guard. -/
def parse (E : Env) : Nat → ManifestLoaderImpl → Except Fault ManifestLoaderImpl
  | 0, _ => .error .fuel
  | fuel + 1, S =>
    match S.getCurrentParser with
    | .error f => .error f
    | .ok Decls =>
      match actOnDecls E (parse E fuel) Decls S with
      | .error f => .error f
      | .ok S => S.actOnEndManifest

/-- The loader as constructed, with the manifest `load` creates. -/
def init (MainFilename : Str) : ManifestLoaderImpl :=
  { MainFilename := MainFilename, TheManifest := Manifest.new, IncludeStack := [],
    BindingSets := [{ Entries := [], ParentScope := none }], Errors := [] }

/-- `load`: `none` is the null manifest; otherwise the final state, which holds
the manifest and the reported errors.  The two `assert`s are checked. -/
def load (E : Env) (fuel : Nat) (MainFilename : Str) :
    Except Fault (Option ManifestLoaderImpl) :=
  -- Enter the main file.
  match (init MainFilename).enterFile E MainFilename 0 none with
  | (false, _) => .ok none
  | (true, S) =>
    -- Run the parser.
    if S.IncludeStack.length ≠ 1 then .error .assertion
    else
      match parse E fuel S with
      | .error f => .error f
      | .ok S => if S.IncludeStack.length ≠ 0 then .error .assertion else .ok (some S)

end ManifestLoaderImpl

/-! ## Reference notions and sample data -/

/-- The value a block of bindings gives a name: that of its last binding of
the name. -/
def lastBinding (k : Str) : List (Token × Token) → Option Str
  | [] => none
  | (N, V) :: Rest =>
    match lastBinding k Rest with
    | some W => some W
    | none => if N = k then some V else none

/-- A sample environment: Ninja's lexer classes, the rule parameters the
manifest knows, and three files. -/
def sampleEnv : Env where
  Lexer := ninjaLexer
  isValidParameterName := fun n =>
    n ∈ ["command".toList, "description".toList, "depfile".toList, "generator".toList,
      "pool".toList, "restat".toList, "rspfile".toList, "rspfile_content".toList]
  readFileContents := fun _ Filename _ =>
    if Filename = "sub.ninja".toList then
      some [.Binding "y".toList "$\x7bx\x7d.sub".toList, .Binding "x".toList "inner".toList,
        .Binding "z".toList "$x.$y".toList]
    else if Filename = "rules.ninja".toList then
      some [.Rule "cc".toList [("command".toList, "$in -> $out".toList)] "rule".toList]
    else none

/-- A sample loader state: inside `build.ninja`, with `x = a` bound at top
level. -/
def sampleState : ManifestLoaderImpl :=
  { MainFilename := "build.ninja".toList, TheManifest := Manifest.new,
    IncludeStack := [{ Filename := "build.ninja".toList, Parser := [], Bindings := 0 }],
    BindingSets := [{ Entries := [("x".toList, "a".toList)], ParentScope := none }],
    Errors := [] }

/-- A handler that leaves the include stack and every binding set as they
were. -/
def SameScopes (T T1 : ManifestLoaderImpl) : Prop :=
  T1.IncludeStack = T.IncludeStack ∧ T1.BindingSets = T.BindingSets

/-- The frame of a run of the parser on top of the include stack: the entry is
popped, and no binding set other than the one of that entry is changed,
created or lost. -/
def ParseFrame (run : ManifestLoaderImpl → Except Fault ManifestLoaderImpl) : Prop :=
  ∀ (T T1 : ManifestLoaderImpl) (Top : IncludeEntry),
    T.IncludeStack.getLast? = some Top → run T = .ok T1 →
      T1.IncludeStack = T.IncludeStack.dropLast ∧
      T1.BindingSets.length = T.BindingSets.length ∧
      ∀ i, i ≠ Top.Bindings → T1.BindingSets.get? i = T.BindingSets.get? i

/-- Two stores of the same size in which every cell has the same parent and
the same entry for a name. -/
def SameFor (Name : Str) (St St1 : List BindingSet) : Prop :=
  St1.length = St.length ∧
  ∀ i, (St1.get? i).map (fun B => (tableFind Name B.Entries, B.ParentScope)) =
    (St.get? i).map (fun B => (tableFind Name B.Entries, B.ParentScope))

/-- Whether a declaration of a file may give a name a new value in the scope
of that file: a binding of the name, or an include that shares the scope. -/
def Decl.rebinds (Name : Str) : Decl → Bool
  | .Binding N _ => decide (N = Name)
  | .Include IsInclude _ => IsInclude
  | _ => false

/-- The state in which the parser of the nested file starts, for an include
declaration handled in state `S` with top entry `Top` whose file was opened
with data `Decls`: the errors of the path evaluation are reported, a
"subninja" has got its local binding set, and the entry is pushed. -/
def includeEntered (S : ManifestLoaderImpl) (E : Env) (Top : IncludeEntry)
    (IsInclude : Bool) (PathTok : Token) (Decls : List Decl) : ManifestLoaderImpl :=
  { S with
    Errors := S.Errors ++
      (ninja.evalString E.Lexer S.BindingSets Top.Bindings PathTok).2.map
        (fun M => { Filename := Top.Filename, Message := M, At := PathTok })
    BindingSets :=
      if IsInclude then S.BindingSets
      else S.BindingSets ++ [{ Entries := [], ParentScope := some Top.Bindings }]
    IncludeStack := S.IncludeStack ++
      [{ Filename := (ninja.evalString E.Lexer S.BindingSets Top.Bindings PathTok).1,
         Parser := Decls,
         Bindings := if IsInclude then Top.Bindings else S.BindingSets.length }] }

/-- The state `sampleState` is in after an include or a "subninja" of
`sub.ninja`. -/
def sampleAfter (IsInclude : Bool) : ManifestLoaderImpl :=
  match sampleState.actOnIncludeDecl sampleEnv (ManifestLoaderImpl.parse sampleEnv 1) IsInclude
      "sub.ninja".toList with
  | .ok S => S
  | .error _ => sampleState

/-- The template that writes a string literally: every `$` becomes `$$`. -/
def escapeDollars : Str → Str
  | [] => []
  | c :: s => if c = '$' then '$' :: '$' :: escapeDollars s else c :: escapeDollars s

/-- The messages `evalString` passes to `error`. -/
def evalMessages : List String :=
  ["invalid '$'-escape at end of string",
   "invalid variable reference in string (missing trailing '\x7d')",
   "invalid variable name in reference",
   "invalid '$'-escape (literal '$' should be written as '$$')"]

/-- A sample environment whose `build.ninja` holds `default missing.o` alone. -/
def missingEnv : Env where
  Lexer := ninjaLexer
  isValidParameterName := sampleEnv.isValidParameterName
  readFileContents := fun _ Filename _ =>
    if Filename = "build.ninja".toList then some [.Default ["missing.o".toList]] else none

/-- A sample environment whose `build.ninja` defines rule `cc` with
`command = $in -> $out`, then `build out.o: cc in.c`, then `default out.o`. -/
def ccEnv : Env where
  Lexer := ninjaLexer
  isValidParameterName := sampleEnv.isValidParameterName
  readFileContents := fun _ Filename _ =>
    if Filename = "build.ninja".toList then
      some [.Rule "cc".toList [("command".toList, "$in -> $out".toList)] "rule".toList,
        .Build "cc".toList ["out.o".toList] ["in.c".toList] 1 0 [] "build".toList,
        .Default ["out.o".toList]]
    else none

/-- The rule a `Rule*` of a command points to: the built-in phony rule
(`getPhonyRule`), or the rule in the slot of the rule table. -/
def Manifest.getRule (M : Manifest) : RuleRef → Option Rule
  | .phony => some M.PhonyRule
  | .named Name => tableFind Name M.Rules

/-- The errors the loops of `actOnBeginBuildDecl` report for a list of path
tokens: for each token, in order, the errors of its evaluation and then, when
the evaluated path is empty, one empty-path error. -/
def pathErrors (Filename : Str) (EmptyMessage : String) (eval : Token → Str × List String) :
    List Token → List Diag
  | [] => []
  | Tok :: Toks =>
    (eval Tok).2.map (fun M => { Filename := Filename, Message := M, At := Tok }) ++
      (if (eval Tok).1 = [] then
        [{ Filename := Filename, Message := EmptyMessage, At := Tok }] else []) ++
      pathErrors Filename EmptyMessage eval Toks

/-- A sample loader state inside `build.ninja` with open blocks to bind in: the
rule `cc`, the pool `link` with no depth yet, and the command
`build out.o: cc in.c`; `x = a` is bound at top level. -/
def sampleOpenState : ManifestLoaderImpl :=
  { MainFilename := "build.ninja".toList,
    TheManifest :=
      { Nodes := [{ Path := "out.o".toList }, { Path := "in.c".toList }],
        Rules := [("cc".toList, { Name := "cc".toList, Parameters := [] })],
        Pools := [("link".toList, { Name := "link".toList, Depth := 0 })],
        Commands := [{ Rule := .named "cc".toList, Outputs := [0], Inputs := [1],
                       NumExplicitInputs := 1, NumImplicitInputs := 0, Parameters := [] }],
        DefaultTargets := [],
        PhonyRule := { Name := "phony".toList, Parameters := [] } },
    IncludeStack := [{ Filename := "build.ninja".toList, Parser := [], Bindings := 0 }],
    BindingSets := [{ Entries := [("x".toList, "a".toList)], ParentScope := none }],
    Errors := [] }

/-- The number a string of decimal digits denotes. -/
def decimalValue (s : Str) : Nat :=
  s.foldl (fun n d => 10 * n + (d.toNat - 48)) 0

/-- A run of the parser that breaks no `assert` of the loader as long as an
entry is on the include stack. -/
def NoAssert (run : ManifestLoaderImpl → Except Fault ManifestLoaderImpl) : Prop :=
  ∀ (T : ManifestLoaderImpl) (Top : IncludeEntry),
    T.IncludeStack.getLast? = some Top → run T ≠ .error .assertion

/-- The state with further errors reported before its own. -/
def addErrors (Pre : List Diag) (S : ManifestLoaderImpl) : ManifestLoaderImpl :=
  { S with Errors := Pre ++ S.Errors }

/-- The state with further errors reported after its first `n` errors. -/
def insertErrors (n : Nat) (Ds : List Diag) (S : ManifestLoaderImpl) : ManifestLoaderImpl :=
  { S with Errors := S.Errors.take n ++ Ds ++ S.Errors.drop n }

/-- A run that never reads the errors reported before it: with further errors
reported before, it does the same and keeps them. -/
def ErrorsFree (run : ManifestLoaderImpl → Except Fault ManifestLoaderImpl) : Prop :=
  ∀ (Pre : List Diag) (S : ManifestLoaderImpl),
    run (addErrors Pre S) = (run S).map (addErrors Pre)

/-- Whether the callbacks for a list of declarations, delivered from state `S`
on, bind `Name` in the scope active in `S`: by a binding of the name, or by a
shared-scope include of a file that opens and whose declarations do (`nested`
answers for those, from the state in which their parser starts).  A
"subninja" binds in its own scope only. -/
def rebindsWith (E : Env) (run : ManifestLoaderImpl → Except Fault ManifestLoaderImpl)
    (nested : List Decl → ManifestLoaderImpl → Bool) (Name : Str) :
    List Decl → ManifestLoaderImpl → Bool
  | [], _ => false
  | D :: Ds, S =>
    (match D with
      | .Binding N _ => decide (N = Name)
      | .Include true PathTok =>
        match S.IncludeStack.getLast? with
        | none => false
        | some Top =>
          match E.readFileContents Top.Filename
              (ninja.evalString E.Lexer S.BindingSets Top.Bindings PathTok).1 (some PathTok) with
          | none => false
          | some Decls => nested Decls (includeEntered S E Top true PathTok Decls)
      | _ => false) ||
    match ManifestLoaderImpl.actOnDecl E run D S with
    | .ok S1 => rebindsWith E run nested Name Ds S1
    | .error _ => false

/-- Whether the declarations of a file, delivered from state `S` on by a parser
that may nest includes `fuel` deep, bind `Name` in the scope active in `S`,
themselves or through the files they include with shared scope. -/
def rebindsIn (E : Env) (Name : Str) : Nat → List Decl → ManifestLoaderImpl → Bool
  | 0 => rebindsWith E (ManifestLoaderImpl.parse E 0) (fun _ _ => false) Name
  | fuel + 1 =>
    rebindsWith E (ManifestLoaderImpl.parse E (fuel + 1)) (rebindsIn E Name fuel) Name

/-- A sample environment for nested includes: `twice.ninja` binds `x` twice,
`outer.ninja` binds `x` and then includes `other.ninja`, which binds `y`. -/
def nestedEnv : Env where
  Lexer := ninjaLexer
  isValidParameterName := sampleEnv.isValidParameterName
  readFileContents := fun _ Filename _ =>
    if Filename = "twice.ninja".toList then
      some [.Binding "x".toList "1".toList, .Binding "x".toList "2".toList]
    else if Filename = "outer.ninja".toList then
      some [.Binding "x".toList "1".toList, .Include true "other.ninja".toList]
    else if Filename = "other.ninja".toList then
      some [.Binding "y".toList "$x.o".toList]
    else none

/-- The state `sampleState` is in after a shared-scope include of
`outer.ninja`. -/
def nestedAfter : ManifestLoaderImpl :=
  match sampleState.actOnIncludeDecl nestedEnv (ManifestLoaderImpl.parse nestedEnv 2) true
      "outer.ninja".toList with
  | .ok S => S
  | .error _ => sampleState

/-! ## Lemmas on `evalString` -/

theorem scanBraced_length (L : Lexer) (Pos : Str) (IsValid : Bool) (Var : Str)
    (v : Bool) (n r : Str) (h : scanBraced L Pos IsValid Var = some (v, n, r)) :
    r.length < Pos.length := by
  induction Pos generalizing IsValid Var with
  | nil => simp [scanBraced] at h
  | cons c t ih =>
    simp only [scanBraced] at h
    split at h
    · simp at h; simp [h.2.2]
    · have := ih _ _ h
      simp; omega

theorem dropWhile_length_le {α : Type} (p : α → Bool) (l : List α) :
    (l.dropWhile p).length ≤ l.length := by
  induction l with
  | nil => simp
  | cons a t ih => simp only [List.dropWhile]; split <;> simp; omega

theorem evalStringBody_length (L : Lexer) (Store : List BindingSet) (Bindings : Nat)
    (Pos R : Str) (E : List String) (Pos1 R1 : Str) (E1 : List String)
    (h : evalStringBody L Store Bindings Pos R E = .next Pos1 R1 E1) :
    Pos1.length < Pos.length := by
  unfold evalStringBody at h
  have hd := dropWhile_length_le (fun c => c != '$') Pos
  split at h
  · simp at h
  · simp at h
  · rename_i x c t heq
    rw [heq] at hd
    simp at hd
    split_ifs at h
    · simp at h; have := dropWhile_length_le isspace t; rw [← h.1]; omega
    · simp at h; rw [← h.1]; omega
    · split at h
      · simp at h; rw [h.1]; simp at hd ⊢; omega
      · rename_i heq2; simp at h; have := scanBraced_length _ _ _ _ _ _ _ heq2; rw [← h.1]; omega
      · rename_i heq2; simp at h; have := scanBraced_length _ _ _ _ _ _ _ heq2; rw [← h.1]; omega
    · simp at h; have := dropWhile_length_le L.isSimpleIdentifierChar t; rw [← h.1]; omega

theorem evalStringBody_acc_exit (L : Lexer) (Store : List BindingSet) (Bindings : Nat)
    (Pos R : Str) (E : List String) (r : Str) (e : List String)
    (h : evalStringBody L Store Bindings Pos [] [] = .exit r e) :
    evalStringBody L Store Bindings Pos R E = .exit (R ++ r) (E ++ e) := by
  unfold evalStringBody at h ⊢
  split at h
  · rename_i heq; simp at h; simp [heq, h]
  · rename_i heq; simp at h; simp [heq, h]
  · rename_i x c t heq
    simp only [heq]
    split_ifs at h ⊢
    · split at h <;> simp at h
    · simp at h; simp [h]

theorem evalStringBody_acc_next (L : Lexer) (Store : List BindingSet) (Bindings : Nat)
    (Pos R : Str) (E : List String) (p r : Str) (e : List String)
    (h : evalStringBody L Store Bindings Pos [] [] = .next p r e) :
    evalStringBody L Store Bindings Pos R E = .next p (R ++ r) (E ++ e) := by
  unfold evalStringBody at h ⊢
  split at h
  · simp at h
  · simp at h
  · rename_i x c t heq
    simp only [heq]
    split_ifs at h ⊢
    · simp at h; simp [h]
    · simp at h; simp [← h.1, ← h.2.1, ← h.2.2]
    · split at h
      · rename_i heq2; simp at h; simp [heq2, h]
      · rename_i heq2; simp at h; simp [heq2, h]
      · rename_i heq2; simp at h; simp [heq2, ← h.1, ← h.2.1, ← h.2.2]
    · simp at h; simp [← h.1, ← h.2.1, ← h.2.2]

theorem evalStringLoop_acc (L : Lexer) (Store : List BindingSet) (Bindings : Nat)
    (fuel : Nat) (Pos R : Str) (E : List String) :
    evalStringLoop L Store Bindings fuel Pos R E =
      (R ++ (evalStringLoop L Store Bindings fuel Pos [] []).1,
       E ++ (evalStringLoop L Store Bindings fuel Pos [] []).2) := by
  induction fuel generalizing Pos R E with
  | zero => simp [evalStringLoop]
  | succ f ih =>
    cases Pos with
    | nil => simp [evalStringLoop]
    | cons c t =>
      simp only [evalStringLoop]
      cases hb : evalStringBody L Store Bindings (c :: t) [] [] with
      | exit r e => simp [evalStringBody_acc_exit _ _ _ _ R E _ _ hb]
      | next p r e =>
        simp only [evalStringBody_acc_next _ _ _ _ R E _ _ _ hb]
        rw [ih p (R ++ r) (E ++ e), ih p r e]
        simp

theorem evalStringLoop_fuel (L : Lexer) (Store : List BindingSet) (Bindings : Nat)
    (f1 f2 : Nat) (Pos R : Str) (E : List String)
    (h1 : Pos.length < f1) (h2 : Pos.length < f2) :
    evalStringLoop L Store Bindings f1 Pos R E = evalStringLoop L Store Bindings f2 Pos R E := by
  induction f1 generalizing f2 Pos R E with
  | zero => omega
  | succ f ih =>
    cases f2 with
    | zero => omega
    | succ g =>
      cases Pos with
      | nil => simp [evalStringLoop]
      | cons c t =>
        simp only [evalStringLoop]
        cases hb : evalStringBody L Store Bindings (c :: t) R E with
        | exit r e => rfl
        | next p r e =>
          have hl := evalStringBody_length _ _ _ _ _ _ _ _ _ hb
          simp only
          exact ih g p r e (by omega) (by omega)

theorem evalString_nil (L : Lexer) (Store : List BindingSet) (Bindings : Nat) :
    evalString L Store Bindings [] = ([], []) := by
  simp [evalString, evalStringLoop]

theorem evalString_exit (L : Lexer) (Store : List BindingSet) (Bindings : Nat)
    (Pos r : Str) (e : List String) (hne : Pos ≠ [])
    (h : evalStringBody L Store Bindings Pos [] [] = .exit r e) :
    evalString L Store Bindings Pos = (r, e) := by
  cases Pos with
  | nil => exact absurd rfl hne
  | cons c t => simp [evalString, evalStringLoop, h]

theorem evalString_next (L : Lexer) (Store : List BindingSet) (Bindings : Nat)
    (Pos p r : Str) (e : List String) (hne : Pos ≠ [])
    (h : evalStringBody L Store Bindings Pos [] [] = .next p r e) :
    evalString L Store Bindings Pos =
      (r ++ (evalString L Store Bindings p).1, e ++ (evalString L Store Bindings p).2) := by
  cases Pos with
  | nil => exact absurd rfl hne
  | cons c t =>
    have hl := evalStringBody_length _ _ _ _ _ _ _ _ _ h
    simp only [evalString, evalStringLoop, h]
    rw [evalStringLoop_acc]
    rw [evalStringLoop_fuel L Store Bindings ((c :: t).length) (p.length + 1) p [] []
      (by omega) (by omega)]

theorem evalStringBody_literal (L : Lexer) (Store : List BindingSet) (Bindings : Nat)
    (l t R : Str) (E : List String) (hl : ∀ c ∈ l, c ≠ '$') :
    evalStringBody L Store Bindings (l ++ '$' :: t) R E =
      evalStringBody L Store Bindings ('$' :: t) (R ++ l) E := by
  have h : ∀ a ∈ l, (fun c => c != '$') a = true := by
    intro a ha; simp [hl a ha]
  unfold evalStringBody
  simp [List.takeWhile_append_of_pos h, List.dropWhile_append_of_pos h]

/-- A literal run before the next `$` (or before the end) is copied to the
result and evaluation goes on behind it. -/
theorem evalString_literal (L : Lexer) (Store : List BindingSet) (Bindings : Nat)
    (l q : Str) (hl : ∀ c ∈ l, c ≠ '$') (hq : q = [] ∨ ∃ t, q = '$' :: t) :
    evalString L Store Bindings (l ++ q) =
      (l ++ (evalString L Store Bindings q).1, (evalString L Store Bindings q).2) := by
  cases l with
  | nil => simp
  | cons a l1 =>
    rcases hq with hq | ⟨t, hq⟩
    · subst hq
      have h : ∀ x ∈ a :: l1, (fun c => c != '$') x = true := by
        intro x hx; simp [hl x hx]
      have hb : evalStringBody L Store Bindings (a :: l1) [] [] = .exit (a :: l1) [] := by
        unfold evalStringBody
        rw [List.dropWhile_eq_nil_iff.mpr h, List.takeWhile_eq_self_iff.mpr h]
        simp
      rw [List.append_nil, evalString_exit _ _ _ _ _ _ (by simp) hb, evalString_nil]
      simp
    · subst hq
      have hb := evalStringBody_literal L Store Bindings (a :: l1) t [] [] hl
      rw [List.nil_append] at hb
      cases h0 : evalStringBody L Store Bindings ('$' :: t) [] [] with
      | exit r e =>
        rw [evalStringBody_acc_exit _ _ _ _ (a :: l1) [] _ _ h0] at hb
        rw [evalString_exit _ _ _ _ _ _ (by simp) hb, evalString_exit _ _ _ _ _ _ (by simp) h0]
        simp
      | next p r e =>
        rw [evalStringBody_acc_next _ _ _ _ (a :: l1) [] _ _ _ h0] at hb
        rw [evalString_next _ _ _ _ _ _ _ (by simp) hb, evalString_next _ _ _ _ _ _ _ (by simp) h0]
        simp

theorem evalString_dollar_end (L : Lexer) (Store : List BindingSet) (Bindings : Nat) :
    evalString L Store Bindings ['$'] = ([], ["invalid '$'-escape at end of string"]) := by
  apply evalString_exit _ _ _ _ _ _ (by simp)
  simp [evalStringBody]

theorem evalString_escape (L : Lexer) (Store : List BindingSet) (Bindings : Nat)
    (c : Char) (r : Str) (hc : c = ' ' ∨ c = ':' ∨ c = '$') :
    evalString L Store Bindings ('$' :: c :: r) =
      (c :: (evalString L Store Bindings r).1, (evalString L Store Bindings r).2) := by
  have hb : evalStringBody L Store Bindings ('$' :: c :: r) [] [] = .next r [c] [] := by
    rcases hc with h | h | h <;> subst h <;> simp [evalStringBody]
  rw [evalString_next _ _ _ _ _ _ _ (by simp) hb]
  simp

theorem evalString_newline (L : Lexer) (Store : List BindingSet) (Bindings : Nat) (r : Str) :
    evalString L Store Bindings ('$' :: '\n' :: r) =
      evalString L Store Bindings (r.dropWhile isspace) := by
  have hb : evalStringBody L Store Bindings ('$' :: '\n' :: r) [] [] =
      .next (r.dropWhile isspace) [] [] := by
    simp [evalStringBody]
  rw [evalString_next _ _ _ _ _ _ _ (by simp) hb]
  simp

theorem evalString_braced (L : Lexer) (Store : List BindingSet) (Bindings : Nat) (r : Str) :
    evalString L Store Bindings ('$' :: '{' :: r) =
      match scanBraced L r true [] with
      | none => ([], ["invalid variable reference in string (missing trailing '\x7d')"])
      | some (false, _, r1) =>
        ((evalString L Store Bindings r1).1,
          "invalid variable name in reference" :: (evalString L Store Bindings r1).2)
      | some (true, Var, r1) =>
        (BindingSet.lookup Store Bindings Var ++ (evalString L Store Bindings r1).1,
          (evalString L Store Bindings r1).2) := by
  rcases hsb : scanBraced L r true [] with _ | ⟨v, Var, r1⟩
  · have hb : evalStringBody L Store Bindings ('$' :: '{' :: r) [] [] = .next [] []
        ["invalid variable reference in string (missing trailing '\x7d')"] := by
      simp [evalStringBody, hsb]
    rw [evalString_next _ _ _ _ _ _ _ (List.cons_ne_nil _ _) hb]
    simp [evalString_nil]
  · cases v
    · have hb : evalStringBody L Store Bindings ('$' :: '{' :: r) [] [] =
          .next r1 [] ["invalid variable name in reference"] := by
        simp [evalStringBody, hsb]
      rw [evalString_next _ _ _ _ _ _ _ (List.cons_ne_nil _ _) hb]
      simp
    · have hb : evalStringBody L Store Bindings ('$' :: '{' :: r) [] [] =
          .next r1 (BindingSet.lookup Store Bindings Var) [] := by
        simp [evalStringBody, hsb]
      rw [evalString_next _ _ _ _ _ _ _ (List.cons_ne_nil _ _) hb]
      simp

theorem evalString_simple (L : Lexer) (Store : List BindingSet) (Bindings : Nat)
    (c : Char) (r : Str) (h1 : c ≠ '\n') (h2 : c ≠ ' ') (h3 : c ≠ ':') (h4 : c ≠ '$')
    (h5 : c ≠ '{') (hs : L.isSimpleIdentifierChar c = true) :
    evalString L Store Bindings ('$' :: c :: r) =
      (BindingSet.lookup Store Bindings (c :: r.takeWhile L.isSimpleIdentifierChar) ++
          (evalString L Store Bindings (r.dropWhile L.isSimpleIdentifierChar)).1,
        (evalString L Store Bindings (r.dropWhile L.isSimpleIdentifierChar)).2) := by
  have hb : evalStringBody L Store Bindings ('$' :: c :: r) [] [] =
      .next (r.dropWhile L.isSimpleIdentifierChar)
        (BindingSet.lookup Store Bindings (c :: r.takeWhile L.isSimpleIdentifierChar)) [] := by
    simp [evalStringBody, h1, h2, h3, h4, h5, hs]
  rw [evalString_next _ _ _ _ _ _ _ (by simp) hb]
  simp

theorem evalString_invalid (L : Lexer) (Store : List BindingSet) (Bindings : Nat)
    (c : Char) (r : Str) (h1 : c ≠ '\n') (h2 : c ≠ ' ') (h3 : c ≠ ':') (h4 : c ≠ '$')
    (h5 : c ≠ '{') (hs : L.isSimpleIdentifierChar c = false) :
    evalString L Store Bindings ('$' :: c :: r) =
      ([], ["invalid '$'-escape (literal '$' should be written as '$$')"]) := by
  apply evalString_exit _ _ _ _ _ _ (by simp)
  simp [evalStringBody, h1, h2, h3, h4, h5, hs]

theorem scanBraced_closed (L : Lexer) (n r : Str) (v : Bool) (acc : Str)
    (hn : ∀ c ∈ n, c ≠ '}') :
    scanBraced L (n ++ '}' :: r) v acc =
      some (v && n.all L.isIdentifierChar, acc ++ n, r) := by
  induction n generalizing v acc with
  | nil => simp [scanBraced]
  | cons a t ih =>
    have ha : a ≠ '}' := hn a (by simp)
    rw [List.cons_append, scanBraced, if_neg ha]
    rw [ih _ _ (fun c hc => hn c (by simp [hc]))]
    simp [Bool.and_assoc]

theorem scanBraced_open (L : Lexer) (s : Str) (v : Bool) (acc : Str)
    (hs : ∀ c ∈ s, c ≠ '}') : scanBraced L s v acc = none := by
  induction s generalizing v acc with
  | nil => simp [scanBraced]
  | cons a t ih =>
    have ha : a ≠ '}' := hs a (by simp)
    simp only [scanBraced, if_neg ha]
    exact ih _ _ (fun c hc => hs c (by simp [hc]))

theorem scanBraced_append (L : Lexer) (s q : Str) (v : Bool) (acc : Str)
    (v1 : Bool) (n r : Str) (h : scanBraced L s v acc = some (v1, n, r)) :
    scanBraced L (s ++ q) v acc = some (v1, n, r ++ q) := by
  induction s generalizing v acc with
  | nil => simp [scanBraced] at h
  | cons a t ih =>
    rw [List.cons_append, scanBraced]
    rw [scanBraced] at h
    split_ifs at h ⊢ with ha
    · simp at h; simp [h]
    · exact ih _ _ h

theorem takeWhile_dropWhile_stop {α : Type} (p : α → Bool) (r q : List α)
    (hq : q = [] ∨ ∃ a t, q = a :: t ∧ p a = false) :
    (r ++ q).takeWhile p = r.takeWhile p ∧ (r ++ q).dropWhile p = r.dropWhile p ++ q := by
  induction r with
  | nil =>
    rcases hq with hq | ⟨a, t, hq, ha⟩
    · simp [hq]
    · simp [hq, ha]
  | cons b t ih =>
    by_cases hb : p b = true
    · simp [List.takeWhile_cons, List.dropWhile_cons, hb, ih]
    · simp [List.takeWhile_cons, List.dropWhile_cons, hb]

theorem takeWhile_dropWhile_dollar (p : Str) :
    p = p.takeWhile (fun c => c != '$') ++ p.dropWhile (fun c => c != '$') ∧
    (∀ c ∈ p.takeWhile (fun c => c != '$'), c ≠ '$') ∧
    (p.dropWhile (fun c => c != '$') = [] ∨
      ∃ t, p.dropWhile (fun c => c != '$') = '$' :: t) := by
  refine ⟨(List.takeWhile_append_dropWhile _ _).symm, ?_, ?_⟩
  · intro c hc
    have := List.mem_takeWhile_imp hc
    simpa using this
  · induction p with
    | nil => simp
    | cons a t ih =>
      by_cases ha : a = '$'
      · right; subst ha; simp
      · simpa [List.dropWhile_cons, ha] using ih

/-- Evaluation of an error-free template followed by a template that starts
with `$` (or is empty) is the evaluation of the two, one after the other. -/
theorem evalString_append_aux (L : Lexer) (Store : List BindingSet) (Bindings : Nat)
    (hd : L.isSimpleIdentifierChar '$' = false) (q : Str)
    (hq : q = [] ∨ ∃ t, q = '$' :: t) :
    ∀ (n : Nat) (p : Str), p.length ≤ n → (evalString L Store Bindings p).2 = [] →
      evalString L Store Bindings (p ++ q) =
        ((evalString L Store Bindings p).1 ++ (evalString L Store Bindings q).1,
          (evalString L Store Bindings q).2) := by
  have hqs : q = [] ∨ ∃ a t, q = a :: t ∧ isspace a = false := by
    rcases hq with h | ⟨t, h⟩
    · exact Or.inl h
    · exact Or.inr ⟨'$', t, h, by decide⟩
  have hqi : q = [] ∨ ∃ a t, q = a :: t ∧ L.isSimpleIdentifierChar a = false := by
    rcases hq with h | ⟨t, h⟩
    · exact Or.inl h
    · exact Or.inr ⟨'$', t, h, hd⟩
  intro n
  induction n with
  | zero =>
    intro p hp _
    have : p = [] := List.length_eq_zero.mp (Nat.le_zero.mp hp)
    subst this
    simp [evalString_nil]
  | succ n ih =>
    intro p hp herr
    obtain ⟨hsplit, hlit, htail⟩ := takeWhile_dropWhile_dollar p
    generalize p.takeWhile (fun c => c != '$') = l at hsplit hlit
    generalize p.dropWhile (fun c => c != '$') = p1 at hsplit htail
    subst hsplit
    rw [evalString_literal L Store Bindings l p1 hlit htail] at herr ⊢
    simp only at herr
    rcases htail with h1 | ⟨t, h1⟩
    · subst h1
      simp only [List.append_nil, evalString_nil]
      rw [evalString_literal L Store Bindings l q hlit hq]
    · subst h1
      have hq2 : ('$' :: t) ++ q = [] ∨ ∃ t1, ('$' :: t) ++ q = '$' :: t1 :=
        Or.inr ⟨t ++ q, rfl⟩
      rw [List.append_assoc, evalString_literal L Store Bindings l _ hlit hq2]
      have hlen : t.length ≤ n := by simp at hp; omega
      suffices hmain : evalString L Store Bindings ('$' :: t ++ q) =
          ((evalString L Store Bindings ('$' :: t)).1 ++ (evalString L Store Bindings q).1,
            (evalString L Store Bindings q).2) by
        rw [hmain]; simp
      cases t with
      | nil => rw [evalString_dollar_end] at herr; simp at herr
      | cons c r =>
        simp only [List.length_cons] at hlen
        by_cases h1 : c = '\n'
        · subst h1
          rw [evalString_newline] at herr
          rw [List.cons_append, List.cons_append, evalString_newline, evalString_newline,
            (takeWhile_dropWhile_stop isspace r q hqs).2]
          exact ih _ (by have := dropWhile_length_le isspace r; omega) herr
        · by_cases h2 : c = ' ' ∨ c = ':' ∨ c = '$'
          · rw [evalString_escape _ _ _ _ _ h2] at herr
            rw [List.cons_append, List.cons_append, evalString_escape _ _ _ _ _ h2,
              evalString_escape _ _ _ _ _ h2, ih r (by omega) herr]
            simp
          · have h2a : c ≠ ' ' := fun h => h2 (Or.inl h)
            have h2b : c ≠ ':' := fun h => h2 (Or.inr (Or.inl h))
            have h2c : c ≠ '$' := fun h => h2 (Or.inr (Or.inr h))
            by_cases h3 : c = '{'
            · subst h3
              rw [evalString_braced] at herr
              rw [List.cons_append, List.cons_append, evalString_braced, evalString_braced]
              rcases hsb : scanBraced L r true [] with _ | ⟨v, Var, r1⟩
              · rw [hsb] at herr; simp at herr
              · rw [hsb] at herr
                rw [scanBraced_append L r q true [] v Var r1 hsb]
                cases v
                · simp at herr
                · simp only at herr ⊢
                  have := scanBraced_length _ _ _ _ _ _ _ hsb
                  rw [ih r1 (by omega) herr]
                  simp
            · by_cases h4 : L.isSimpleIdentifierChar c = true
              · rw [evalString_simple _ _ _ _ _ h1 h2a h2b h2c h3 h4] at herr
                rw [List.cons_append, List.cons_append,
                  evalString_simple _ _ _ _ _ h1 h2a h2b h2c h3 h4,
                  evalString_simple _ _ _ _ _ h1 h2a h2b h2c h3 h4,
                  (takeWhile_dropWhile_stop L.isSimpleIdentifierChar r q hqi).1,
                  (takeWhile_dropWhile_stop L.isSimpleIdentifierChar r q hqi).2]
                simp only at herr
                rw [ih _ (by have := dropWhile_length_le L.isSimpleIdentifierChar r; omega) herr]
                simp
              · have h4f : L.isSimpleIdentifierChar c = false := by simpa using h4
                rw [evalString_invalid _ _ _ _ _ h1 h2a h2b h2c h3 h4f] at herr
                simp at herr

theorem evalString_append (L : Lexer) (Store : List BindingSet) (Bindings : Nat)
    (hd : L.isSimpleIdentifierChar '$' = false) (p q : Str)
    (hp : (evalString L Store Bindings p).2 = []) (hq : q = [] ∨ ∃ t, q = '$' :: t) :
    evalString L Store Bindings (p ++ q) =
      ((evalString L Store Bindings p).1 ++ (evalString L Store Bindings q).1,
        (evalString L Store Bindings q).2) :=
  evalString_append_aux L Store Bindings hd q hq p.length p (Nat.le_refl _) hp

/-! ## The template evaluator: escapes and references -/

/-- C1: for every binding scope, every literal run `l` without `$`, every `c`
among space, `:` and `$`, and every template `r`, `evalString (l ++ "$" ++ c ++ r)`
is `l ++ c ++ evalString r` and the escape adds no error (the errors are those
of `r`); in particular `$$`, `$ ` and `$:` evaluate to `$`, a space and `:`
with no error. -/
theorem evalString_char_escape (L : Lexer) (Store : List BindingSet) (Bindings : Nat)
    (l : Str) (c : Char) (r : Str) (hl : ∀ x ∈ l, x ≠ '$')
    (hc : c = ' ' ∨ c = ':' ∨ c = '$') :
    evalString L Store Bindings (l ++ '$' :: c :: r) =
        (l ++ c :: (evalString L Store Bindings r).1, (evalString L Store Bindings r).2) ∧
      evalString L Store Bindings ['$', '$'] = (['$'], []) ∧
      evalString L Store Bindings ['$', ' '] = ([' '], []) ∧
      evalString L Store Bindings ['$', ':'] = ([':'], []) := by
  refine ⟨?_, ?_, ?_, ?_⟩
  · rw [evalString_literal L Store Bindings l _ hl (Or.inr ⟨_, rfl⟩),
      evalString_escape _ _ _ _ _ hc]
  · rw [evalString_escape _ _ _ _ _ (Or.inr (Or.inr rfl)), evalString_nil]
  · rw [evalString_escape _ _ _ _ _ (Or.inl rfl), evalString_nil]
  · rw [evalString_escape _ _ _ _ _ (Or.inr (Or.inl rfl)), evalString_nil]

theorem evalString_char_escape_witness :
    evalString ninjaLexer [⟨[], none⟩] 0 ("ab".toList ++ '$' :: ':' :: "cd".toList) =
      ("ab:cd".toList, []) :=
  (evalString_char_escape ninjaLexer [⟨[], none⟩] 0 "ab".toList ':' "cd".toList
    (by decide) (by decide)).1.trans (by decide)

/-- C2: for every binding scope, every whitespace-only string `w` and every
template `r` that is empty or starts with a non-whitespace character,
`evalString ("$\n" ++ w ++ r)` is `evalString r`, errors included: the newline
and the whitespace after it are elided.  In particular `"a$\n   b"` evaluates
to `"ab"`. -/
theorem evalString_line_continuation (L : Lexer) (Store : List BindingSet) (Bindings : Nat)
    (w r : Str) (hw : ∀ c ∈ w, isspace c = true)
    (hr : r = [] ∨ ∃ a t, r = a :: t ∧ isspace a = false) :
    evalString L Store Bindings ('$' :: '\n' :: (w ++ r)) = evalString L Store Bindings r ∧
      evalString L Store Bindings ['a', '$', '\n', ' ', ' ', ' ', 'b'] = (['a', 'b'], []) := by
  have hgen : ∀ (w r : Str), (∀ c ∈ w, isspace c = true) →
      (r = [] ∨ ∃ a t, r = a :: t ∧ isspace a = false) →
      evalString L Store Bindings ('$' :: '\n' :: (w ++ r)) = evalString L Store Bindings r := by
    intro w r hw hr
    rw [evalString_newline, (takeWhile_dropWhile_stop isspace w r hr).2,
      List.dropWhile_eq_nil_iff.mpr hw, List.nil_append]
  refine ⟨hgen w r hw hr, ?_⟩
  have h1 := evalString_literal L Store Bindings ['a'] ['$', '\n', ' ', ' ', ' ', 'b']
    (by decide) (Or.inr ⟨_, rfl⟩)
  have h2 := hgen [' ', ' ', ' '] ['b'] (by decide) (Or.inr ⟨'b', [], rfl, by decide⟩)
  have h3 := evalString_literal L Store Bindings ['b'] [] (by decide) (Or.inl rfl)
  simp only [List.cons_append, List.nil_append, List.append_nil] at h1 h2 h3
  rw [h1, h2, h3, evalString_nil]

theorem evalString_line_continuation_witness :
    evalString ninjaLexer [⟨[], none⟩] 0 ('$' :: '\n' :: (" \t ".toList ++ "x y".toList)) =
      ("x y".toList, []) :=
  (evalString_line_continuation ninjaLexer [⟨[], none⟩] 0 " \t ".toList "x y".toList
    (by decide) (Or.inr ⟨'x', " y".toList, rfl, by decide⟩)).1.trans (by decide)

/-- C3: for every binding scope, every name `n` made only of identifier
characters and every template `r`, `evalString ("${" ++ n ++ "}" ++ r)` is
`lookup n ++ evalString r` and the reference adds no error (the closing brace
is not an identifier character of the lexer). -/
theorem evalString_braced_reference (L : Lexer) (Store : List BindingSet) (Bindings : Nat)
    (n r : Str) (hclose : L.isIdentifierChar '}' = false)
    (hn : ∀ c ∈ n, L.isIdentifierChar c = true) :
    evalString L Store Bindings ('$' :: '{' :: (n ++ '}' :: r)) =
      (BindingSet.lookup Store Bindings n ++ (evalString L Store Bindings r).1,
        (evalString L Store Bindings r).2) := by
  have hno : ∀ c ∈ n, c ≠ '}' := by
    intro c hc h
    have := hn c hc
    rw [h, hclose] at this
    exact Bool.noConfusion this
  have hall : n.all L.isIdentifierChar = true := List.all_eq_true.mpr hn
  rw [evalString_braced, scanBraced_closed L n r true [] hno, hall]
  simp

theorem evalString_braced_reference_witness :
    evalString ninjaLexer [⟨[(['x'], ['v'])], none⟩] 0 ('$' :: '{' :: (['x'] ++ '}' :: [])) =
      (['v'], []) :=
  (evalString_braced_reference ninjaLexer [⟨[(['x'], ['v'])], none⟩] 0 ['x'] []
    (by decide) (by decide)).trans (by decide)

/-- C4: for every binding scope, every non-empty name `n` of simple identifier
characters and every template `r` that is empty or starts with a character
that is not a simple identifier character, `evalString ("$" ++ n ++ r)` is
`lookup n ++ evalString r` and the reference adds no error: the bare reference
takes the maximal identifier run (no simple identifier character of the lexer
is a newline, a space, `:`, `$` or an opening brace). -/
theorem evalString_simple_reference (L : Lexer) (Store : List BindingSet) (Bindings : Nat)
    (n r : Str)
    (hlex : ∀ c, L.isSimpleIdentifierChar c = true →
      c ≠ '\n' ∧ c ≠ ' ' ∧ c ≠ ':' ∧ c ≠ '$' ∧ c ≠ '{')
    (hne : n ≠ []) (hn : ∀ c ∈ n, L.isSimpleIdentifierChar c = true)
    (hr : r = [] ∨ ∃ a t, r = a :: t ∧ L.isSimpleIdentifierChar a = false) :
    evalString L Store Bindings ('$' :: (n ++ r)) =
      (BindingSet.lookup Store Bindings n ++ (evalString L Store Bindings r).1,
        (evalString L Store Bindings r).2) := by
  cases n with
  | nil => exact absurd rfl hne
  | cons c t =>
    have hc := hn c (by simp)
    have ht : ∀ x ∈ t, L.isSimpleIdentifierChar x = true := fun x hx => hn x (by simp [hx])
    obtain ⟨h1, h2, h3, h4, h5⟩ := hlex c hc
    rw [List.cons_append, evalString_simple _ _ _ _ _ h1 h2 h3 h4 h5 hc,
      (takeWhile_dropWhile_stop L.isSimpleIdentifierChar t r hr).1,
      (takeWhile_dropWhile_stop L.isSimpleIdentifierChar t r hr).2,
      List.takeWhile_eq_self_iff.mpr ht, List.dropWhile_eq_nil_iff.mpr ht, List.nil_append]

theorem evalString_simple_reference_witness :
    evalString ninjaLexer [⟨[(['x'], ['v'])], none⟩] 0 ('$' :: (['x'] ++ [])) = (['v'], []) :=
  (evalString_simple_reference ninjaLexer [⟨[(['x'], ['v'])], none⟩] 0 ['x'] []
    (by
      intro c hc
      refine ⟨?_, ?_, ?_, ?_, ?_⟩ <;> (intro h; subst h; revert hc; decide))
    (by decide) (by decide) (Or.inl rfl)).trans (by decide)

/-- C5: for every binding scope, every literal prefix `p` without `$` and
every string `s` without a closing brace, `evalString (p ++ "${" ++ s)` reports
exactly one error, the missing trailing brace, and returns exactly `p`. -/
theorem evalString_missing_brace (L : Lexer) (Store : List BindingSet) (Bindings : Nat)
    (p s : Str) (hp : ∀ c ∈ p, c ≠ '$') (hs : ∀ c ∈ s, c ≠ '}') :
    evalString L Store Bindings (p ++ '$' :: '{' :: s) =
      (p, ["invalid variable reference in string (missing trailing '\x7d')"]) := by
  rw [evalString_literal L Store Bindings p _ hp (Or.inr ⟨_, rfl⟩), evalString_braced,
    scanBraced_open L s true [] hs]
  simp

theorem evalString_missing_brace_witness :
    evalString ninjaLexer [⟨[], none⟩] 0 ([] ++ '$' :: '{' :: "bad".toList) =
      ([], ["invalid variable reference in string (missing trailing '\x7d')"]) :=
  evalString_missing_brace ninjaLexer [⟨[], none⟩] 0 [] "bad".toList (by decide) (by decide)

/-- C6, at a concrete input: with the empty prefix, the braced name `a b`
(no closing brace inside, a space that is no identifier character) and the
remainder `c`, the invalid reference is reported but the remainder is still
evaluated and appended: the result is `c`, not the value of the prefix. -/
theorem evalString_invalid_name_not_abandoned :
    (evalString ninjaLexer [⟨[], none⟩] 0 []).2 = [] ∧
      '}' ∉ "a b".toList ∧
      (' ' ∈ "a b".toList ∧ ninjaLexer.isIdentifierChar ' ' = false) ∧
      evalString ninjaLexer [⟨[], none⟩] 0
          ([] ++ '$' :: '{' :: ("a b".toList ++ '}' :: "c".toList)) =
        ("c".toList, ["invalid variable name in reference"]) ∧
      (evalString ninjaLexer [⟨[], none⟩] 0
          ([] ++ '$' :: '{' :: ("a b".toList ++ '}' :: "c".toList))).1 ≠
        (evalString ninjaLexer [⟨[], none⟩] 0 []).1 := by
  decide

/-- C6, amended: for every binding scope, every prefix template `p` that
evaluates without error, every `s` without a closing brace but with a
character that is no identifier character, and every template `r`,
`evalString (p ++ "${" ++ s ++ "}" ++ r)` reports one invalid-variable-name
error for the reference, appends nothing for it and goes on with the
remainder: the result is `evalString p ++ evalString r` and the errors are
that one error followed by the errors of `r` (`$` is not a simple identifier
character of the lexer). -/
theorem evalString_invalid_name (L : Lexer) (Store : List BindingSet) (Bindings : Nat)
    (p s r : Str) (hd : L.isSimpleIdentifierChar '$' = false)
    (hp : (evalString L Store Bindings p).2 = [])
    (hs : ∀ c ∈ s, c ≠ '}') (hbad : ∃ c ∈ s, L.isIdentifierChar c = false) :
    evalString L Store Bindings (p ++ '$' :: '{' :: (s ++ '}' :: r)) =
      ((evalString L Store Bindings p).1 ++ (evalString L Store Bindings r).1,
        "invalid variable name in reference" :: (evalString L Store Bindings r).2) := by
  have hall : s.all L.isIdentifierChar = false := by
    obtain ⟨c, hc, hcb⟩ := hbad
    cases h : s.all L.isIdentifierChar with
    | false => rfl
    | true =>
      have := List.all_eq_true.mp h c hc
      rw [hcb] at this
      exact Bool.noConfusion this
  rw [evalString_append L Store Bindings hd p _ hp (Or.inr ⟨_, rfl⟩), evalString_braced,
    scanBraced_closed L s r true [] hs, hall]
  simp

theorem evalString_invalid_name_witness :
    evalString ninjaLexer [⟨[(['x'], ['v'])], none⟩] 0
        ("$x".toList ++ '$' :: '{' :: ("a b".toList ++ '}' :: "c$\x7b".toList)) =
      ("vc".toList, ["invalid variable name in reference",
        "invalid variable reference in string (missing trailing '\x7d')"]) :=
  (evalString_invalid_name ninjaLexer [⟨[(['x'], ['v'])], none⟩] 0 "$x".toList "a b".toList
    "c$\x7b".toList (by decide) (by decide) (by decide) (by decide)).trans (by decide)

/-- C7: for every binding scope, every prefix template `p` that evaluates
without error, every character `c` that is none of newline, space, `:`, `$`,
an opening brace or a simple identifier character, and every template `r`,
`evalString (p ++ "$" ++ c ++ r)` reports exactly one error and returns
exactly `evalString p`, whatever `r` is; and `evalString (p ++ "$")` reports
exactly one error and returns `evalString p` (`$` is not a simple identifier
character of the lexer). -/
theorem evalString_invalid_escape (L : Lexer) (Store : List BindingSet) (Bindings : Nat)
    (p : Str) (c : Char) (r : Str) (hd : L.isSimpleIdentifierChar '$' = false)
    (hp : (evalString L Store Bindings p).2 = [])
    (h1 : c ≠ '\n') (h2 : c ≠ ' ') (h3 : c ≠ ':') (h4 : c ≠ '$') (h5 : c ≠ '{')
    (hs : L.isSimpleIdentifierChar c = false) :
    evalString L Store Bindings (p ++ '$' :: c :: r) =
        ((evalString L Store Bindings p).1,
          ["invalid '$'-escape (literal '$' should be written as '$$')"]) ∧
      evalString L Store Bindings (p ++ ['$']) =
        ((evalString L Store Bindings p).1, ["invalid '$'-escape at end of string"]) := by
  constructor
  · rw [evalString_append L Store Bindings hd p _ hp (Or.inr ⟨_, rfl⟩),
      evalString_invalid _ _ _ _ _ h1 h2 h3 h4 h5 hs]
    simp
  · rw [evalString_append L Store Bindings hd p _ hp (Or.inr ⟨_, rfl⟩), evalString_dollar_end]
    simp

theorem evalString_invalid_escape_witness :
    evalString ninjaLexer [⟨[(['x'], ['v'])], none⟩] 0
        ("a$\x7bx\x7d$\n ".toList ++ '$' :: '.' :: "b$$".toList) =
        ("av".toList, ["invalid '$'-escape (literal '$' should be written as '$$')"]) ∧
      evalString ninjaLexer [⟨[(['x'], ['v'])], none⟩] 0 ("a$\x7bx\x7d$\n ".toList ++ ['$']) =
        ("av".toList, ["invalid '$'-escape at end of string"]) :=
  have h := evalString_invalid_escape ninjaLexer [⟨[(['x'], ['v'])], none⟩] 0
    "a$\x7bx\x7d$\n ".toList '.' "b$$".toList (by decide) (by decide) (by decide) (by decide)
    (by decide) (by decide) (by decide) (by decide)
  ⟨h.1.trans (by decide), h.2.trans (by decide)⟩

/-! ## Tables and binding sets -/

theorem tableFind_insert_self {V : Type} (k : Str) (v : V) (m : List (Str × V)) :
    tableFind k (tableInsert k v m) = some v := by
  induction m with
  | nil => simp [tableInsert, tableFind]
  | cons a t ih =>
    obtain ⟨k1, v1⟩ := a
    by_cases h : k1 = k
    · simp [tableInsert, tableFind, h]
    · simp [tableInsert, tableFind, h, ih]

theorem tableFind_insert_other {V : Type} (k k2 : Str) (v : V) (m : List (Str × V))
    (hk : k2 ≠ k) : tableFind k2 (tableInsert k v m) = tableFind k2 m := by
  induction m with
  | nil => simp [tableInsert, tableFind, Ne.symm hk]
  | cons a t ih =>
    obtain ⟨k1, v1⟩ := a
    by_cases h : k1 = k
    · subst h
      simp [tableInsert, tableFind, Ne.symm hk]
    · by_cases h2 : k1 = k2
      · subst h2
        simp [tableInsert, tableFind, h]
      · simp [tableInsert, tableFind, h, h2, ih]

theorem insert_length (Store : List BindingSet) (Ref : Nat) (Name Value : Str) :
    (BindingSet.insert Store Ref Name Value).length = Store.length := by
  simp [BindingSet.insert]

theorem insert_get?_self (Store : List BindingSet) (Ref : Nat) (Name Value : Str) :
    (BindingSet.insert Store Ref Name Value).get? Ref =
      (Store.get? Ref).map
        (fun B => { B with Entries := tableInsert Name Value B.Entries }) := by
  simp [BindingSet.insert, List.getElem?_modify]

theorem insert_get?_other (Store : List BindingSet) (Ref i : Nat) (Name Value : Str)
    (h : i ≠ Ref) : (BindingSet.insert Store Ref Name Value).get? i = Store.get? i := by
  simp [BindingSet.insert, List.getElem?_modify, Ne.symm h]

/-- After `insert`, the scope resolves the inserted name to the inserted
value. -/
theorem lookup_insert_self (Store : List BindingSet) (Ref : Nat) (Name Value : Str)
    (hRef : Ref < Store.length) :
    BindingSet.lookup (BindingSet.insert Store Ref Name Value) Ref Name = Value := by
  unfold BindingSet.lookup
  rw [insert_length]
  obtain ⟨n, hn⟩ : ∃ n, Store.length = n + 1 := ⟨Store.length - 1, by omega⟩
  rw [hn, BindingSet.lookupFrom, insert_get?_self]
  have hsome : Store.get? Ref = some (Store.get ⟨Ref, hRef⟩) := by
    simp [List.getElem?_eq_getElem hRef]
  rw [hsome]
  simp [tableFind_insert_self]

/-- Two stores in which every cell has the same parent and the same entry for
a name resolve that name alike. -/
theorem lookupFrom_congr (Name : Str) (St St1 : List BindingSet)
    (h : ∀ i, (St1.get? i).map (fun B => (tableFind Name B.Entries, B.ParentScope)) =
      (St.get? i).map (fun B => (tableFind Name B.Entries, B.ParentScope)))
    (fuel Ref : Nat) :
    BindingSet.lookupFrom St1 fuel Ref Name = BindingSet.lookupFrom St fuel Ref Name := by
  induction fuel generalizing Ref with
  | zero => simp [BindingSet.lookupFrom]
  | succ f ih =>
    have hi := h Ref
    simp only [BindingSet.lookupFrom]
    cases h1 : St1.get? Ref with
    | none =>
      cases h2 : St.get? Ref with
      | none => rfl
      | some C => rw [h1, h2] at hi; simp at hi
    | some C1 =>
      cases h2 : St.get? Ref with
      | none => rw [h1, h2] at hi; simp at hi
      | some C =>
        rw [h1, h2] at hi
        simp only [Option.map_some', Option.some.injEq, Prod.mk.injEq] at hi
        simp only [hi.1, hi.2]
        cases tableFind Name C.Entries with
        | some v => rfl
        | none =>
          cases C.ParentScope with
          | none => rfl
          | some P => exact ih P

theorem lookup_insert_other (Store : List BindingSet) (Ref Ref2 : Nat)
    (Name Value Other : Str) (h : Other ≠ Name) :
    BindingSet.lookup (BindingSet.insert Store Ref Name Value) Ref2 Other =
      BindingSet.lookup Store Ref2 Other := by
  unfold BindingSet.lookup
  rw [insert_length]
  apply lookupFrom_congr
  intro i
  by_cases hi : i = Ref
  · subst hi
    rw [insert_get?_self]
    cases Store.get? i with
    | none => rfl
    | some C => simp [tableFind_insert_other _ _ _ _ h]
  · rw [insert_get?_other _ _ _ _ _ hi]

/-! ## The handlers -/

namespace ManifestLoaderImpl

theorem error_ok (S : ManifestLoaderImpl) (Top : IncludeEntry)
    (hTop : S.IncludeStack.getLast? = some Top) (Message : String) (At : Token) :
    S.error Message At =
      .ok { S with
            Errors := S.Errors ++ [{ Filename := Top.Filename, Message := Message, At := At }] } := by
  simp [error, getCurrentFilename, hTop]

theorem errorAll_ok (S : ManifestLoaderImpl) (Top : IncludeEntry)
    (hTop : S.IncludeStack.getLast? = some Top) (At : Token) (Messages : List String) :
    errorAll At Messages S =
      .ok { S with
            Errors := S.Errors ++
              Messages.map (fun M => { Filename := Top.Filename, Message := M, At := At }) } := by
  induction Messages generalizing S with
  | nil => simp [errorAll]
  | cons M Ms ih =>
    simp only [errorAll, error_ok S Top hTop]
    rw [ih _ (by exact hTop)]
    simp

theorem evalString_ok (S : ManifestLoaderImpl) (E : Env) (Top : IncludeEntry)
    (hTop : S.IncludeStack.getLast? = some Top) (Value : Token) (Bindings : Nat) :
    S.evalString E Value Bindings =
      .ok ((ninja.evalString E.Lexer S.BindingSets Bindings Value).1,
        { S with
          Errors := S.Errors ++
            (ninja.evalString E.Lexer S.BindingSets Bindings Value).2.map
              (fun M => { Filename := Top.Filename, Message := M, At := Value }) }) := by
  simp [evalString, errorAll_ok S Top hTop]

/-- C9: for every loader state with an active scope, every name and every
value template, `actOnBindingDecl` evaluates the template against the active
scope as it is before the declaration, and afterwards the active scope
resolves the name to that evaluated string, resolves every other name as
before, and the manifest tables (nodes, rules, pools, commands, default
targets) and the include stack are unchanged; the only errors added are those
of the evaluation. -/
theorem actOnBindingDecl_spec (E : Env) (S : ManifestLoaderImpl) (Top : IncludeEntry)
    (NameTok ValueTok : Token) (hTop : S.IncludeStack.getLast? = some Top)
    (hB : Top.Bindings < S.BindingSets.length) :
    ∃ S1, S.actOnBindingDecl E NameTok ValueTok = .ok S1 ∧
      BindingSet.lookup S1.BindingSets Top.Bindings NameTok =
        (ninja.evalString E.Lexer S.BindingSets Top.Bindings ValueTok).1 ∧
      (∀ Other, Other ≠ NameTok →
        BindingSet.lookup S1.BindingSets Top.Bindings Other =
          BindingSet.lookup S.BindingSets Top.Bindings Other) ∧
      S1.TheManifest = S.TheManifest ∧
      S1.IncludeStack = S.IncludeStack ∧
      S1.Errors = S.Errors ++
        (ninja.evalString E.Lexer S.BindingSets Top.Bindings ValueTok).2.map
          (fun M => { Filename := Top.Filename, Message := M, At := ValueTok }) := by
  have hrun : S.actOnBindingDecl E NameTok ValueTok =
      .ok { S with
            BindingSets := BindingSet.insert S.BindingSets Top.Bindings NameTok
              (ninja.evalString E.Lexer S.BindingSets Top.Bindings ValueTok).1
            Errors := S.Errors ++
              (ninja.evalString E.Lexer S.BindingSets Top.Bindings ValueTok).2.map
                (fun M => { Filename := Top.Filename, Message := M, At := ValueTok }) } := by
    simp only [actOnBindingDecl, getCurrentBindings, hTop, evalString_ok S E Top hTop, bind,
      Except.bind, pure, Except.pure]
  refine ⟨_, hrun, ?_, ?_, rfl, rfl, rfl⟩
  · exact lookup_insert_self _ _ _ _ hB
  · intro Other hO
    exact lookup_insert_other _ _ _ _ _ _ hO

theorem actOnBindingDecl_spec_witness :
    ∃ S1, sampleState.actOnBindingDecl sampleEnv "x".toList "$x b".toList = .ok S1 ∧
      BindingSet.lookup S1.BindingSets 0 "x".toList = "a b".toList :=
  match actOnBindingDecl_spec sampleEnv sampleState
      { Filename := "build.ninja".toList, Parser := [], Bindings := 0 }
      "x".toList "$x b".toList (by decide) (by decide) with
  | ⟨S1, h1, h2, _⟩ => ⟨S1, h1, h2.trans (by decide)⟩

/-! ### Rule blocks -/

theorem tableFind_modify_self {V : Type} (k : Str) (f : V → V) (m : List (Str × V)) :
    tableFind k (tableModify k f m) = (tableFind k m).map f := by
  induction m with
  | nil => simp [tableModify, tableFind]
  | cons a t ih =>
    obtain ⟨k1, v1⟩ := a
    by_cases h : k1 = k
    · simp [tableModify, tableFind, h]
    · simp [tableModify, tableFind, h, ih]

theorem lastBinding_mem (k v : Str) (B : List (Token × Token))
    (h : lastBinding k B = some v) : (k, v) ∈ B := by
  induction B with
  | nil => simp [lastBinding] at h
  | cons a t ih =>
    obtain ⟨N, V⟩ := a
    simp only [lastBinding] at h
    cases hl : lastBinding k t with
    | some W =>
      rw [hl] at h
      simp only [Option.some.injEq] at h
      subst h
      exact List.mem_cons_of_mem _ (ih hl)
    | none =>
      rw [hl] at h
      by_cases hN : N = k
      · simp [hN] at h
        simp [hN, h]
      · simp [hN] at h

/-- The binding callbacks of a rule block: the rule in the slot gets, for each
valid parameter name, the raw value of the block's last binding of it, and
keeps what it had otherwise; every error is an unexpected variable. -/
theorem actOnRuleBindings_spec (E : Env) (Decl : Str) (B : List (Token × Token)) :
    ∀ (S : ManifestLoaderImpl) (Top : IncludeEntry) (R : Rule),
      S.IncludeStack.getLast? = some Top →
      tableFind Decl S.TheManifest.Rules = some R →
      ∃ S1 errs R1,
        actOnBindings (fun S N V => S.actOnRuleBindingDecl E Decl N V) B S = .ok S1 ∧
        S1.IncludeStack = S.IncludeStack ∧
        S1.Errors = S.Errors ++ errs ∧
        (∀ d ∈ errs, d.Message = "unexpected variable") ∧
        tableFind Decl S1.TheManifest.Rules = some R1 ∧
        ∀ k, tableFind k R1.Parameters =
          match (if E.isValidParameterName k then lastBinding k B else none) with
          | some v => some v
          | none => tableFind k R.Parameters := by
  induction B with
  | nil =>
    intro S Top R hTop hR
    exact ⟨S, [], R, rfl, rfl, by simp, by simp, hR, by intro k; simp [lastBinding]⟩
  | cons a Rest ih =>
    obtain ⟨N, V⟩ := a
    intro S Top R hTop hR
    by_cases hv : E.isValidParameterName N = true
    · have hstep : S.actOnRuleBindingDecl E Decl N V =
          .ok { S with
                TheManifest :=
                  { S.TheManifest with
                    Rules := tableModify Decl
                      (fun R => { R with Parameters := tableInsert N V R.Parameters })
                      S.TheManifest.Rules } } := by
        simp [actOnRuleBindingDecl, hv, pure, Except.pure]
      generalize hS2 : ({ S with
                TheManifest :=
                  { S.TheManifest with
                    Rules := tableModify Decl
                      (fun R => { R with Parameters := tableInsert N V R.Parameters })
                      S.TheManifest.Rules } } : ManifestLoaderImpl) = S2 at hstep
      have hI : S2.IncludeStack = S.IncludeStack := by rw [← hS2]
      have hE : S2.Errors = S.Errors := by rw [← hS2]
      have hRules : tableFind Decl S2.TheManifest.Rules =
          some { R with Parameters := tableInsert N V R.Parameters } := by
        rw [← hS2]; simp [tableFind_modify_self, hR]
      obtain ⟨S1, errs, R1, h1, h2, h3, h4, h5, h6⟩ :=
        ih S2 Top { R with Parameters := tableInsert N V R.Parameters } (by rw [hI]; exact hTop)
          hRules
      refine ⟨S1, errs, R1, ?_, h2.trans hI, by rw [h3, hE], h4, h5, ?_⟩
      · simp only [actOnBindings, hstep]
        exact h1
      · intro k
        rw [h6 k]
        by_cases hk : E.isValidParameterName k = true
        · simp only [hk, if_true, lastBinding]
          cases lastBinding k Rest with
          | some W => rfl
          | none =>
            by_cases hN : N = k
            · subst hN
              simp [tableFind_insert_self]
            · have hkN : k ≠ N := fun h => hN h.symm
              simp [hN, tableFind_insert_other _ _ _ _ hkN]
        · have hkN : k ≠ N := fun h => hk (h ▸ hv)
          simp [hk, tableFind_insert_other _ _ _ _ hkN]
    · have hstep : S.actOnRuleBindingDecl E Decl N V =
          .ok { S with
                Errors := S.Errors ++
                  [{ Filename := Top.Filename, Message := "unexpected variable", At := N }] } := by
        simp [actOnRuleBindingDecl, hv, error_ok S Top hTop]
      generalize hS2 : ({ S with
                Errors := S.Errors ++
                  [{ Filename := Top.Filename, Message := "unexpected variable", At := N }] } :
                ManifestLoaderImpl) = S2 at hstep
      have hI : S2.IncludeStack = S.IncludeStack := by rw [← hS2]
      have hE : S2.Errors = S.Errors ++
          [{ Filename := Top.Filename, Message := "unexpected variable", At := N }] := by
        rw [← hS2]
      have hRules : tableFind Decl S2.TheManifest.Rules = some R := by rw [← hS2]; exact hR
      obtain ⟨S1, errs, R1, h1, h2, h3, h4, h5, h6⟩ :=
        ih S2 Top R (by rw [hI]; exact hTop) hRules
      refine ⟨S1, { Filename := Top.Filename, Message := "unexpected variable", At := N } :: errs,
        R1, ?_, h2.trans hI, ?_, ?_, h5, ?_⟩
      · simp only [actOnBindings, hstep]
        exact h1
      · rw [h3, hE]; simp
      · intro d hd
        rcases List.mem_cons.mp hd with h | h
        · rw [h]
        · exact h4 d h
      · intro k
        rw [h6 k]
        by_cases hk : E.isValidParameterName k = true
        · have hNk : N ≠ k := fun h => hv (h ▸ hk)
          simp [hk, lastBinding, hNk]
          cases lastBinding k Rest <;> rfl
        · simp [hk]

/-- One rule block (begin, bindings, end): a duplicate-rule error exactly when
the name is already in the rule table, and afterwards the slot holds the
recognized parameters of this block alone. -/
theorem ruleBlock_spec (E : Env)
    (run : ManifestLoaderImpl → Except Fault ManifestLoaderImpl)
    (S : ManifestLoaderImpl) (Top : IncludeEntry) (n : Token) (B : List (Token × Token))
    (t : Token) (hTop : S.IncludeStack.getLast? = some Top) :
    ∃ S1 errs R,
      actOnDecl E run (.Rule n B t) S = .ok S1 ∧
      S1.IncludeStack = S.IncludeStack ∧
      S1.Errors = S.Errors ++
        (if (tableFind n S.TheManifest.Rules).isSome then
          [{ Filename := Top.Filename, Message := "duplicate rule", At := n }] else []) ++ errs ∧
      (∀ d ∈ errs, d.Message ≠ "duplicate rule") ∧
      tableFind n S1.TheManifest.Rules = some R ∧
      ∀ k, tableFind k R.Parameters =
        if E.isValidParameterName k then lastBinding k B else none := by
  -- begin
  obtain ⟨S0, hbegin, hI0, hE0, hR0⟩ : ∃ S0, S.actOnBeginRuleDecl n = .ok (n, S0) ∧
      S0.IncludeStack = S.IncludeStack ∧
      S0.Errors = S.Errors ++
        (if (tableFind n S.TheManifest.Rules).isSome then
          [{ Filename := Top.Filename, Message := "duplicate rule", At := n }] else []) ∧
      tableFind n S0.TheManifest.Rules = some { Name := n, Parameters := [] } := by
    cases hf : tableFind n S.TheManifest.Rules with
    | none =>
      have hb : S.actOnBeginRuleDecl n = .ok (n,
          { S with
            TheManifest :=
              { S.TheManifest with
                Rules := tableInsert n { Name := n, Parameters := [] } S.TheManifest.Rules } }) := by
        simp only [actOnBeginRuleDecl, hf, bind, Except.bind, pure, Except.pure]
      exact ⟨_, hb, rfl, by simp, by simp [tableFind_insert_self]⟩
    | some R0 =>
      have hb : S.actOnBeginRuleDecl n = .ok (n,
          { S with
            Errors := S.Errors ++
              [{ Filename := Top.Filename, Message := "duplicate rule", At := n }]
            TheManifest :=
              { S.TheManifest with
                Rules := tableInsert n { Name := n, Parameters := [] } S.TheManifest.Rules } }) := by
        simp only [actOnBeginRuleDecl, hf, error_ok S Top hTop, bind, Except.bind, pure,
          Except.pure]
      exact ⟨_, hb, rfl, by simp, by simp [tableFind_insert_self]⟩
  -- bindings
  obtain ⟨S1, errs, R1, h1, h2, h3, h4, h5, h6⟩ :=
    actOnRuleBindings_spec E n B S0 Top _ (by rw [hI0]; exact hTop) hR0
  have h6a : ∀ k, tableFind k R1.Parameters =
      if E.isValidParameterName k then lastBinding k B else none := by
    intro k
    rw [h6 k]
    cases (if E.isValidParameterName k = true then lastBinding k B else none) <;>
      simp [tableFind]
  have hTop1 : S1.IncludeStack.getLast? = some Top := by rw [h2, hI0]; exact hTop
  have hrun : actOnDecl E run (.Rule n B t) S = S1.actOnEndRuleDecl n t := by
    simp only [actOnDecl, hbegin, h1, bind, Except.bind]
  -- end
  cases hc : tableFind "command".toList R1.Parameters with
  | none =>
    have hend : S1.actOnEndRuleDecl n t =
        .ok { S1 with
              Errors := S1.Errors ++
                [{ Filename := Top.Filename, Message := "missing 'command' variable assignment",
                   At := t }] } := by
      simp only [actOnEndRuleDecl, h5, hc, error_ok S1 Top hTop1]
    refine ⟨_, errs ++ [⟨Top.Filename, "missing 'command' variable assignment", t⟩], R1,
      hrun.trans hend, ?_, ?_, ?_, ?_, h6a⟩
    · exact h2.trans hI0
    · simp [h3, hE0]
    · intro d hd
      rcases List.mem_append.mp hd with h | h
      · rw [h4 d h]; decide
      · simp only [List.mem_singleton] at h
        rw [h]
        show "missing 'command' variable assignment" ≠ "duplicate rule"
        decide
    · exact h5
  | some c =>
    refine ⟨S1, errs, R1, ?_, h2.trans hI0, ?_, ?_, h5, h6a⟩
    · rw [hrun]
      simp only [actOnEndRuleDecl, h5, hc, pure, Except.pure]
    · rw [h3, hE0]
    · intro d hd
      rw [h4 d hd]; decide

/-- C10: for every rule name not yet in the rule table and every two rule
blocks declared in sequence under it (begin, bindings `B1`, end; begin,
bindings `B2`, end), exactly one duplicate-rule error is reported, at the
second begin, and afterwards the rule table's entry for the name holds
exactly the recognized parameters of `B2`, each with the raw value of its last
binding in `B2`: no parameter set only in `B1` survives. -/
theorem duplicate_rule_replaces (E : Env)
    (run : ManifestLoaderImpl → Except Fault ManifestLoaderImpl)
    (S : ManifestLoaderImpl) (Top : IncludeEntry) (n : Token)
    (B1 B2 : List (Token × Token)) (t1 t2 : Token)
    (hTop : S.IncludeStack.getLast? = some Top)
    (hfresh : tableFind n S.TheManifest.Rules = none) :
    ∃ S1 S2 errs1 errs2 R,
      actOnDecl E run (.Rule n B1 t1) S = .ok S1 ∧
      actOnDecl E run (.Rule n B2 t2) S1 = .ok S2 ∧
      S1.Errors = S.Errors ++ errs1 ∧
      S2.Errors = S1.Errors ++
        { Filename := Top.Filename, Message := "duplicate rule", At := n } :: errs2 ∧
      (∀ d ∈ errs1 ++ errs2, d.Message ≠ "duplicate rule") ∧
      tableFind n S2.TheManifest.Rules = some R ∧
      (∀ k, tableFind k R.Parameters =
        if E.isValidParameterName k then lastBinding k B2 else none) ∧
      (∀ k v, tableFind k R.Parameters = some v → (k, v) ∈ B2) := by
  obtain ⟨S1, errs1, R1, ha1, ha2, ha3, ha4, ha5, _⟩ := ruleBlock_spec E run S Top n B1 t1 hTop
  obtain ⟨S2, errs2, R2, hb1, _, hb3, hb4, hb5, hb6⟩ :=
    ruleBlock_spec E run S1 Top n B2 t2 (by rw [ha2]; exact hTop)
  refine ⟨S1, S2, errs1, errs2, R2, ha1, hb1, ?_, ?_, ?_, hb5, hb6, ?_⟩
  · simpa [hfresh] using ha3
  · simpa [ha5] using hb3
  · intro d hd
    rcases List.mem_append.mp hd with h | h
    · exact ha4 d h
    · exact hb4 d h
  · intro k v hkv
    rw [hb6 k] at hkv
    by_cases hk : E.isValidParameterName k = true
    · rw [if_pos hk] at hkv
      exact lastBinding_mem k v B2 hkv
    · rw [if_neg hk] at hkv
      exact Option.noConfusion hkv

theorem duplicate_rule_replaces_witness :
    ∃ S1 S2 errs1 errs2 R,
      actOnDecl sampleEnv Except.ok
        (.Rule "cc".toList [("command".toList, "old".toList), ("depfile".toList, "d".toList)]
          "rule".toList) sampleState = .ok S1 ∧
      actOnDecl sampleEnv Except.ok
        (.Rule "cc".toList [("description".toList, "new".toList), ("bogus".toList, "b".toList)]
          "rule".toList) S1 = .ok S2 ∧
      S1.Errors = sampleState.Errors ++ errs1 ∧
      S2.Errors = S1.Errors ++
        { Filename := "build.ninja".toList, Message := "duplicate rule", At := "cc".toList } ::
          errs2 ∧
      (∀ d ∈ errs1 ++ errs2, d.Message ≠ "duplicate rule") ∧
      tableFind "cc".toList S2.TheManifest.Rules = some R ∧
      (∀ k, tableFind k R.Parameters =
        if sampleEnv.isValidParameterName k then
          lastBinding k [("description".toList, "new".toList), ("bogus".toList, "b".toList)]
        else none) ∧
      (∀ k v, tableFind k R.Parameters = some v →
        (k, v) ∈ [("description".toList, "new".toList), ("bogus".toList, "b".toList)]) :=
  duplicate_rule_replaces sampleEnv Except.ok sampleState
    { Filename := "build.ninja".toList, Parser := [], Bindings := 0 } "cc".toList
    [("command".toList, "old".toList), ("depfile".toList, "d".toList)]
    [("description".toList, "new".toList), ("bogus".toList, "b".toList)]
    "rule".toList "rule".toList (by decide) (by decide)

/-! ### Handlers that leave the scopes alone -/

theorem bind_eq_ok {α β : Type} (x : Except Fault α) (f : α → Except Fault β) (b : β) :
    (x >>= f) = .ok b ↔ ∃ a, x = .ok a ∧ f a = .ok b := by
  cases x <;> simp [bind, Except.bind]

theorem sameScopes_refl (T : ManifestLoaderImpl) : SameScopes T T := ⟨rfl, rfl⟩

theorem sameScopes_trans {T T1 T2 : ManifestLoaderImpl} (h1 : SameScopes T T1)
    (h2 : SameScopes T1 T2) : SameScopes T T2 :=
  ⟨h2.1.trans h1.1, h2.2.trans h1.2⟩

theorem error_same (S S1 : ManifestLoaderImpl) (Message : String) (At : Token)
    (h : S.error Message At = .ok S1) : SameScopes S S1 := by
  unfold error at h
  split at h
  · exact Except.noConfusion h
  · cases h; exact ⟨rfl, rfl⟩

theorem errorAll_same (At : Token) (Messages : List String) (S S1 : ManifestLoaderImpl)
    (h : errorAll At Messages S = .ok S1) : SameScopes S S1 := by
  induction Messages generalizing S with
  | nil => simp [errorAll] at h; subst h; exact sameScopes_refl _
  | cons M Ms ih =>
    simp only [errorAll] at h
    split at h
    · exact Except.noConfusion h
    · rename_i S2 h2
      exact sameScopes_trans (error_same _ _ _ _ h2) (ih _ h)

theorem evalString_same (S S1 : ManifestLoaderImpl) (E : Env) (Value : Token) (Bindings : Nat)
    (V : Str) (h : S.evalString E Value Bindings = .ok (V, S1)) :
    SameScopes S S1 ∧ V = (ninja.evalString E.Lexer S.BindingSets Bindings Value).1 := by
  unfold evalString at h
  split at h
  · exact Except.noConfusion h
  · rename_i S2 h2
    cases h
    exact ⟨errorAll_same _ _ _ _ h2, rfl⟩

theorem actOnDefaultDecl_same (NameToks : List Token) (S S1 : ManifestLoaderImpl)
    (h : actOnDefaultDecl NameToks S = .ok S1) : SameScopes S S1 := by
  induction NameToks generalizing S with
  | nil => simp [actOnDefaultDecl, pure, Except.pure] at h; subst h; exact sameScopes_refl _
  | cons N Ns ih =>
    simp only [actOnDefaultDecl] at h
    split at h
    · obtain ⟨S2, h2, h3⟩ := (bind_eq_ok _ _ _).mp h
      exact sameScopes_trans (error_same _ _ _ _ h2) (ih _ h3)
    · have := ih _ h
      exact ⟨this.1, this.2⟩

theorem resolveNodes_same (E : Env) (EmptyMessage : String) (Toks : List Token)
    (Nodes Nodes1 : List Nat) (S S1 : ManifestLoaderImpl)
    (h : resolveNodes E EmptyMessage Toks Nodes S = .ok (Nodes1, S1)) : SameScopes S S1 := by
  induction Toks generalizing S Nodes with
  | nil => simp [resolveNodes, pure, Except.pure] at h; rw [← h.2]; exact sameScopes_refl _
  | cons Tok Toks ih =>
    simp only [resolveNodes] at h
    obtain ⟨B, _, h⟩ := (bind_eq_ok _ _ _).mp h
    obtain ⟨⟨Path, S2⟩, h2, h⟩ := (bind_eq_ok _ _ _).mp h
    have e2 := (evalString_same _ _ _ _ _ _ h2).1
    simp only at h
    split at h
    · obtain ⟨S3, h3, h⟩ := (bind_eq_ok _ _ _).mp h
      have e3 := error_same _ _ _ _ h3
      have e4 := ih _ _ h
      exact sameScopes_trans (sameScopes_trans e2 e3) ⟨e4.1, e4.2⟩
    · obtain ⟨S3, h3, h⟩ := (bind_eq_ok _ _ _).mp h
      simp only [pure, Except.pure, Except.ok.injEq] at h3
      subst h3
      have e4 := ih _ _ h
      exact sameScopes_trans e2 ⟨e4.1, e4.2⟩

theorem actOnBeginBuildDecl_same (S S1 : ManifestLoaderImpl) (E : Env) (NameTok : Token)
    (OutputTokens InputTokens : List Token) (NumExplicitInputs NumImplicitInputs Decl : Nat)
    (h : S.actOnBeginBuildDecl E NameTok OutputTokens InputTokens NumExplicitInputs
      NumImplicitInputs = .ok (Decl, S1)) : SameScopes S S1 := by
  simp only [actOnBeginBuildDecl] at h
  split at h
  · obtain ⟨S5, h5, h⟩ := (bind_eq_ok _ _ _).mp h
    obtain ⟨⟨R, S2⟩, h2, h⟩ := (bind_eq_ok _ _ _).mp h
    obtain ⟨⟨Outs, S3⟩, h3, h⟩ := (bind_eq_ok _ _ _).mp h
    obtain ⟨⟨Ins, S4⟩, h4, h⟩ := (bind_eq_ok _ _ _).mp h
    simp only [pure, Except.pure, Except.ok.injEq, Prod.mk.injEq] at h h2
    have e5 := error_same _ _ _ _ h5
    have e3 := resolveNodes_same _ _ _ _ _ _ _ h3
    have e4 := resolveNodes_same _ _ _ _ _ _ _ h4
    have e2 : SameScopes S5 S2 := by rw [← h2.2]; exact sameScopes_refl _
    have e6 : SameScopes S4 S1 := by rw [← h.2]; exact ⟨rfl, rfl⟩
    exact sameScopes_trans (sameScopes_trans (sameScopes_trans (sameScopes_trans e5 e2) e3) e4) e6
  · obtain ⟨⟨R, S2⟩, h2, h⟩ := (bind_eq_ok _ _ _).mp h
    obtain ⟨⟨Outs, S3⟩, h3, h⟩ := (bind_eq_ok _ _ _).mp h
    obtain ⟨⟨Ins, S4⟩, h4, h⟩ := (bind_eq_ok _ _ _).mp h
    simp only [pure, Except.pure, Except.ok.injEq, Prod.mk.injEq] at h h2
    have e3 := resolveNodes_same _ _ _ _ _ _ _ h3
    have e4 := resolveNodes_same _ _ _ _ _ _ _ h4
    have e2 : SameScopes S S2 := by rw [← h2.2]; exact sameScopes_refl _
    have e6 : SameScopes S4 S1 := by rw [← h.2]; exact ⟨rfl, rfl⟩
    exact sameScopes_trans (sameScopes_trans (sameScopes_trans e2 e3) e4) e6

theorem actOnBuildBindingDecl_same (S S1 : ManifestLoaderImpl) (E : Env) (Decl : Nat)
    (NameTok ValueTok : Token) (h : S.actOnBuildBindingDecl E Decl NameTok ValueTok = .ok S1) :
    SameScopes S S1 := by
  simp only [actOnBuildBindingDecl] at h
  obtain ⟨B, _, h⟩ := (bind_eq_ok _ _ _).mp h
  obtain ⟨⟨V, S2⟩, h2, h⟩ := (bind_eq_ok _ _ _).mp h
  simp only [pure, Except.pure, Except.ok.injEq] at h
  have e2 := (evalString_same _ _ _ _ _ _ h2).1
  rw [← h]
  exact sameScopes_trans e2 ⟨rfl, rfl⟩

theorem actOnBeginPoolDecl_same (S S1 : ManifestLoaderImpl) (NameTok : Token) (Decl : Str)
    (h : S.actOnBeginPoolDecl NameTok = .ok (Decl, S1)) : SameScopes S S1 := by
  simp only [actOnBeginPoolDecl] at h
  split at h
  · obtain ⟨S2, h2, h⟩ := (bind_eq_ok _ _ _).mp h
    simp only [pure, Except.pure, Except.ok.injEq, Prod.mk.injEq] at h
    rw [← h.2]
    exact sameScopes_trans (error_same _ _ _ _ h2) ⟨rfl, rfl⟩
  · obtain ⟨S2, h2, h⟩ := (bind_eq_ok _ _ _).mp h
    simp only [pure, Except.pure, Except.ok.injEq, Prod.mk.injEq] at h h2
    rw [← h.2, ← h2]
    exact ⟨rfl, rfl⟩

theorem actOnPoolBindingDecl_same (S S1 : ManifestLoaderImpl) (E : Env) (Decl : Str)
    (NameTok ValueTok : Token) (h : S.actOnPoolBindingDecl E Decl NameTok ValueTok = .ok S1) :
    SameScopes S S1 := by
  simp only [actOnPoolBindingDecl] at h
  obtain ⟨B, _, h⟩ := (bind_eq_ok _ _ _).mp h
  obtain ⟨⟨V, S2⟩, h2, h⟩ := (bind_eq_ok _ _ _).mp h
  have e2 := (evalString_same _ _ _ _ _ _ h2).1
  simp only at h
  split at h
  · split at h
    · exact sameScopes_trans e2 (error_same _ _ _ _ h)
    · simp only [pure, Except.pure, Except.ok.injEq] at h
      rw [← h]
      exact sameScopes_trans e2 ⟨rfl, rfl⟩
  · exact sameScopes_trans e2 (error_same _ _ _ _ h)

theorem actOnEndPoolDecl_same (S S1 : ManifestLoaderImpl) (Decl : Str) (StartTok : Token)
    (h : S.actOnEndPoolDecl Decl StartTok = .ok S1) : SameScopes S S1 := by
  simp only [actOnEndPoolDecl] at h
  split at h
  · simp only [pure, Except.pure, Except.ok.injEq] at h
    rw [← h]; exact sameScopes_refl _
  · split at h
    · exact error_same _ _ _ _ h
    · simp only [pure, Except.pure, Except.ok.injEq] at h
      rw [← h]; exact sameScopes_refl _

theorem actOnBeginRuleDecl_same (S S1 : ManifestLoaderImpl) (NameTok : Token) (Decl : Str)
    (h : S.actOnBeginRuleDecl NameTok = .ok (Decl, S1)) : SameScopes S S1 := by
  simp only [actOnBeginRuleDecl] at h
  split at h
  · obtain ⟨S2, h2, h⟩ := (bind_eq_ok _ _ _).mp h
    simp only [pure, Except.pure, Except.ok.injEq, Prod.mk.injEq] at h
    rw [← h.2]
    exact sameScopes_trans (error_same _ _ _ _ h2) ⟨rfl, rfl⟩
  · obtain ⟨S2, h2, h⟩ := (bind_eq_ok _ _ _).mp h
    simp only [pure, Except.pure, Except.ok.injEq, Prod.mk.injEq] at h h2
    rw [← h.2, ← h2]
    exact ⟨rfl, rfl⟩

theorem actOnRuleBindingDecl_same (S S1 : ManifestLoaderImpl) (E : Env) (Decl : Str)
    (NameTok ValueTok : Token) (h : S.actOnRuleBindingDecl E Decl NameTok ValueTok = .ok S1) :
    SameScopes S S1 := by
  simp only [actOnRuleBindingDecl] at h
  split at h
  · simp only [pure, Except.pure, Except.ok.injEq] at h
    rw [← h]; exact ⟨rfl, rfl⟩
  · exact error_same _ _ _ _ h

theorem actOnEndRuleDecl_same (S S1 : ManifestLoaderImpl) (Decl : Str) (StartTok : Token)
    (h : S.actOnEndRuleDecl Decl StartTok = .ok S1) : SameScopes S S1 := by
  simp only [actOnEndRuleDecl] at h
  split at h
  · simp only [pure, Except.pure, Except.ok.injEq] at h
    rw [← h]; exact sameScopes_refl _
  · split at h
    · exact error_same _ _ _ _ h
    · simp only [pure, Except.pure, Except.ok.injEq] at h
      rw [← h]; exact sameScopes_refl _

theorem actOnBindings_same
    (act : ManifestLoaderImpl → Token → Token → Except Fault ManifestLoaderImpl)
    (hact : ∀ S S1 N V, act S N V = .ok S1 → SameScopes S S1)
    (B : List (Token × Token)) (S S1 : ManifestLoaderImpl)
    (h : actOnBindings act B S = .ok S1) : SameScopes S S1 := by
  induction B generalizing S with
  | nil =>
    simp only [actOnBindings, pure, Except.pure, Except.ok.injEq] at h
    rw [← h]; exact sameScopes_refl _
  | cons a Rest ih =>
    obtain ⟨N, V⟩ := a
    simp only [actOnBindings] at h
    split at h
    · exact Except.noConfusion h
    · rename_i S2 h2
      exact sameScopes_trans (hact _ _ _ _ h2) (ih _ h)

/-- A declaration that is neither a binding nor an include leaves the include
stack and the binding sets as they were. -/
theorem actOnDecl_same (E : Env)
    (run : ManifestLoaderImpl → Except Fault ManifestLoaderImpl) (D : Decl)
    (S S1 : ManifestLoaderImpl) (hB : ∀ N V, D ≠ .Binding N V) (hI : ∀ b P, D ≠ .Include b P)
    (h : actOnDecl E run D S = .ok S1) : SameScopes S S1 := by
  cases D with
  | Binding N V => exact absurd rfl (hB N V)
  | Include b P => exact absurd rfl (hI b P)
  | Default Names => exact actOnDefaultDecl_same _ _ _ h
  | Build Name Outs Ins ne ni Bs St =>
    simp only [actOnDecl] at h
    obtain ⟨⟨Decl, S2⟩, h2, h⟩ := (bind_eq_ok _ _ _).mp h
    obtain ⟨S3, h3, h⟩ := (bind_eq_ok _ _ _).mp h
    simp only [actOnEndBuildDecl, pure, Except.pure, Except.ok.injEq] at h
    rw [← h]
    exact sameScopes_trans (actOnBeginBuildDecl_same _ _ _ _ _ _ _ _ _ h2)
      (actOnBindings_same _ (fun _ _ _ _ h => actOnBuildBindingDecl_same _ _ _ _ _ _ h) _ _ _ h3)
  | Pool Name Bs St =>
    simp only [actOnDecl] at h
    obtain ⟨⟨Decl, S2⟩, h2, h⟩ := (bind_eq_ok _ _ _).mp h
    obtain ⟨S3, h3, h⟩ := (bind_eq_ok _ _ _).mp h
    exact sameScopes_trans (sameScopes_trans (actOnBeginPoolDecl_same _ _ _ _ h2)
      (actOnBindings_same _ (fun _ _ _ _ h => actOnPoolBindingDecl_same _ _ _ _ _ _ h) _ _ _ h3))
      (actOnEndPoolDecl_same _ _ _ _ h)
  | Rule Name Bs St =>
    simp only [actOnDecl] at h
    obtain ⟨⟨Decl, S2⟩, h2, h⟩ := (bind_eq_ok _ _ _).mp h
    obtain ⟨S3, h3, h⟩ := (bind_eq_ok _ _ _).mp h
    exact sameScopes_trans (sameScopes_trans (actOnBeginRuleDecl_same _ _ _ _ h2)
      (actOnBindings_same _ (fun _ _ _ _ h => actOnRuleBindingDecl_same _ _ _ _ _ _ h) _ _ _ h3))
      (actOnEndRuleDecl_same _ _ _ _ h)
  | Error M At => exact error_same _ _ _ _ h

/-! ### Bindings and includes -/

theorem actOnBindingDecl_ok (E : Env) (S : ManifestLoaderImpl) (Top : IncludeEntry)
    (NameTok ValueTok : Token) (hTop : S.IncludeStack.getLast? = some Top) :
    S.actOnBindingDecl E NameTok ValueTok =
      .ok { S with
            BindingSets := BindingSet.insert S.BindingSets Top.Bindings NameTok
              (ninja.evalString E.Lexer S.BindingSets Top.Bindings ValueTok).1
            Errors := S.Errors ++
              (ninja.evalString E.Lexer S.BindingSets Top.Bindings ValueTok).2.map
                (fun M => { Filename := Top.Filename, Message := M, At := ValueTok }) } := by
  simp only [actOnBindingDecl, getCurrentBindings, hTop, evalString_ok S E Top hTop, bind,
    Except.bind, pure, Except.pure]

/-- An include whose file opens runs the parser of the nested file from
`includeEntered` and, for a "subninja", drops the local binding set
afterwards. -/
theorem actOnIncludeDecl_opened (E : Env) (S : ManifestLoaderImpl) (Top : IncludeEntry)
    (IsInclude : Bool) (PathTok : Token) (Decls : List Decl)
    (run : ManifestLoaderImpl → Except Fault ManifestLoaderImpl)
    (hTop : S.IncludeStack.getLast? = some Top)
    (hopen : E.readFileContents Top.Filename
      (ninja.evalString E.Lexer S.BindingSets Top.Bindings PathTok).1 (some PathTok) =
        some Decls) :
    S.actOnIncludeDecl E run IsInclude PathTok =
      match run (includeEntered S E Top IsInclude PathTok Decls) with
      | .error f => .error f
      | .ok T =>
        .ok (if IsInclude then T
          else { T with BindingSets := T.BindingSets.take S.BindingSets.length }) := by
  cases IsInclude with
  | true =>
    simp only [actOnIncludeDecl, getCurrentBindings, hTop, evalString_ok S E Top hTop, bind,
      Except.bind, enterFile, hopen, includeEntered, if_true]
    split <;> assumption
  | false =>
    simp only [actOnIncludeDecl, getCurrentBindings, hTop, evalString_ok S E Top hTop, bind,
      Except.bind, enterFile, hopen, includeEntered, pure, Except.pure, Bool.false_eq_true,
      if_false]
    generalize run _ = r
    cases r <;> rfl

/-- An include whose file cannot be opened only reports the errors of the path
evaluation. -/
theorem actOnIncludeDecl_closed (E : Env) (S : ManifestLoaderImpl) (Top : IncludeEntry)
    (IsInclude : Bool) (PathTok : Token)
    (run : ManifestLoaderImpl → Except Fault ManifestLoaderImpl)
    (hTop : S.IncludeStack.getLast? = some Top)
    (hopen : E.readFileContents Top.Filename
      (ninja.evalString E.Lexer S.BindingSets Top.Bindings PathTok).1 (some PathTok) = none) :
    S.actOnIncludeDecl E run IsInclude PathTok =
      .ok { S with
            Errors := S.Errors ++
              (ninja.evalString E.Lexer S.BindingSets Top.Bindings PathTok).2.map
                (fun M => { Filename := Top.Filename, Message := M, At := PathTok }) } := by
  cases IsInclude with
  | true =>
    simp only [actOnIncludeDecl, getCurrentBindings, hTop, evalString_ok S E Top hTop, bind,
      Except.bind, enterFile, hopen, pure, Except.pure, if_true]
  | false =>
    simp [actOnIncludeDecl, getCurrentBindings, hTop, evalString_ok S E Top hTop, bind,
      Except.bind, enterFile, hopen, pure, Except.pure]

theorem take_restore (St St1 : List BindingSet) (c : BindingSet)
    (hget : ∀ i, i ≠ St.length → St1.get? i = (St ++ [c]).get? i) :
    St1.take St.length = St := by
  apply List.ext_get?
  intro i
  simp only [List.get?_eq_getElem?]
  rw [List.getElem?_take]
  split
  · rename_i hi
    have := hget i (Nat.ne_of_lt hi)
    simp only [List.get?_eq_getElem?] at this
    rw [this, List.getElem?_append_left hi]
  · rename_i hi
    rw [List.getElem?_eq_none (by omega)]

/-- The frame of an include declaration, given the frame of the nested parse:
the include stack is as before, no binding set other than the current one is
changed, and a "subninja" changes none at all. -/
theorem actOnIncludeDecl_frame (E : Env) (S S1 : ManifestLoaderImpl) (Top : IncludeEntry)
    (IsInclude : Bool) (PathTok : Token)
    (run : ManifestLoaderImpl → Except Fault ManifestLoaderImpl) (hrun : ParseFrame run)
    (hTop : S.IncludeStack.getLast? = some Top)
    (h : S.actOnIncludeDecl E run IsInclude PathTok = .ok S1) :
    S1.IncludeStack = S.IncludeStack ∧
    S1.BindingSets.length = S.BindingSets.length ∧
    (∀ i, i ≠ Top.Bindings → S1.BindingSets.get? i = S.BindingSets.get? i) ∧
    (IsInclude = false → S1.BindingSets = S.BindingSets) := by
  cases hopen : E.readFileContents Top.Filename
      (ninja.evalString E.Lexer S.BindingSets Top.Bindings PathTok).1 (some PathTok) with
  | none =>
    rw [actOnIncludeDecl_closed E S Top IsInclude PathTok run hTop hopen] at h
    cases h
    exact ⟨rfl, rfl, fun _ _ => rfl, fun _ => rfl⟩
  | some Decls =>
    rw [actOnIncludeDecl_opened E S Top IsInclude PathTok Decls run hTop hopen] at h
    cases hr : run (includeEntered S E Top IsInclude PathTok Decls) with
    | error f => rw [hr] at h; exact Except.noConfusion h
    | ok T =>
      rw [hr] at h
      simp only [Except.ok.injEq] at h
      have hf := hrun _ T
        { Filename := (ninja.evalString E.Lexer S.BindingSets Top.Bindings PathTok).1,
          Parser := Decls,
          Bindings := if IsInclude then Top.Bindings else S.BindingSets.length }
        (by simp [includeEntered]) hr
      obtain ⟨hf1, hf2, hf3⟩ := hf
      simp only [includeEntered, List.dropLast_concat] at hf1 hf2 hf3
      cases IsInclude with
      | true =>
        simp only [if_true] at h hf2 hf3
        subst h
        exact ⟨hf1, hf2, hf3, fun h => Bool.noConfusion h⟩
      | false =>
        simp only [Bool.false_eq_true, if_false] at h hf2 hf3
        have hstore : T.BindingSets.take S.BindingSets.length = S.BindingSets :=
          take_restore _ _ _ hf3
        subst h
        simp only [hstore]
        exact ⟨hf1, trivial, fun _ _ => trivial, fun _ => trivial⟩

/-- The frame of any declaration: the include stack is as before and no
binding set other than the current one is changed, created or lost. -/
theorem actOnDecl_frame (E : Env)
    (run : ManifestLoaderImpl → Except Fault ManifestLoaderImpl) (hrun : ParseFrame run)
    (D : Decl) (S S1 : ManifestLoaderImpl) (Top : IncludeEntry)
    (hTop : S.IncludeStack.getLast? = some Top) (h : actOnDecl E run D S = .ok S1) :
    S1.IncludeStack = S.IncludeStack ∧
    S1.BindingSets.length = S.BindingSets.length ∧
    ∀ i, i ≠ Top.Bindings → S1.BindingSets.get? i = S.BindingSets.get? i := by
  by_cases hB : ∃ N V, D = .Binding N V
  · obtain ⟨N, V, rfl⟩ := hB
    simp only [actOnDecl, actOnBindingDecl_ok E S Top N V hTop, Except.ok.injEq] at h
    subst h
    exact ⟨rfl, insert_length _ _ _ _, fun i hi => insert_get?_other _ _ _ _ _ hi⟩
  · by_cases hI : ∃ b P, D = .Include b P
    · obtain ⟨b, P, rfl⟩ := hI
      have := actOnIncludeDecl_frame E S S1 Top b P run hrun hTop h
      exact ⟨this.1, this.2.1, this.2.2.1⟩
    · have := actOnDecl_same E run D S S1 (fun N V hD => hB ⟨N, V, hD⟩)
        (fun b P hD => hI ⟨b, P, hD⟩) h
      exact ⟨this.1, by rw [this.2], fun _ _ => by rw [this.2]⟩

theorem actOnDecls_frame (E : Env)
    (run : ManifestLoaderImpl → Except Fault ManifestLoaderImpl) (hrun : ParseFrame run)
    (Ds : List Decl) (S S1 : ManifestLoaderImpl) (Top : IncludeEntry)
    (hTop : S.IncludeStack.getLast? = some Top) (h : actOnDecls E run Ds S = .ok S1) :
    S1.IncludeStack = S.IncludeStack ∧
    S1.BindingSets.length = S.BindingSets.length ∧
    ∀ i, i ≠ Top.Bindings → S1.BindingSets.get? i = S.BindingSets.get? i := by
  induction Ds generalizing S with
  | nil =>
    simp only [actOnDecls, pure, Except.pure, Except.ok.injEq] at h
    subst h
    exact ⟨rfl, rfl, fun _ _ => rfl⟩
  | cons D Ds ih =>
    simp only [actOnDecls] at h
    split at h
    · exact Except.noConfusion h
    · rename_i S2 h2
      have f1 := actOnDecl_frame E run hrun D S S2 Top hTop h2
      have f2 := ih S2 (by rw [f1.1]; exact hTop) h
      exact ⟨f2.1.trans f1.1, f2.2.1.trans f1.2.1,
        fun i hi => (f2.2.2 i hi).trans (f1.2.2 i hi)⟩

/-- Every run of `parse` pops its entry and leaves alone every binding set but
the one of that entry. -/
theorem parse_frame (E : Env) (fuel : Nat) : ParseFrame (parse E fuel) := by
  induction fuel with
  | zero =>
    intro T T1 Top _ h
    simp [parse] at h
  | succ f ih =>
    intro T T1 Top hTop h
    simp only [parse, getCurrentParser, hTop] at h
    split at h
    · exact Except.noConfusion h
    · rename_i T2 h2
      have f1 := actOnDecls_frame E (parse E f) ih Top.Parser T T2 Top hTop h2
      simp only [actOnEndManifest, exitCurrentFile] at h
      split at h
      · exact Except.noConfusion h
      · simp only [Except.ok.injEq] at h
        subst h
        exact ⟨by simp [f1.1], f1.2.1, f1.2.2⟩

/-! ### What a nested file sees, and what it leaves -/

theorem sameFor_refl (Name : Str) (St : List BindingSet) : SameFor Name St St :=
  ⟨rfl, fun _ => rfl⟩

theorem sameFor_trans {Name : Str} {St St1 St2 : List BindingSet}
    (h1 : SameFor Name St St1) (h2 : SameFor Name St1 St2) : SameFor Name St St2 :=
  ⟨h2.1.trans h1.1, fun i => (h2.2 i).trans (h1.2 i)⟩

theorem lookup_sameFor (Name : Str) (St St1 : List BindingSet) (h : SameFor Name St St1)
    (Ref : Nat) : BindingSet.lookup St1 Ref Name = BindingSet.lookup St Ref Name := by
  unfold BindingSet.lookup
  rw [h.1]
  exact lookupFrom_congr Name St St1 h.2 _ _

theorem sameFor_insert (Name N V : Str) (St : List BindingSet) (Ref : Nat) (hN : N ≠ Name) :
    SameFor Name St (BindingSet.insert St Ref N V) := by
  refine ⟨insert_length _ _ _ _, fun i => ?_⟩
  by_cases hi : i = Ref
  · subst hi
    rw [insert_get?_self]
    cases St.get? i with
    | none => rfl
    | some C => simp [tableFind_insert_other _ _ _ _ (Ne.symm hN)]
  · rw [insert_get?_other _ _ _ _ _ hi]

/-- A declaration that does not rebind a name leaves the value every binding
set gives the name. -/
theorem actOnDecl_quiet (E : Env)
    (run : ManifestLoaderImpl → Except Fault ManifestLoaderImpl) (hrun : ParseFrame run)
    (Name : Str) (D : Decl) (S S1 : ManifestLoaderImpl) (Top : IncludeEntry)
    (hTop : S.IncludeStack.getLast? = some Top) (hq : D.rebinds Name = false)
    (h : actOnDecl E run D S = .ok S1) : SameFor Name S.BindingSets S1.BindingSets := by
  by_cases hB : ∃ N V, D = .Binding N V
  · obtain ⟨N, V, rfl⟩ := hB
    simp only [actOnDecl, actOnBindingDecl_ok E S Top N V hTop, Except.ok.injEq] at h
    subst h
    have hN : N ≠ Name := by simpa [Decl.rebinds] using hq
    exact sameFor_insert _ _ _ _ _ hN
  · by_cases hI : ∃ b P, D = .Include b P
    · obtain ⟨b, P, rfl⟩ := hI
      have hb : b = false := by simpa [Decl.rebinds] using hq
      have := (actOnIncludeDecl_frame E S S1 Top b P run hrun hTop h).2.2.2 hb
      rw [this]
      exact sameFor_refl _ _
    · have := actOnDecl_same E run D S S1 (fun N V hD => hB ⟨N, V, hD⟩)
        (fun b P hD => hI ⟨b, P, hD⟩) h
      rw [this.2]
      exact sameFor_refl _ _

theorem actOnDecls_quiet (E : Env)
    (run : ManifestLoaderImpl → Except Fault ManifestLoaderImpl) (hrun : ParseFrame run)
    (Name : Str) (Ds : List Decl) (S S1 : ManifestLoaderImpl) (Top : IncludeEntry)
    (hTop : S.IncludeStack.getLast? = some Top) (hq : ∀ D ∈ Ds, D.rebinds Name = false)
    (h : actOnDecls E run Ds S = .ok S1) : SameFor Name S.BindingSets S1.BindingSets := by
  induction Ds generalizing S with
  | nil =>
    simp only [actOnDecls, pure, Except.pure, Except.ok.injEq] at h
    subst h
    exact sameFor_refl _ _
  | cons D Ds ih =>
    simp only [actOnDecls] at h
    split at h
    · exact Except.noConfusion h
    · rename_i S2 h2
      have f1 := actOnDecl_frame E run hrun D S S2 Top hTop h2
      have q1 := actOnDecl_quiet E run hrun Name D S S2 Top hTop (hq D (by simp)) h2
      have q2 := ih S2 (by rw [f1.1]; exact hTop) (fun D1 hD1 => hq D1 (by simp [hD1])) h
      exact sameFor_trans q1 q2

theorem actOnDecls_append (E : Env)
    (run : ManifestLoaderImpl → Except Fault ManifestLoaderImpl) (Ds1 Ds2 : List Decl)
    (S S2 : ManifestLoaderImpl) (h : actOnDecls E run (Ds1 ++ Ds2) S = .ok S2) :
    ∃ S1, actOnDecls E run Ds1 S = .ok S1 ∧ actOnDecls E run Ds2 S1 = .ok S2 := by
  induction Ds1 generalizing S with
  | nil => exact ⟨S, rfl, h⟩
  | cons D Ds ih =>
    simp only [List.cons_append, actOnDecls] at h ⊢
    split at h
    · exact Except.noConfusion h
    · exact ih _ h

theorem lookupFrom_append (St : List BindingSet) (c : BindingSet) (Name : Str)
    (hwf : ∀ C ∈ St, ∀ P, C.ParentScope = some P → P < St.length) (fuel Ref : Nat)
    (hRef : Ref < St.length) :
    BindingSet.lookupFrom (St ++ [c]) fuel Ref Name = BindingSet.lookupFrom St fuel Ref Name := by
  induction fuel generalizing Ref with
  | zero => rfl
  | succ f ih =>
    have h1 : (St ++ [c]).get? Ref = St.get? Ref := by
      simp only [List.get?_eq_getElem?]
      exact List.getElem?_append_left hRef
    have h2 : St.get? Ref = some (St.get ⟨Ref, hRef⟩) := by
      simp [List.getElem?_eq_getElem hRef]
    simp only [BindingSet.lookupFrom, h1, h2]
    cases tableFind Name (St.get ⟨Ref, hRef⟩).Entries with
    | some v => rfl
    | none =>
      cases hP : (St.get ⟨Ref, hRef⟩).ParentScope with
      | none => rfl
      | some P => exact ih P (hwf _ (List.get_mem St Ref hRef) P hP)

/-- A fresh "subninja" scope resolves every name as its parent does. -/
theorem lookup_fork (St : List BindingSet) (Parent : Nat) (Name : Str)
    (hwf : ∀ C ∈ St, ∀ P, C.ParentScope = some P → P < St.length)
    (hParent : Parent < St.length) :
    BindingSet.lookup (St ++ [{ Entries := [], ParentScope := some Parent }]) St.length Name =
      BindingSet.lookup St Parent Name := by
  unfold BindingSet.lookup
  have hlen : (St ++ [({ Entries := [], ParentScope := some Parent } : BindingSet)]).length =
      St.length + 1 := by simp
  rw [hlen]
  have hget : (St ++ [({ Entries := [], ParentScope := some Parent } : BindingSet)]).get?
      St.length = some { Entries := [], ParentScope := some Parent } := by
    simp
  simp only [BindingSet.lookupFrom, hget, tableFind]
  exact lookupFrom_append St _ Name hwf _ _ hParent

theorem rebindsWith_quiet (E : Env)
    (run : ManifestLoaderImpl → Except Fault ManifestLoaderImpl) (hrun : ParseFrame run)
    (nested : List Decl → ManifestLoaderImpl → Bool) (Name : Str)
    (hnested : ∀ (S T : ManifestLoaderImpl) (Top : IncludeEntry) (PathTok : Token)
      (Decls : List Decl), S.IncludeStack.getLast? = some Top →
      nested Decls (includeEntered S E Top true PathTok Decls) = false →
      run (includeEntered S E Top true PathTok Decls) = .ok T →
      SameFor Name S.BindingSets T.BindingSets)
    (Ds : List Decl) :
    ∀ (S S1 : ManifestLoaderImpl) (Top : IncludeEntry), S.IncludeStack.getLast? = some Top →
      rebindsWith E run nested Name Ds S = false → actOnDecls E run Ds S = .ok S1 →
      SameFor Name S.BindingSets S1.BindingSets := by
  induction Ds with
  | nil =>
    intro S S1 Top _ _ h
    simp only [actOnDecls, pure, Except.pure, Except.ok.injEq] at h
    subst h
    exact sameFor_refl _ _
  | cons D Ds ih =>
    intro S S1 Top hTop hq h
    simp only [actOnDecls] at h
    split at h
    · exact Except.noConfusion h
    · rename_i S2 h2
      simp only [rebindsWith, h2, Bool.or_eq_false_iff] at hq
      obtain ⟨hq1, hq2⟩ := hq
      have f1 := actOnDecl_frame E run hrun D S S2 Top hTop h2
      have q2 := ih S2 S1 Top (by rw [f1.1]; exact hTop) hq2 h
      refine sameFor_trans ?_ q2
      by_cases hI : ∃ P, D = .Include true P
      · obtain ⟨P, rfl⟩ := hI
        simp only [hTop] at hq1
        rw [show actOnDecl E run (.Include true P) S = S.actOnIncludeDecl E run true P from rfl]
          at h2
        cases hopen : E.readFileContents Top.Filename
            (ninja.evalString E.Lexer S.BindingSets Top.Bindings P).1 (some P) with
        | none =>
          rw [actOnIncludeDecl_closed E S Top true P run hTop hopen] at h2
          cases h2
          exact sameFor_refl _ _
        | some Decls =>
          rw [hopen] at hq1
          rw [actOnIncludeDecl_opened E S Top true P Decls run hTop hopen] at h2
          cases hr : run (includeEntered S E Top true P Decls) with
          | error f => rw [hr] at h2; exact Except.noConfusion h2
          | ok T =>
            rw [hr] at h2
            simp only [if_true, Except.ok.injEq] at h2
            subst h2
            exact hnested S T Top P Decls hTop hq1 hr
      · have hreb : D.rebinds Name = false := by
          cases D with
          | Binding N V => simpa [Decl.rebinds] using hq1
          | Include b P =>
            cases b with
            | true => exact absurd ⟨P, rfl⟩ hI
            | false => rfl
          | Default Names => rfl
          | Build N Os Is NE NI Bs St => rfl
          | Pool N Bs St => rfl
          | Rule N Bs St => rfl
          | Error M At => rfl
        exact actOnDecl_quiet E run hrun Name D S S2 Top hTop hreb h2

/-- Declarations that do not bind a name in the active scope, themselves or
through shared-scope includes, leave the value every binding set gives the
name. -/
theorem rebindsIn_quiet (E : Env) (Name : Str) (fuel : Nat) :
    ∀ (Ds : List Decl) (S S1 : ManifestLoaderImpl) (Top : IncludeEntry),
      S.IncludeStack.getLast? = some Top →
      rebindsIn E Name fuel Ds S = false → actOnDecls E (parse E fuel) Ds S = .ok S1 →
      SameFor Name S.BindingSets S1.BindingSets := by
  induction fuel with
  | zero =>
    intro Ds
    exact rebindsWith_quiet E (parse E 0) (parse_frame E 0) (fun _ _ => false) Name
      (by intro S T Top P Decls _ _ h; simp [parse] at h) Ds
  | succ f ih =>
    intro Ds
    refine rebindsWith_quiet E (parse E (f + 1)) (parse_frame E (f + 1)) (rebindsIn E Name f)
      Name ?_ Ds
    intro S T Top P Decls hTop hq h
    have hTopE : (includeEntered S E Top true P Decls).IncludeStack.getLast? =
        some { Filename := (ninja.evalString E.Lexer S.BindingSets Top.Bindings P).1,
               Parser := Decls, Bindings := Top.Bindings } := by
      simp [includeEntered]
    simp only [parse, getCurrentParser, hTopE] at h
    split at h
    · exact Except.noConfusion h
    · rename_i T2 h2
      have q := ih Decls _ T2 _ hTopE hq h2
      have hT : T.BindingSets = T2.BindingSets := by
        simp only [actOnEndManifest, exitCurrentFile] at h
        split at h
        · exact Except.noConfusion h
        · simp only [Except.ok.injEq] at h
          rw [← h]
      rw [hT]
      simpa [includeEntered] using q

/-- C8, at a concrete input: `twice.ninja` holds `x = 1` and then `x = 2`;
after the shared-scope include the including scope resolves `x` to `2`, which
is not the value `1` evaluated at the file's first binding declaration of
`x`. -/
theorem include_first_binding_overwritten :
    (sampleState.actOnIncludeDecl nestedEnv (parse nestedEnv 1) true
        "twice.ninja".toList).toOption.map
      (fun S => BindingSet.lookup S.BindingSets 0 "x".toList) = some "2".toList ∧
    (ninja.evalString nestedEnv.Lexer sampleState.BindingSets 0 "1".toList).1 = "1".toList := by
  decide

/-- C8, amended: for every including scope, every nested file that can be
opened and every name: the include returns to the including file; after a
forked-scope include (`IsInclude = false`) every binding set is as before, so
the including scope resolves every name as before; for a shared-scope include
(`IsInclude = true`) and every binding declaration `Name = Value` of the
nested file, the scope resolves the name right after the declaration to the
value evaluated at it, and so does the including scope after the include
returns, provided the declarations that follow in the nested file do not bind
the name again in that scope, themselves or through a shared-scope include;
and in both cases the nested parser starts from `includeEntered`, and from
there on, as long as the nested file has not bound a name in its scope, its
active scope resolves the name to the including scope's value. -/
theorem include_scoping (E : Env) (S S1 : ManifestLoaderImpl) (Top : IncludeEntry)
    (IsInclude : Bool) (PathTok : Token) (Decls : List Decl) (fuel : Nat)
    (hTop : S.IncludeStack.getLast? = some Top)
    (hB : Top.Bindings < S.BindingSets.length)
    (hwf : ∀ C ∈ S.BindingSets, ∀ P, C.ParentScope = some P → P < S.BindingSets.length)
    (hopen : E.readFileContents Top.Filename
      (ninja.evalString E.Lexer S.BindingSets Top.Bindings PathTok).1 (some PathTok) =
        some Decls)
    (hret : S.actOnIncludeDecl E (parse E (fuel + 1)) IsInclude PathTok = .ok S1) :
    S1.IncludeStack = S.IncludeStack ∧
    (IsInclude = false →
      S1.BindingSets = S.BindingSets ∧
      ∀ Name, BindingSet.lookup S1.BindingSets Top.Bindings Name =
        BindingSet.lookup S.BindingSets Top.Bindings Name) ∧
    (IsInclude = true →
      ∀ Pre Name Value Post, Decls = Pre ++ Decl.Binding Name Value :: Post →
        ∃ T1 T2, actOnDecls E (parse E fuel) Pre (includeEntered S E Top true PathTok Decls) =
            .ok T1 ∧
          T1.getCurrentBindings = .ok Top.Bindings ∧
          T1.actOnBindingDecl E Name Value = .ok T2 ∧
          BindingSet.lookup T2.BindingSets Top.Bindings Name =
            (ninja.evalString E.Lexer T1.BindingSets Top.Bindings Value).1 ∧
          (rebindsIn E Name fuel Post T2 = false →
            BindingSet.lookup S1.BindingSets Top.Bindings Name =
              (ninja.evalString E.Lexer T1.BindingSets Top.Bindings Value).1)) ∧
    (∀ run, S.actOnIncludeDecl E run IsInclude PathTok =
      match run (includeEntered S E Top IsInclude PathTok Decls) with
      | .error f => .error f
      | .ok T =>
        .ok (if IsInclude then T
          else { T with BindingSets := T.BindingSets.take S.BindingSets.length })) ∧
    (∀ Pre Rest Name T1, Decls = Pre ++ Rest →
      rebindsIn E Name fuel Pre (includeEntered S E Top IsInclude PathTok Decls) = false →
      actOnDecls E (parse E fuel) Pre (includeEntered S E Top IsInclude PathTok Decls) =
        .ok T1 →
      ∃ Cur, T1.getCurrentBindings = .ok Cur ∧
        BindingSet.lookup T1.BindingSets Cur Name =
          BindingSet.lookup S.BindingSets Top.Bindings Name) := by
  have hframe := actOnIncludeDecl_frame E S S1 Top IsInclude PathTok (parse E (fuel + 1))
    (parse_frame E (fuel + 1)) hTop hret
  have hTop0 : ∀ b, (includeEntered S E Top b PathTok Decls).IncludeStack.getLast? =
      some { Filename := (ninja.evalString E.Lexer S.BindingSets Top.Bindings PathTok).1,
             Parser := Decls,
             Bindings := if b then Top.Bindings else S.BindingSets.length } := by
    intro b; simp [includeEntered]
  refine ⟨hframe.1, ?_, ?_, ?_, ?_⟩
  · intro hb
    have := hframe.2.2.2 hb
    exact ⟨this, fun Name => by rw [this]⟩
  · intro hb Pre Name Value Post hDecls
    subst hb
    rw [actOnIncludeDecl_opened E S Top true PathTok Decls _ hTop hopen] at hret
    cases hp : parse E (fuel + 1) (includeEntered S E Top true PathTok Decls) with
    | error f => rw [hp] at hret; exact Except.noConfusion hret
    | ok T =>
      rw [hp] at hret
      simp only [if_true, Except.ok.injEq] at hret
      subst hret
      simp only [parse, getCurrentParser, hTop0 true] at hp
      split at hp
      · exact Except.noConfusion hp
      · rename_i T3 h2
        have hT : T.BindingSets = T3.BindingSets := by
          simp only [actOnEndManifest, exitCurrentFile] at hp
          split at hp
          · exact Except.noConfusion hp
          · simp only [Except.ok.injEq] at hp
            rw [← hp]
        rw [show actOnDecls E (parse E fuel) Decls =
          actOnDecls E (parse E fuel) (Pre ++ Decl.Binding Name Value :: Post) from by
            rw [hDecls]] at h2
        obtain ⟨T1, hPre, h3⟩ := actOnDecls_append E _ Pre _ _ _ h2
        have f1 := actOnDecls_frame E _ (parse_frame E fuel) Pre _ T1 _ (hTop0 true) hPre
        have hTop1 : T1.IncludeStack.getLast? =
            some { Filename := (ninja.evalString E.Lexer S.BindingSets Top.Bindings PathTok).1,
                   Parser := Decls,
                   Bindings := Top.Bindings } := by
          rw [f1.1]
          simpa using hTop0 true
        have hbind := actOnBindingDecl_ok E T1 _ Name Value hTop1
        simp only [actOnDecls] at h3
        rw [show actOnDecl E (parse E fuel) (Decl.Binding Name Value) T1 =
          T1.actOnBindingDecl E Name Value from rfl, hbind] at h3
        simp only at h3
        have hlen : Top.Bindings < T1.BindingSets.length := by
          rw [f1.2.1]; simpa [includeEntered] using hB
        refine ⟨T1, _, hPre, ?_, hbind, lookup_insert_self _ _ _ _ hlen, ?_⟩
        · simp [getCurrentBindings, hTop1]
        · intro hPost
          have q := rebindsIn_quiet E Name fuel Post _ T3 _ (by exact hTop1) hPost h3
          rw [hT, lookup_sameFor Name _ _ q]
          exact lookup_insert_self _ _ _ _ hlen
  · intro run
    exact actOnIncludeDecl_opened E S Top IsInclude PathTok Decls run hTop hopen
  · intro Pre Rest Name T1 _ hPre hrun
    have f1 := actOnDecls_frame E _ (parse_frame E fuel) Pre _ T1 _ (hTop0 IsInclude) hrun
    have q := rebindsIn_quiet E Name fuel Pre _ T1 _ (hTop0 IsInclude) hPre hrun
    refine ⟨if IsInclude then Top.Bindings else S.BindingSets.length, ?_, ?_⟩
    · simp [getCurrentBindings, f1.1, hTop0 IsInclude]
    · rw [lookup_sameFor Name _ _ q]
      cases IsInclude with
      | true => simp [includeEntered]
      | false =>
        simp only [includeEntered, Bool.false_eq_true, if_false]
        exact lookup_fork _ _ _ hwf hB

theorem include_scoping_witness :
    (sampleAfter false).BindingSets = sampleState.BindingSets ∧
    BindingSet.lookup (sampleAfter true).BindingSets 0 "z".toList = "inner.a.sub".toList ∧
    BindingSet.lookup nestedAfter.BindingSets 0 "x".toList = "1".toList ∧
    BindingSet.lookup nestedAfter.BindingSets 0 "y".toList = "1.o".toList := by
  refine ⟨?_, ?_, ?_, by decide⟩
  · exact ((include_scoping sampleEnv sampleState (sampleAfter false)
      { Filename := "build.ninja".toList, Parser := [], Bindings := 0 } false
      "sub.ninja".toList
      [.Binding "y".toList "$\x7bx\x7d.sub".toList, .Binding "x".toList "inner".toList,
        .Binding "z".toList "$x.$y".toList] 0
      (by decide) (by decide) (by decide) (by decide) rfl).2.1 rfl).1
  · obtain ⟨T1, T2, hPre, _, hbind, _, himp⟩ :=
      (include_scoping sampleEnv sampleState (sampleAfter true)
        { Filename := "build.ninja".toList, Parser := [], Bindings := 0 } true
        "sub.ninja".toList
        [.Binding "y".toList "$\x7bx\x7d.sub".toList, .Binding "x".toList "inner".toList,
          .Binding "z".toList "$x.$y".toList] 0
        (by decide) (by decide) (by decide) (by decide) rfl).2.2.1 rfl
        [.Binding "y".toList "$\x7bx\x7d.sub".toList, .Binding "x".toList "inner".toList]
        "z".toList "$x.$y".toList [] rfl
    cases hPre
    cases hbind
    exact (himp rfl).trans (by decide)
  · obtain ⟨T1, T2, hPre, _, hbind, _, himp⟩ :=
      (include_scoping nestedEnv sampleState nestedAfter
        { Filename := "build.ninja".toList, Parser := [], Bindings := 0 } true
        "outer.ninja".toList
        [.Binding "x".toList "1".toList, .Include true "other.ninja".toList] 1
        (by decide) (by decide) (by decide) (by decide) rfl).2.2.1 rfl
        [] "x".toList "1".toList [.Include true "other.ninja".toList] rfl
    cases hPre
    cases hbind
    exact (himp (by decide)).trans (by decide)

end ManifestLoaderImpl

/-! ## The template evaluator: literal text -/

theorem escapeDollars_literal (l : Str) (hl : ∀ c ∈ l, c ≠ '$') : escapeDollars l = l := by
  induction l with
  | nil => rfl
  | cons a t ih =>
    have ha : a ≠ '$' := hl a (by simp)
    simp only [escapeDollars, if_neg ha]
    rw [ih (fun c hc => hl c (by simp [hc]))]

theorem escapeDollars_append (l t : Str) (hl : ∀ c ∈ l, c ≠ '$') :
    escapeDollars (l ++ t) = l ++ escapeDollars t := by
  induction l with
  | nil => rfl
  | cons a l1 ih =>
    have ha : a ≠ '$' := hl a (by simp)
    rw [List.cons_append, escapeDollars, if_neg ha, ih (fun c hc => hl c (by simp [hc]))]
    rfl

theorem evalString_escapeDollars_aux (L : Lexer) (Store : List BindingSet) (Bindings : Nat) :
    ∀ (n : Nat) (s : Str), s.length ≤ n →
      evalString L Store Bindings (escapeDollars s) = (s, []) := by
  intro n
  induction n with
  | zero =>
    intro s hs
    have : s = [] := List.length_eq_zero.mp (Nat.le_zero.mp hs)
    subst this
    simp [escapeDollars, evalString_nil]
  | succ n ih =>
    intro s hs
    obtain ⟨hsplit, hlit, htail⟩ := takeWhile_dropWhile_dollar s
    generalize s.takeWhile (fun c => c != '$') = l at hsplit hlit
    generalize s.dropWhile (fun c => c != '$') = s1 at hsplit htail
    subst hsplit
    rw [escapeDollars_append l s1 hlit]
    rcases htail with h1 | ⟨t, h1⟩
    · subst h1
      rw [show escapeDollars [] = [] from rfl,
        evalString_literal L Store Bindings l [] hlit (Or.inl rfl), evalString_nil]
    · subst h1
      have hlen : t.length ≤ n := by simp at hs; omega
      rw [show escapeDollars ('$' :: t) = '$' :: '$' :: escapeDollars t from by
          simp [escapeDollars],
        evalString_literal L Store Bindings l _ hlit (Or.inr ⟨_, rfl⟩),
        evalString_escape L Store Bindings '$' _ (Or.inr (Or.inr rfl)), ih t hlen]

/-- C20: for every string `s` and every binding scope, the template obtained
from `s` by replacing each `$` with `$$` evaluates to exactly `s` and reports
no error; in particular every string without `$` evaluates to itself, whatever
the scope binds. -/
theorem evalString_escapeDollars (L : Lexer) (Store : List BindingSet) (Bindings : Nat)
    (s : Str) :
    evalString L Store Bindings (escapeDollars s) = (s, []) ∧
      ((∀ c ∈ s, c ≠ '$') → evalString L Store Bindings s = (s, [])) := by
  refine ⟨evalString_escapeDollars_aux L Store Bindings s.length s (Nat.le_refl _), ?_⟩
  intro hs
  have := evalString_literal L Store Bindings s [] hs (Or.inl rfl)
  rw [List.append_nil, evalString_nil] at this
  simpa using this

theorem evalStringBody_messages_exit (L : Lexer) (Store : List BindingSet) (Bindings : Nat)
    (Pos r : Str) (e : List String)
    (h : evalStringBody L Store Bindings Pos [] [] = .exit r e) :
    ∀ m ∈ e, m ∈ evalMessages := by
  unfold evalStringBody at h
  split at h
  · simp at h; obtain ⟨_, he⟩ := h; subst he; simp [evalMessages]
  · simp at h; obtain ⟨_, he⟩ := h; subst he; simp [evalMessages]
  · split_ifs at h
    · split at h <;> simp at h
    · simp at h; obtain ⟨_, he⟩ := h; subst he; simp [evalMessages]

theorem evalStringBody_messages_next (L : Lexer) (Store : List BindingSet) (Bindings : Nat)
    (Pos p r : Str) (e : List String)
    (h : evalStringBody L Store Bindings Pos [] [] = .next p r e) :
    ∀ m ∈ e, m ∈ evalMessages := by
  unfold evalStringBody at h
  split at h
  · simp at h
  · simp at h
  · split_ifs at h
    · simp at h; obtain ⟨_, _, he⟩ := h; subst he; simp [evalMessages]
    · simp at h; obtain ⟨_, _, he⟩ := h; subst he; simp [evalMessages]
    · split at h
      · simp at h; obtain ⟨_, _, he⟩ := h; subst he; simp [evalMessages]
      · simp at h; obtain ⟨_, _, he⟩ := h; subst he; simp [evalMessages]
      · simp at h; obtain ⟨_, _, he⟩ := h; subst he; simp [evalMessages]
    · simp at h; obtain ⟨_, _, he⟩ := h; subst he; simp [evalMessages]

theorem evalString_messages_aux (L : Lexer) (Store : List BindingSet) (Bindings : Nat) :
    ∀ (n : Nat) (Pos : Str), Pos.length ≤ n →
      ∀ m ∈ (evalString L Store Bindings Pos).2, m ∈ evalMessages := by
  intro n
  induction n with
  | zero =>
    intro Pos hn m hm
    have : Pos = [] := List.length_eq_zero.mp (Nat.le_zero.mp hn)
    subst this
    simp [evalString_nil] at hm
  | succ n ih =>
    intro Pos hn m hm
    cases Pos with
    | nil => simp [evalString_nil] at hm
    | cons c t =>
      cases hbody : evalStringBody L Store Bindings (c :: t) [] [] with
      | exit r e =>
        have hb := evalStringBody_messages_exit _ _ _ _ _ _ hbody
        rw [evalString_exit _ _ _ _ _ _ (List.cons_ne_nil _ _) hbody] at hm
        exact hb m hm
      | next p r e =>
        have hb := evalStringBody_messages_next _ _ _ _ _ _ _ hbody
        have hl := evalStringBody_length _ _ _ _ _ _ _ _ _ hbody
        rw [evalString_next _ _ _ _ _ _ _ (List.cons_ne_nil _ _) hbody] at hm
        rcases List.mem_append.mp hm with h | h
        · exact hb m h
        · exact ih p (by simp at hn hl; omega) m h

/-- Every message of an evaluation is one of the four of `evalString`. -/
theorem evalString_messages (L : Lexer) (Store : List BindingSet) (Bindings : Nat)
    (Value : Str) : ∀ m ∈ (evalString L Store Bindings Value).2, m ∈ evalMessages :=
  evalString_messages_aux L Store Bindings Value.length Value (Nat.le_refl _)

namespace ManifestLoaderImpl

/-! ### Default targets -/

theorem actOnDefaultDecl_ok (NameToks : List Token) :
    ∀ (S : ManifestLoaderImpl) (Top : IncludeEntry), S.IncludeStack.getLast? = some Top →
      actOnDefaultDecl NameToks S =
        .ok { S with
              TheManifest :=
                { S.TheManifest with
                  DefaultTargets := S.TheManifest.DefaultTargets ++
                    NameToks.filterMap (fun n => findNode n S.TheManifest.Nodes) }
              Errors := S.Errors ++
                (NameToks.filter (fun n => (findNode n S.TheManifest.Nodes).isNone)).map
                  (fun n => { Filename := Top.Filename, Message := "unknown target name",
                              At := n }) } := by
  induction NameToks with
  | nil => intro S Top _; simp [actOnDefaultDecl, pure, Except.pure]
  | cons N Ns ih =>
    intro S Top hTop
    cases hf : findNode N S.TheManifest.Nodes with
    | none =>
      simp only [actOnDefaultDecl, hf, error_ok S Top hTop, bind, Except.bind]
      rw [ih _ Top (by exact hTop)]
      simp [hf]
    | some it =>
      simp only [actOnDefaultDecl, hf]
      rw [ih _ Top (by exact hTop)]
      simp [hf]

/-- The lookup in the node table finds a path exactly at the first node that
has it. -/
theorem findNode_some_iff (p : Str) (Ns : List Node) (i : Nat) :
    findNode p Ns = some i ↔
      (Ns.get? i).map (fun N => N.Path) = some p ∧
      ∀ j, j < i → (Ns.get? j).map (fun N => N.Path) ≠ some p := by
  induction Ns generalizing i with
  | nil => simp [findNode]
  | cons N Ns ih =>
    simp only [findNode]
    by_cases hN : N.Path = p
    · simp only [hN, if_true, Option.some.injEq]
      constructor
      · intro h
        subst h
        simp [hN]
      · intro h
        cases i with
        | zero => rfl
        | succ k =>
          exact absurd (by simp [hN]) (h.2 0 (Nat.succ_pos k))
    · simp only [hN, if_false]
      cases i with
      | zero =>
        simp only [List.get?_cons_zero, Option.map_some', Option.some.injEq, hN, false_and,
          iff_false]
        cases findNode p Ns <;> simp
      | succ k =>
        have hk := ih k
        constructor
        · intro h
          have hf : findNode p Ns = some k := by
            cases hf : findNode p Ns with
            | none => rw [hf] at h; simp at h
            | some m => rw [hf] at h; simp at h; rw [h]
          have := hk.mp hf
          refine ⟨by simpa using this.1, ?_⟩
          intro j hj
          cases j with
          | zero => simp [hN]
          | succ m => simpa using this.2 m (by omega)
        · intro h
          have hf : findNode p Ns = some k :=
            hk.mpr ⟨by simpa using h.1, fun j hj => by simpa using h.2 (j + 1) (by omega)⟩
          simp [hf]

/-- The lookup in the node table fails exactly for a path that no node has. -/
theorem findNode_none_iff (p : Str) (Ns : List Node) :
    findNode p Ns = none ↔ ∀ N ∈ Ns, N.Path ≠ p := by
  induction Ns with
  | nil => simp [findNode]
  | cons N Ns ih =>
    simp only [findNode]
    by_cases hN : N.Path = p
    · simp [hN]
    · simp only [hN, if_false, Option.map_eq_none', ih, List.mem_cons, forall_eq_or_imp, ne_eq,
        not_false_eq_true, true_and]

theorem findNode_isNone (p : Str) (Ns : List Node) :
    (findNode p Ns).isNone = !Ns.any (fun N => decide (N.Path = p)) := by
  cases hf : findNode p Ns with
  | none =>
    have := (findNode_none_iff p Ns).mp hf
    simp only [Option.isNone_none]
    symm
    simpa using this
  | some i =>
    have h1 := ((findNode_some_iff p Ns i).mp hf).1
    simp only [Option.isNone_some]
    symm
    simp only [Bool.not_eq_false', List.any_eq_true, decide_eq_true_eq]
    cases hg : Ns.get? i with
    | none => rw [hg] at h1; simp at h1
    | some N =>
      rw [hg] at h1
      exact ⟨N, List.get?_mem hg, by simpa using h1⟩

theorem filterMap_findNode_paths (Ns : List Node) (Names : List Token) :
    (Names.filterMap (fun n => findNode n Ns)).map
        (fun i => (Ns.get? i).map (fun N => N.Path)) =
      (Names.filter (fun n => Ns.any (fun N => decide (N.Path = n)))).map some := by
  induction Names with
  | nil => rfl
  | cons n Names ih =>
    have hnone := findNode_isNone n Ns
    cases hf : findNode n Ns with
    | none =>
      rw [hf] at hnone
      have hany : Ns.any (fun N => decide (N.Path = n)) = false := by
        simpa using hnone.symm
      simp only [List.filterMap_cons, hf, List.filter_cons, hany]
      exact ih
    | some i =>
      rw [hf] at hnone
      have hany : Ns.any (fun N => decide (N.Path = n)) = true := by
        simpa using hnone.symm
      simp only [List.filterMap_cons, hf, List.filter_cons, hany, if_true, List.map_cons, ih,
        ((findNode_some_iff n Ns i).mp hf).1]

/-- C14: for every manifest state and every list of name tokens, after
`actOnDefaultDecl` the default-target list is the previous list followed by
the nodes of exactly those names that are keys of the node table, in token
order with repeats kept: the paths of the appended nodes are those names, and
each appended node is the first of the table with its path; one
unknown-target error is reported for each name that no node of the table has
as its path, and nothing else; and the node table, like every other table, is
unchanged.  The lookup of the handler finds a name exactly when a node of the
table has it as its path. -/
theorem actOnDefaultDecl_spec (S : ManifestLoaderImpl) (Top : IncludeEntry)
    (NameToks : List Token) (hTop : S.IncludeStack.getLast? = some Top) :
    ∃ S1, actOnDefaultDecl NameToks S = .ok S1 ∧
      S1.TheManifest.DefaultTargets = S.TheManifest.DefaultTargets ++
        NameToks.filterMap (fun n => findNode n S.TheManifest.Nodes) ∧
      S1.Errors = S.Errors ++
        (NameToks.filter (fun n => (findNode n S.TheManifest.Nodes).isNone)).map
          (fun n => { Filename := Top.Filename, Message := "unknown target name", At := n }) ∧
      S1.Errors.length = S.Errors.length +
        (NameToks.filter (fun n => (findNode n S.TheManifest.Nodes).isNone)).length ∧
      S1.TheManifest.Nodes = S.TheManifest.Nodes ∧
      S1.TheManifest.Rules = S.TheManifest.Rules ∧
      S1.TheManifest.Pools = S.TheManifest.Pools ∧
      S1.TheManifest.Commands = S.TheManifest.Commands ∧
      S1.IncludeStack = S.IncludeStack ∧
      S1.BindingSets = S.BindingSets ∧
      (NameToks.filterMap (fun n => findNode n S.TheManifest.Nodes)).map
          (fun i => (S.TheManifest.Nodes.get? i).map (fun N => N.Path)) =
        (NameToks.filter
          (fun n => S.TheManifest.Nodes.any (fun N => decide (N.Path = n)))).map some ∧
      (∀ i ∈ NameToks.filterMap (fun n => findNode n S.TheManifest.Nodes), ∀ j, j < i →
        (S.TheManifest.Nodes.get? j).map (fun N => N.Path) ≠
          (S.TheManifest.Nodes.get? i).map (fun N => N.Path)) ∧
      S1.Errors = S.Errors ++
        (NameToks.filter
          (fun n => !S.TheManifest.Nodes.any (fun N => decide (N.Path = n)))).map
          (fun n => { Filename := Top.Filename, Message := "unknown target name", At := n }) ∧
      (∀ n, findNode n S.TheManifest.Nodes = none ↔ ∀ N ∈ S.TheManifest.Nodes, N.Path ≠ n) ∧
      (∀ n i, findNode n S.TheManifest.Nodes = some i ↔
        (S.TheManifest.Nodes.get? i).map (fun N => N.Path) = some n ∧
        ∀ j, j < i → (S.TheManifest.Nodes.get? j).map (fun N => N.Path) ≠ some n) := by
  refine ⟨_, actOnDefaultDecl_ok NameToks S Top hTop, rfl, rfl, by simp, rfl, rfl, rfl, rfl, rfl,
    rfl, filterMap_findNode_paths _ _, ?_, ?_, fun n => findNode_none_iff n _,
    fun n i => findNode_some_iff n _ i⟩
  · intro i hi j hj
    obtain ⟨n, _, hn⟩ := List.mem_filterMap.mp hi
    have h := (findNode_some_iff n _ i).mp hn
    rw [h.1]
    exact h.2 j hj
  · have hfun : (fun n => (findNode n S.TheManifest.Nodes).isNone) =
        (fun n => !S.TheManifest.Nodes.any (fun N => decide (N.Path = n))) :=
      funext (fun n => findNode_isNone n _)
    simp only [hfun]

theorem actOnDefaultDecl_spec_witness :
    (∃ S1, actOnDefaultDecl ["missing.o".toList] sampleState = .ok S1 ∧
      S1.TheManifest.DefaultTargets = [] ∧
      S1.Errors = [{ Filename := "build.ninja".toList, Message := "unknown target name",
                     At := "missing.o".toList }]) ∧
    (∃ S1, actOnDefaultDecl
          ["in.c".toList, "missing.o".toList, "out.o".toList, "in.c".toList]
          sampleOpenState = .ok S1 ∧
      S1.TheManifest.DefaultTargets = [1, 0, 1] ∧
      S1.TheManifest.DefaultTargets.map
          (fun i => (sampleOpenState.TheManifest.Nodes.get? i).map (fun N => N.Path)) =
        [some "in.c".toList, some "out.o".toList, some "in.c".toList] ∧
      S1.Errors = [{ Filename := "build.ninja".toList, Message := "unknown target name",
                     At := "missing.o".toList }]) ∧
    (load missingEnv 1 "build.ninja".toList).toOption.join.map
        (fun S => (S.TheManifest.DefaultTargets, S.TheManifest.Nodes, S.Errors)) =
      some ([], [], [{ Filename := "build.ninja".toList, Message := "unknown target name",
                       At := "missing.o".toList }]) ∧
    (load ccEnv 1 "build.ninja".toList).toOption.join.map
        (fun S => (S.TheManifest.DefaultTargets, S.TheManifest.Nodes, S.Errors)) =
      some ([0], [{ Path := "out.o".toList }, { Path := "in.c".toList }], []) :=
  ⟨match actOnDefaultDecl_spec sampleState
      { Filename := "build.ninja".toList, Parser := [], Bindings := 0 }
      ["missing.o".toList] (by decide) with
    | ⟨S1, h1, h2, h3, _⟩ => ⟨S1, h1, h2.trans (by decide), h3.trans (by decide)⟩,
   match actOnDefaultDecl_spec sampleOpenState
      { Filename := "build.ninja".toList, Parser := [], Bindings := 0 }
      ["in.c".toList, "missing.o".toList, "out.o".toList, "in.c".toList] (by decide) with
    | ⟨S1, h1, h2, h3, _⟩ =>
      ⟨S1, h1, h2.trans (by decide), by rw [h2]; decide, h3.trans (by decide)⟩,
   by decide, by decide⟩

end ManifestLoaderImpl

namespace ManifestLoaderImpl

/-! ### Rule and build bindings -/

/-- C16: for every rule, parameter name and value token, `actOnRuleBindingDecl`
with a recognized name stores the raw text of the value token, character for
character, whatever the binding sets hold, and reports no error, however
malformed the text is as a template; with a name that is not recognized it
reports exactly one unexpected-variable error and changes nothing else, so
the rule's parameter map is as before. -/
theorem actOnRuleBindingDecl_spec (E : Env) (S : ManifestLoaderImpl) (Top : IncludeEntry)
    (Decl : Str) (R : Rule) (NameTok ValueTok : Token)
    (hTop : S.IncludeStack.getLast? = some Top)
    (hR : tableFind Decl S.TheManifest.Rules = some R) :
    (E.isValidParameterName NameTok = true →
      ∃ S1, S.actOnRuleBindingDecl E Decl NameTok ValueTok = .ok S1 ∧
        tableFind Decl S1.TheManifest.Rules =
          some { R with Parameters := tableInsert NameTok ValueTok R.Parameters } ∧
        tableFind NameTok (tableInsert NameTok ValueTok R.Parameters) = some ValueTok ∧
        (∀ k, k ≠ NameTok →
          tableFind k (tableInsert NameTok ValueTok R.Parameters) = tableFind k R.Parameters) ∧
        S1.Errors = S.Errors ∧ S1.BindingSets = S.BindingSets ∧
        S1.IncludeStack = S.IncludeStack) ∧
    (E.isValidParameterName NameTok = false →
      S.actOnRuleBindingDecl E Decl NameTok ValueTok =
        .ok { S with
              Errors := S.Errors ++
                [{ Filename := Top.Filename, Message := "unexpected variable",
                   At := NameTok }] }) := by
  constructor
  · intro hv
    refine ⟨{ S with
              TheManifest :=
                { S.TheManifest with
                  Rules := tableModify Decl
                    (fun R => { R with Parameters := tableInsert NameTok ValueTok R.Parameters })
                    S.TheManifest.Rules } }, ?_, ?_, ?_, ?_, rfl, rfl, rfl⟩
    · simp [actOnRuleBindingDecl, hv, pure, Except.pure]
    · simp [tableFind_modify_self, hR]
    · exact tableFind_insert_self _ _ _
    · intro k hk
      exact tableFind_insert_other _ _ _ _ hk
  · intro hv
    simp [actOnRuleBindingDecl, hv, error_ok S Top hTop]

theorem actOnRuleBindingDecl_spec_witness :
    (∃ S1, sampleOpenState.actOnRuleBindingDecl sampleEnv "cc".toList "command".toList
        "$x $\x7b".toList = .ok S1 ∧
      tableFind "cc".toList S1.TheManifest.Rules =
        some { Name := "cc".toList,
               Parameters := [("command".toList, "$x $\x7b".toList)] } ∧
      S1.Errors = []) ∧
    sampleOpenState.actOnRuleBindingDecl sampleEnv "cc".toList "bogus".toList "v".toList =
      .ok { sampleOpenState with
            Errors := [{ Filename := "build.ninja".toList, Message := "unexpected variable",
                         At := "bogus".toList }] } :=
  have h := actOnRuleBindingDecl_spec sampleEnv sampleOpenState
    { Filename := "build.ninja".toList, Parser := [], Bindings := 0 } "cc".toList
    { Name := "cc".toList, Parameters := [] }
  ⟨match (h "command".toList "$x $\x7b".toList (by decide) (by decide)).1 (by decide) with
    | ⟨S1, h1, h2, _, _, h5, _⟩ => ⟨S1, h1, h2.trans (by decide), h5.trans (by decide)⟩,
   (h "bogus".toList "v".toList (by decide) (by decide)).2 (by decide)⟩

end ManifestLoaderImpl

namespace ManifestLoaderImpl

theorem actOnBuildBindingDecl_ok (E : Env) (S : ManifestLoaderImpl) (Top : IncludeEntry)
    (Decl : Nat) (NameTok ValueTok : Token) (hTop : S.IncludeStack.getLast? = some Top) :
    S.actOnBuildBindingDecl E Decl NameTok ValueTok =
      .ok { S with
            TheManifest :=
              { S.TheManifest with
                Commands := S.TheManifest.Commands.modify
                  (fun C =>
                    { C with
                      Parameters := tableInsert NameTok
                        (ninja.evalString E.Lexer S.BindingSets Top.Bindings ValueTok).1
                        C.Parameters }) Decl }
            Errors := S.Errors ++
              (ninja.evalString E.Lexer S.BindingSets Top.Bindings ValueTok).2.map
                (fun M => { Filename := Top.Filename, Message := M, At := ValueTok }) } := by
  simp only [actOnBuildBindingDecl, getCurrentBindings, hTop, evalString_ok S E Top hTop, bind,
    Except.bind, pure, Except.pure]

/-- C17, at a concrete input: the command of `sampleOpenState` gets `k = a`
and then `k = b$`; the second assignment overwrites the first and reports an
error, the one of evaluating its malformed template. -/
theorem actOnBuildBindingDecl_reassign_reports :
    ((sampleOpenState.actOnBuildBindingDecl sampleEnv 0 "k".toList "a".toList).bind
        (fun S => S.actOnBuildBindingDecl sampleEnv 0 "k".toList "b$".toList)).toOption.map
        (fun S => (S.TheManifest.Commands.map (fun C => C.Parameters), S.Errors)) =
      some ([[("k".toList, "b".toList)]],
        [{ Filename := "build.ninja".toList, Message := "invalid '$'-escape at end of string",
           At := "b$".toList }]) := by
  decide

/-- C17, amended: for every open command, parameter name and value template,
`actOnBuildBindingDecl` stores under the name the template evaluated at once
against the active scope; it leaves the binding sets and the include stack as
they were and reports the errors of evaluating the template and no other; a
later binding declaration leaves the commands, and so the stored parameter, as
they are; and assigning the same name again overwrites the earlier value and
reports no error beyond those of evaluating the new template. -/
theorem actOnBuildBindingDecl_spec (E : Env) (S : ManifestLoaderImpl) (Top : IncludeEntry)
    (Decl : Nat) (C : Command) (NameTok ValueTok : Token)
    (hTop : S.IncludeStack.getLast? = some Top)
    (hC : S.TheManifest.Commands.get? Decl = some C) :
    ∃ S1, S.actOnBuildBindingDecl E Decl NameTok ValueTok = .ok S1 ∧
      S1.TheManifest.Commands.get? Decl =
        some { C with
               Parameters := tableInsert NameTok
                 (ninja.evalString E.Lexer S.BindingSets Top.Bindings ValueTok).1
                 C.Parameters } ∧
      tableFind NameTok (tableInsert NameTok
          (ninja.evalString E.Lexer S.BindingSets Top.Bindings ValueTok).1 C.Parameters) =
        some (ninja.evalString E.Lexer S.BindingSets Top.Bindings ValueTok).1 ∧
      S1.BindingSets = S.BindingSets ∧
      S1.IncludeStack = S.IncludeStack ∧
      S1.Errors = S.Errors ++
        (ninja.evalString E.Lexer S.BindingSets Top.Bindings ValueTok).2.map
          (fun M => { Filename := Top.Filename, Message := M, At := ValueTok }) ∧
      (∀ N V, ∃ S2, S1.actOnBindingDecl E N V = .ok S2 ∧
        S2.TheManifest.Commands = S1.TheManifest.Commands) ∧
      (∀ V2, ∃ S2 C2, S1.actOnBuildBindingDecl E Decl NameTok V2 = .ok S2 ∧
        S2.TheManifest.Commands.get? Decl = some C2 ∧
        tableFind NameTok C2.Parameters =
          some (ninja.evalString E.Lexer S.BindingSets Top.Bindings V2).1 ∧
        S2.Errors = S1.Errors ++
          (ninja.evalString E.Lexer S.BindingSets Top.Bindings V2).2.map
            (fun M => { Filename := Top.Filename, Message := M, At := V2 })) := by
  have hget : ∀ (Cs : List Command) (f : Command → Command) (C0 : Command),
      Cs.get? Decl = some C0 → (Cs.modify f Decl).get? Decl = some (f C0) := by
    intro Cs f C0 h
    simp only [List.get?_eq_getElem?] at h ⊢
    simp [List.getElem?_modify, h]
  obtain ⟨S1, h1, hI, hB, hE, hCmd⟩ : ∃ S1,
      S.actOnBuildBindingDecl E Decl NameTok ValueTok = .ok S1 ∧
      S1.IncludeStack = S.IncludeStack ∧ S1.BindingSets = S.BindingSets ∧
      S1.Errors = S.Errors ++
        (ninja.evalString E.Lexer S.BindingSets Top.Bindings ValueTok).2.map
          (fun M => { Filename := Top.Filename, Message := M, At := ValueTok }) ∧
      S1.TheManifest.Commands = S.TheManifest.Commands.modify
        (fun C =>
          { C with
            Parameters := tableInsert NameTok
              (ninja.evalString E.Lexer S.BindingSets Top.Bindings ValueTok).1
              C.Parameters }) Decl :=
    ⟨_, actOnBuildBindingDecl_ok E S Top Decl NameTok ValueTok hTop, rfl, rfl, rfl, rfl⟩
  have hTop1 : S1.IncludeStack.getLast? = some Top := by rw [hI]; exact hTop
  have hC1 : S1.TheManifest.Commands.get? Decl =
      some { C with
             Parameters := tableInsert NameTok
               (ninja.evalString E.Lexer S.BindingSets Top.Bindings ValueTok).1
               C.Parameters } := by
    rw [hCmd]; exact hget _ _ _ hC
  refine ⟨S1, h1, hC1, tableFind_insert_self _ _ _, hB, hI, hE, ?_, ?_⟩
  · intro N V
    exact ⟨_, actOnBindingDecl_ok E S1 Top N V hTop1, rfl⟩
  · intro V2
    obtain ⟨S2, h2, hE2, hCmd2⟩ : ∃ S2,
        S1.actOnBuildBindingDecl E Decl NameTok V2 = .ok S2 ∧
        S2.Errors = S1.Errors ++
          (ninja.evalString E.Lexer S1.BindingSets Top.Bindings V2).2.map
            (fun M => { Filename := Top.Filename, Message := M, At := V2 }) ∧
        S2.TheManifest.Commands = S1.TheManifest.Commands.modify
          (fun C =>
            { C with
              Parameters := tableInsert NameTok
                (ninja.evalString E.Lexer S1.BindingSets Top.Bindings V2).1
                C.Parameters }) Decl :=
      ⟨_, actOnBuildBindingDecl_ok E S1 Top Decl NameTok V2 hTop1, rfl, rfl⟩
    rw [hB] at hE2 hCmd2
    have hC2 := hget S1.TheManifest.Commands
      (fun C =>
        { C with
          Parameters := tableInsert NameTok
            (ninja.evalString E.Lexer S.BindingSets Top.Bindings V2).1 C.Parameters }) _ hC1
    rw [← hCmd2] at hC2
    exact ⟨S2, _, h2, hC2, tableFind_insert_self _ _ _, hE2⟩

theorem actOnBuildBindingDecl_spec_witness :
    ∃ S1, sampleOpenState.actOnBuildBindingDecl sampleEnv 0 "k".toList "$x.o".toList = .ok S1 ∧
      S1.TheManifest.Commands.map (fun C => C.Parameters) = [[("k".toList, "a.o".toList)]] ∧
      S1.Errors = [] :=
  match actOnBuildBindingDecl_spec sampleEnv sampleOpenState
      { Filename := "build.ninja".toList, Parser := [], Bindings := 0 } 0
      { Rule := .named "cc".toList, Outputs := [0], Inputs := [1], NumExplicitInputs := 1,
        NumImplicitInputs := 0, Parameters := [] }
      "k".toList "$x.o".toList (by decide) (by decide) with
  | ⟨S1, h1, _, _, _, _, h6, _⟩ =>
    ⟨S1, h1,
      by
        rw [actOnBuildBindingDecl_ok sampleEnv sampleOpenState
          { Filename := "build.ninja".toList, Parser := [], Bindings := 0 } 0 "k".toList
          "$x.o".toList (by decide)] at h1
        cases h1
        decide,
      h6.trans (by decide)⟩

end ManifestLoaderImpl

namespace ManifestLoaderImpl

/-! ### Build declarations -/

theorem findNode_append_some (p : Str) (Ns X : List Node) (i : Nat)
    (h : findNode p Ns = some i) : findNode p (Ns ++ X) = some i := by
  induction Ns generalizing i with
  | nil => simp [findNode] at h
  | cons N Ns ih =>
    rw [List.cons_append]
    simp only [findNode] at h ⊢
    split_ifs at h ⊢ with hN
    · exact h
    · cases hf : findNode p Ns with
      | none => rw [hf] at h; simp at h
      | some j => rw [hf] at h; rw [ih j hf]; exact h

theorem findNode_append_none (p : Str) (Ns : List Node) (h : findNode p Ns = none) :
    findNode p (Ns ++ [{ Path := p }]) = some Ns.length := by
  induction Ns with
  | nil => simp [findNode]
  | cons N Ns ih =>
    rw [List.cons_append]
    simp only [findNode] at h ⊢
    split_ifs at h ⊢ with hN
    · cases hf : findNode p Ns with
      | none => rw [ih hf]; simp
      | some j => rw [hf] at h; simp at h

theorem findNode_path (p : Str) (Ns : List Node) (i : Nat) (h : findNode p Ns = some i) :
    (Ns.get? i).map (fun N => N.Path) = some p := by
  induction Ns generalizing i with
  | nil => simp [findNode] at h
  | cons N Ns ih =>
    simp only [findNode] at h
    split_ifs at h with hN
    · simp at h; subst h; simp [hN]
    · cases hf : findNode p Ns with
      | none => rw [hf] at h; simp at h
      | some j =>
        rw [hf] at h
        simp at h
        subst h
        simpa using ih j hf

/-- Different paths are interned as different nodes. -/
theorem findNode_inj (p q : Str) (Ns : List Node) (i : Nat) (hp : findNode p Ns = some i)
    (hq : findNode q Ns = some i) : p = q := by
  have h1 := findNode_path p Ns i hp
  have h2 := findNode_path q Ns i hq
  rw [h1] at h2
  exact Option.some.inj h2

theorem getOrCreateNode_spec (M : Manifest) (p : Str) :
    findNode p (M.getOrCreateNode p).2.Nodes = some (M.getOrCreateNode p).1 ∧
    (∀ q j, findNode q M.Nodes = some j → findNode q (M.getOrCreateNode p).2.Nodes = some j) ∧
    (M.getOrCreateNode p).2.Rules = M.Rules ∧
    (M.getOrCreateNode p).2.Pools = M.Pools ∧
    (M.getOrCreateNode p).2.Commands = M.Commands ∧
    (M.getOrCreateNode p).2.DefaultTargets = M.DefaultTargets ∧
    (M.getOrCreateNode p).2.PhonyRule = M.PhonyRule := by
  unfold Manifest.getOrCreateNode
  cases hf : findNode p M.Nodes with
  | some i => exact ⟨hf, fun _ _ h => h, rfl, rfl, rfl, rfl, rfl⟩
  | none =>
    exact ⟨findNode_append_none p _ hf, fun q j h => findNode_append_some q _ _ j h,
      rfl, rfl, rfl, rfl, rfl⟩

/-- One token of a loop of `actOnBeginBuildDecl`. -/
theorem resolveNodes_cons (E : Env) (EmptyMessage : String) (Tok : Token) (Toks : List Token)
    (Nodes : List Nat) (S : ManifestLoaderImpl) (Top : IncludeEntry)
    (hTop : S.IncludeStack.getLast? = some Top) :
    resolveNodes E EmptyMessage (Tok :: Toks) Nodes S =
      resolveNodes E EmptyMessage Toks
        (Nodes ++ [(S.TheManifest.getOrCreateNode
          (ninja.evalString E.Lexer S.BindingSets Top.Bindings Tok).1).1])
        { S with
          TheManifest := (S.TheManifest.getOrCreateNode
            (ninja.evalString E.Lexer S.BindingSets Top.Bindings Tok).1).2
          Errors := S.Errors ++ pathErrors Top.Filename EmptyMessage
            (fun t => ninja.evalString E.Lexer S.BindingSets Top.Bindings t) [Tok] } := by
  by_cases hp : (ninja.evalString E.Lexer S.BindingSets Top.Bindings Tok).1 = []
  · have he := error_ok
      { S with
        Errors := S.Errors ++
          (ninja.evalString E.Lexer S.BindingSets Top.Bindings Tok).2.map
            (fun M => { Filename := Top.Filename, Message := M, At := Tok }) }
      Top hTop EmptyMessage Tok
    simp only [resolveNodes, getCurrentBindings, hTop, evalString_ok S E Top hTop, bind,
      Except.bind, hp, if_true, he, pathErrors]
    simp
  · simp only [resolveNodes, getCurrentBindings, hTop, evalString_ok S E Top hTop, bind,
      Except.bind, hp, if_false, pure, Except.pure, pathErrors]
    simp

end ManifestLoaderImpl

namespace ManifestLoaderImpl

theorem pathErrors_cons (Filename : Str) (EmptyMessage : String)
    (eval : Token → Str × List String) (Tok : Token) (Toks : List Token) :
    pathErrors Filename EmptyMessage eval (Tok :: Toks) =
      pathErrors Filename EmptyMessage eval [Tok] ++
        pathErrors Filename EmptyMessage eval Toks := by
  simp [pathErrors]

/-- A loop of `actOnBeginBuildDecl` over path tokens: every token gets the node
interned under its evaluated path, nodes interned before stay where they are,
and the errors are those of `pathErrors`. -/
theorem resolveNodes_spec (E : Env) (EmptyMessage : String) (Toks : List Token) :
    ∀ (S : ManifestLoaderImpl) (Top : IncludeEntry) (Nodes : List Nat),
      S.IncludeStack.getLast? = some Top →
      ∃ Ns S1, resolveNodes E EmptyMessage Toks Nodes S = .ok (Nodes ++ Ns, S1) ∧
        S1.IncludeStack = S.IncludeStack ∧ S1.BindingSets = S.BindingSets ∧
        S1.Errors = S.Errors ++ pathErrors Top.Filename EmptyMessage
          (fun t => ninja.evalString E.Lexer S.BindingSets Top.Bindings t) Toks ∧
        S1.TheManifest.Rules = S.TheManifest.Rules ∧
        S1.TheManifest.Pools = S.TheManifest.Pools ∧
        S1.TheManifest.Commands = S.TheManifest.Commands ∧
        S1.TheManifest.DefaultTargets = S.TheManifest.DefaultTargets ∧
        S1.TheManifest.PhonyRule = S.TheManifest.PhonyRule ∧
        Ns.map some = Toks.map (fun t =>
          findNode (ninja.evalString E.Lexer S.BindingSets Top.Bindings t).1
            S1.TheManifest.Nodes) ∧
        (∀ q j, findNode q S.TheManifest.Nodes = some j →
          findNode q S1.TheManifest.Nodes = some j) := by
  induction Toks with
  | nil =>
    intro S Top Nodes _
    exact ⟨[], S, by simp [resolveNodes, pure, Except.pure], rfl, rfl, by simp [pathErrors],
      rfl, rfl, rfl, rfl, rfl, rfl, fun _ _ h => h⟩
  | cons Tok Toks ih =>
    intro S Top Nodes hTop
    have hg := getOrCreateNode_spec S.TheManifest
      (ninja.evalString E.Lexer S.BindingSets Top.Bindings Tok).1
    obtain ⟨g1, g2, g3, g4, g5, g6, g7⟩ := hg
    generalize hS2 : ({ S with
          TheManifest := (S.TheManifest.getOrCreateNode
            (ninja.evalString E.Lexer S.BindingSets Top.Bindings Tok).1).2
          Errors := S.Errors ++ pathErrors Top.Filename EmptyMessage
            (fun t => ninja.evalString E.Lexer S.BindingSets Top.Bindings t) [Tok] } :
        ManifestLoaderImpl) = S2
    have hstep := resolveNodes_cons E EmptyMessage Tok Toks Nodes S Top hTop
    rw [hS2] at hstep
    have hI2 : S2.IncludeStack = S.IncludeStack := by rw [← hS2]
    have hB2 : S2.BindingSets = S.BindingSets := by rw [← hS2]
    have hE2 : S2.Errors = S.Errors ++ pathErrors Top.Filename EmptyMessage
        (fun t => ninja.evalString E.Lexer S.BindingSets Top.Bindings t) [Tok] := by rw [← hS2]
    have hM2 : S2.TheManifest = (S.TheManifest.getOrCreateNode
        (ninja.evalString E.Lexer S.BindingSets Top.Bindings Tok).1).2 := by rw [← hS2]
    obtain ⟨Ns, S1, h1, h2, h3, h4, h5, h6, h7, h8, h9, h10, h11⟩ :=
      ih S2 Top (Nodes ++ [(S.TheManifest.getOrCreateNode
        (ninja.evalString E.Lexer S.BindingSets Top.Bindings Tok).1).1])
        (by rw [hI2]; exact hTop)
    rw [hB2] at h4 h10
    rw [hM2] at h5 h6 h7 h8 h9 h11
    refine ⟨(S.TheManifest.getOrCreateNode
        (ninja.evalString E.Lexer S.BindingSets Top.Bindings Tok).1).1 :: Ns, S1, ?_,
      h2.trans hI2, h3.trans hB2, ?_, h5.trans g3, h6.trans g4, h7.trans g5, h8.trans g6,
      h9.trans g7, ?_, fun q j h => h11 q j (g2 q j h)⟩
    · rw [hstep, h1]; simp
    · rw [h4, hE2, pathErrors_cons Top.Filename EmptyMessage _ Tok Toks]; simp
    · simp only [List.map_cons, h10]
      rw [h11 _ _ g1]

end ManifestLoaderImpl

namespace ManifestLoaderImpl

theorem map_some_mono {α : Type} (L : List Nat) (T : List α) (f g : α → Option Nat)
    (h : L.map some = T.map f) (hfg : ∀ t j, f t = some j → g t = some j) :
    L.map some = T.map g := by
  induction T generalizing L with
  | nil => simpa using h
  | cons t T ih =>
    cases L with
    | nil => simp at h
    | cons a L =>
      simp only [List.map_cons, List.cons.injEq] at h ⊢
      exact ⟨(hfg t a h.1.symm).symm, ih L h.2⟩

/-- The result of `actOnBeginBuildDecl`: one command is appended, with the rule
of the table slot or else the phony rule, and with the nodes interned under
the evaluated paths; the errors are the unknown rule, if so, and those of the
two loops. -/
theorem actOnBeginBuildDecl_result (E : Env) (S : ManifestLoaderImpl) (Top : IncludeEntry)
    (NameTok : Token) (OutputTokens InputTokens : List Token)
    (NumExplicitInputs NumImplicitInputs : Nat)
    (hTop : S.IncludeStack.getLast? = some Top) :
    ∃ Outputs Inputs S1,
      S.actOnBeginBuildDecl E NameTok OutputTokens InputTokens NumExplicitInputs
        NumImplicitInputs = .ok (S.TheManifest.Commands.length, S1) ∧
      S1.TheManifest.Commands = S.TheManifest.Commands ++
        [{ Rule := if (tableFind NameTok S.TheManifest.Rules).isSome then .named NameTok
                   else .phony,
           Outputs := Outputs, Inputs := Inputs, NumExplicitInputs := NumExplicitInputs,
           NumImplicitInputs := NumImplicitInputs, Parameters := [] }] ∧
      S1.Errors = S.Errors ++
        (if (tableFind NameTok S.TheManifest.Rules).isSome then []
          else [{ Filename := Top.Filename, Message := "unknown rule", At := NameTok }]) ++
        pathErrors Top.Filename "empty output path"
          (fun t => ninja.evalString E.Lexer S.BindingSets Top.Bindings t) OutputTokens ++
        pathErrors Top.Filename "empty input path"
          (fun t => ninja.evalString E.Lexer S.BindingSets Top.Bindings t) InputTokens ∧
      Outputs.map some = OutputTokens.map (fun t =>
        findNode (ninja.evalString E.Lexer S.BindingSets Top.Bindings t).1
          S1.TheManifest.Nodes) ∧
      Inputs.map some = InputTokens.map (fun t =>
        findNode (ninja.evalString E.Lexer S.BindingSets Top.Bindings t).1
          S1.TheManifest.Nodes) ∧
      S1.TheManifest.Rules = S.TheManifest.Rules ∧
      S1.TheManifest.Pools = S.TheManifest.Pools ∧
      S1.TheManifest.DefaultTargets = S.TheManifest.DefaultTargets ∧
      S1.TheManifest.PhonyRule = S.TheManifest.PhonyRule ∧
      S1.IncludeStack = S.IncludeStack ∧ S1.BindingSets = S.BindingSets ∧
      (∀ q j, findNode q S.TheManifest.Nodes = some j →
        findNode q S1.TheManifest.Nodes = some j) := by
  -- the state after the rule is resolved
  obtain ⟨S0, hI0, hB0, hE0, hM0, hrun⟩ : ∃ S0 : ManifestLoaderImpl,
      S0.IncludeStack = S.IncludeStack ∧ S0.BindingSets = S.BindingSets ∧
      S0.Errors = S.Errors ++
        (if (tableFind NameTok S.TheManifest.Rules).isSome then []
          else [{ Filename := Top.Filename, Message := "unknown rule", At := NameTok }]) ∧
      S0.TheManifest = S.TheManifest ∧
      S.actOnBeginBuildDecl E NameTok OutputTokens InputTokens NumExplicitInputs
          NumImplicitInputs =
        (resolveNodes E "empty output path" OutputTokens [] S0).bind (fun r1 =>
          (resolveNodes E "empty input path" InputTokens [] r1.2).bind (fun r2 =>
            .ok (r2.2.TheManifest.Commands.length,
              { r2.2 with
                TheManifest :=
                  { r2.2.TheManifest with
                    Commands := r2.2.TheManifest.Commands ++
                      [{ Rule := if (tableFind NameTok S.TheManifest.Rules).isSome then
                                   .named NameTok else .phony,
                         Outputs := r1.1, Inputs := r2.1,
                         NumExplicitInputs := NumExplicitInputs,
                         NumImplicitInputs := NumImplicitInputs, Parameters := [] }] } }))) := by
    cases hf : tableFind NameTok S.TheManifest.Rules with
    | none =>
      refine ⟨{ S with
                Errors := S.Errors ++
                  [{ Filename := Top.Filename, Message := "unknown rule", At := NameTok }] },
        rfl, rfl, by simp, rfl, ?_⟩
      simp only [actOnBeginBuildDecl, hf, error_ok S Top hTop, bind, Except.bind, pure,
        Except.pure]
      rfl
    | some R =>
      refine ⟨S, rfl, rfl, by simp, rfl, ?_⟩
      simp only [actOnBeginBuildDecl, hf, bind, Except.bind, pure, Except.pure]
      rfl
  obtain ⟨Outs, S3, h1, a2, a3, a4, a5, a6, a7, a8, a9, a10, a11⟩ :=
    resolveNodes_spec E "empty output path" OutputTokens S0 Top [] (by rw [hI0]; exact hTop)
  obtain ⟨Ins, S4, h2, b2, b3, b4, b5, b6, b7, b8, b9, b10, b11⟩ :=
    resolveNodes_spec E "empty input path" InputTokens S3 Top [] (by rw [a2, hI0]; exact hTop)
  rw [hB0] at a4 a10
  rw [a3, hB0] at b4 b10
  rw [hM0] at a5 a6 a7 a8 a9 a11
  refine ⟨Outs, Ins,
    { S4 with
      TheManifest :=
        { S4.TheManifest with
          Commands := S4.TheManifest.Commands ++
            [{ Rule := if (tableFind NameTok S.TheManifest.Rules).isSome then
                         .named NameTok else .phony,
               Outputs := Outs, Inputs := Ins,
               NumExplicitInputs := NumExplicitInputs,
               NumImplicitInputs := NumImplicitInputs, Parameters := [] }] } },
    ?_, ?_, ?_, ?_, ?_, ?_, ?_, ?_, ?_, ?_, ?_, ?_⟩
  · rw [hrun, h1]
    simp only [Except.bind, List.nil_append, h2]
    rw [b7, a7]
  · simp only [b7, a7]
  · simp only [b4, a4, hE0]
  · exact map_some_mono _ _ _ _ a10 (fun t j h => b11 _ j h)
  · exact b10
  · exact b5.trans a5
  · exact b6.trans a6
  · exact b8.trans a8
  · exact b9.trans a9
  · exact b2.trans (a2.trans hI0)
  · exact b3.trans (a3.trans hB0)
  · exact fun q j h => b11 q j (a11 q j h)

end ManifestLoaderImpl

namespace ManifestLoaderImpl

theorem pathErrors_messages (Filename : Str) (EmptyMessage : String) (L : Lexer)
    (Store : List BindingSet) (Bindings : Nat) (Toks : List Token) :
    ∀ d ∈ pathErrors Filename EmptyMessage
        (fun t => ninja.evalString L Store Bindings t) Toks,
      d.Message ∈ evalMessages ∨ d.Message = EmptyMessage := by
  induction Toks with
  | nil => intro d hd; simp [pathErrors] at hd
  | cons Tok Toks ih =>
    intro d hd
    simp only [pathErrors, List.mem_append, List.mem_map] at hd
    rcases hd with (⟨M, hM, rfl⟩ | hd) | hd
    · exact Or.inl (evalString_messages L Store Bindings Tok M hM)
    · split_ifs at hd
      · simp only [List.mem_singleton] at hd
        rw [hd]; exact Or.inr rfl
      · simp at hd
    · exact ih d hd

theorem pathErrors_nil (Filename : Str) (EmptyMessage : String)
    (eval : Token → Str × List String) (Toks : List Token)
    (h : ∀ t ∈ Toks, (eval t).1 ≠ [] ∧ (eval t).2 = []) :
    pathErrors Filename EmptyMessage eval Toks = [] := by
  induction Toks with
  | nil => rfl
  | cons Tok Toks ih =>
    have h1 := h Tok (by simp)
    simp [pathErrors, h1.1, h1.2, ih (fun t ht => h t (by simp [ht]))]

theorem map_some_mem {α : Type} (L : List Nat) (T : List α) (f : α → Option Nat)
    (h : L.map some = T.map f) : ∀ t ∈ T, ∃ i, f t = some i := by
  induction T generalizing L with
  | nil => intro t ht; simp at ht
  | cons a T ih =>
    cases L with
    | nil => simp at h
    | cons b L =>
      simp only [List.map_cons, List.cons.injEq] at h
      intro t ht
      rcases List.mem_cons.mp ht with rfl | ht
      · exact ⟨b, h.1.symm⟩
      · exact ih L h.2 t ht

/-- C11: for every manifest state and every build declaration,
`actOnBeginBuildDecl` appends exactly one command; when the rule name is not a
key of the rule table it reports exactly one unknown-rule error and the
command's rule is the manifest's built-in phony rule; when the rule name is a
key it reports no unknown-rule error and the command's rule is that table
entry. -/
theorem actOnBeginBuildDecl_rule (E : Env) (S : ManifestLoaderImpl) (Top : IncludeEntry)
    (NameTok : Token) (OutputTokens InputTokens : List Token)
    (NumExplicitInputs NumImplicitInputs : Nat)
    (hTop : S.IncludeStack.getLast? = some Top) :
    ∃ S1 C errs,
      S.actOnBeginBuildDecl E NameTok OutputTokens InputTokens NumExplicitInputs
        NumImplicitInputs = .ok (S.TheManifest.Commands.length, S1) ∧
      S1.TheManifest.Commands = S.TheManifest.Commands ++ [C] ∧
      S1.TheManifest.PhonyRule = S.TheManifest.PhonyRule ∧
      S1.TheManifest.Rules = S.TheManifest.Rules ∧
      (∀ d ∈ errs, d.Message ≠ "unknown rule") ∧
      (tableFind NameTok S.TheManifest.Rules = none →
        S1.Errors = S.Errors ++
          { Filename := Top.Filename, Message := "unknown rule", At := NameTok } :: errs ∧
        C.Rule = .phony ∧
        S1.TheManifest.getRule C.Rule = some S1.TheManifest.PhonyRule) ∧
      (∀ R, tableFind NameTok S.TheManifest.Rules = some R →
        S1.Errors = S.Errors ++ errs ∧
        C.Rule = .named NameTok ∧
        S1.TheManifest.getRule C.Rule = some R) := by
  obtain ⟨Outs, Ins, S1, h1, h2, h3, _, _, h6, _, _, h9, _, _, _⟩ :=
    actOnBeginBuildDecl_result E S Top NameTok OutputTokens InputTokens NumExplicitInputs
      NumImplicitInputs hTop
  refine ⟨S1, _,
    pathErrors Top.Filename "empty output path"
      (fun t => ninja.evalString E.Lexer S.BindingSets Top.Bindings t) OutputTokens ++
    pathErrors Top.Filename "empty input path"
      (fun t => ninja.evalString E.Lexer S.BindingSets Top.Bindings t) InputTokens,
    h1, h2, h9, h6, ?_, ?_, ?_⟩
  · intro d hd
    have hm : d.Message ∈ evalMessages ∨ d.Message = "empty output path" ∨
        d.Message = "empty input path" := by
      rcases List.mem_append.mp hd with h | h
      · rcases pathErrors_messages _ _ _ _ _ _ d h with h | h
        · exact Or.inl h
        · exact Or.inr (Or.inl h)
      · rcases pathErrors_messages _ _ _ _ _ _ d h with h | h
        · exact Or.inl h
        · exact Or.inr (Or.inr h)
    intro hu
    rw [hu] at hm
    revert hm
    decide
  · intro hf
    refine ⟨?_, ?_, ?_⟩
    · rw [h3, hf]; simp
    · simp [hf]
    · simp [hf, Manifest.getRule]
  · intro R hf
    refine ⟨?_, ?_, ?_⟩
    · rw [h3, hf]; simp
    · simp [hf]
    · simp [hf, Manifest.getRule, h6]

theorem actOnBeginBuildDecl_rule_witness :
    (∃ S1 C, sampleOpenState.actOnBeginBuildDecl sampleEnv "nope".toList ["a.o".toList]
        ["a.c".toList] 1 0 = .ok (1, S1) ∧
      S1.TheManifest.Commands = sampleOpenState.TheManifest.Commands ++ [C] ∧
      C.Rule = .phony) ∧
    (sampleOpenState.actOnBeginBuildDecl sampleEnv "nope".toList ["a.o".toList]
        ["a.c".toList] 1 0).toOption.map
        (fun r => (r.2.TheManifest.Commands.map (fun C => C.Rule),
          r.2.Errors.map (fun d => d.Message))) =
      some ([.named "cc".toList, .phony], ["unknown rule"]) :=
  ⟨match actOnBeginBuildDecl_rule sampleEnv sampleOpenState
      { Filename := "build.ninja".toList, Parser := [], Bindings := 0 } "nope".toList
      ["a.o".toList] ["a.c".toList] 1 0 (by decide) with
    | ⟨S1, C, _, h1, h2, _, _, _, h6, _⟩ => ⟨S1, C, h1, h2, (h6 (by decide)).2.1⟩,
   by decide⟩

end ManifestLoaderImpl

namespace ManifestLoaderImpl

/-- C15, at a concrete input: in `sampleOpenState` the rule `cc` exists and the
paths `out$.o` and `in.c` evaluate to the non-empty `out` and `in.c`, yet
`actOnBeginBuildDecl` reports an error, the invalid escape of the first
template. -/
theorem actOnBeginBuildDecl_reports_template_error :
    (tableFind "cc".toList sampleOpenState.TheManifest.Rules).isSome = true ∧
    (ninja.evalString sampleEnv.Lexer sampleOpenState.BindingSets 0 "out$.o".toList).1 =
      "out".toList ∧
    (ninja.evalString sampleEnv.Lexer sampleOpenState.BindingSets 0 "in.c".toList).1 =
      "in.c".toList ∧
    (sampleOpenState.actOnBeginBuildDecl sampleEnv "cc".toList ["out$.o".toList]
        ["in.c".toList] 1 0).toOption.map (fun r => r.2.Errors) =
      some [{ Filename := "build.ninja".toList,
              Message := "invalid '$'-escape (literal '$' should be written as '$$')",
              At := "out$.o".toList }] := by
  decide

/-- C15, amended: for every build declaration, `actOnBeginBuildDecl` appends
exactly one command whose output and input lists have the lengths and the
order of the output and input tokens, each entry being the node interned under
the token's evaluated path: equal paths give the same node, different paths
different nodes, every such path is a key of the node table afterwards and
nodes interned before keep their place.  The errors are the unknown rule, if
so, and for each token in order those of evaluating its template and one
empty-path error when its evaluated path is empty; when the rule exists, no
path is empty and every path template evaluates without error, no error is
reported. -/
theorem actOnBeginBuildDecl_nodes (E : Env) (S : ManifestLoaderImpl) (Top : IncludeEntry)
    (NameTok : Token) (OutputTokens InputTokens : List Token)
    (NumExplicitInputs NumImplicitInputs : Nat)
    (hTop : S.IncludeStack.getLast? = some Top) :
    ∃ S1 C,
      S.actOnBeginBuildDecl E NameTok OutputTokens InputTokens NumExplicitInputs
        NumImplicitInputs = .ok (S.TheManifest.Commands.length, S1) ∧
      S1.TheManifest.Commands = S.TheManifest.Commands ++ [C] ∧
      C.Outputs.map some = OutputTokens.map (fun t =>
        findNode (ninja.evalString E.Lexer S.BindingSets Top.Bindings t).1
          S1.TheManifest.Nodes) ∧
      C.Inputs.map some = InputTokens.map (fun t =>
        findNode (ninja.evalString E.Lexer S.BindingSets Top.Bindings t).1
          S1.TheManifest.Nodes) ∧
      C.Outputs.length = OutputTokens.length ∧ C.Inputs.length = InputTokens.length ∧
      C.NumExplicitInputs = NumExplicitInputs ∧ C.NumImplicitInputs = NumImplicitInputs ∧
      (∀ t ∈ OutputTokens ++ InputTokens, ∃ i,
        findNode (ninja.evalString E.Lexer S.BindingSets Top.Bindings t).1
          S1.TheManifest.Nodes = some i) ∧
      (∀ p q i, findNode p S1.TheManifest.Nodes = some i →
        findNode q S1.TheManifest.Nodes = some i → p = q) ∧
      (∀ q j, findNode q S.TheManifest.Nodes = some j →
        findNode q S1.TheManifest.Nodes = some j) ∧
      S1.Errors = S.Errors ++
        (if (tableFind NameTok S.TheManifest.Rules).isSome then []
          else [{ Filename := Top.Filename, Message := "unknown rule", At := NameTok }]) ++
        pathErrors Top.Filename "empty output path"
          (fun t => ninja.evalString E.Lexer S.BindingSets Top.Bindings t) OutputTokens ++
        pathErrors Top.Filename "empty input path"
          (fun t => ninja.evalString E.Lexer S.BindingSets Top.Bindings t) InputTokens ∧
      ((tableFind NameTok S.TheManifest.Rules).isSome = true →
        (∀ t ∈ OutputTokens ++ InputTokens,
          (ninja.evalString E.Lexer S.BindingSets Top.Bindings t).1 ≠ [] ∧
          (ninja.evalString E.Lexer S.BindingSets Top.Bindings t).2 = []) →
        S1.Errors = S.Errors) := by
  obtain ⟨Outs, Ins, S1, h1, h2, h3, h4, h5, _, _, _, _, _, _, h12⟩ :=
    actOnBeginBuildDecl_result E S Top NameTok OutputTokens InputTokens NumExplicitInputs
      NumImplicitInputs hTop
  refine ⟨S1, _, h1, h2, h4, h5, ?_, ?_, rfl, rfl, ?_, ?_, h12, h3, ?_⟩
  · have := congrArg List.length h4
    simpa using this
  · have := congrArg List.length h5
    simpa using this
  · intro t ht
    rcases List.mem_append.mp ht with h | h
    · exact map_some_mem _ _ _ h4 t h
    · exact map_some_mem _ _ _ h5 t h
  · intro p q i hp hq
    exact findNode_inj p q _ i hp hq
  · intro hr hall
    rw [h3, hr,
      pathErrors_nil _ _ _ OutputTokens (fun t ht => hall t (List.mem_append_left _ ht)),
      pathErrors_nil _ _ _ InputTokens (fun t ht => hall t (List.mem_append_right _ ht))]
    simp

theorem actOnBeginBuildDecl_nodes_witness :
    (∃ S1 C, sampleOpenState.actOnBeginBuildDecl sampleEnv "cc".toList
        ["$x.o".toList, "".toList] ["in.c".toList] 1 0 = .ok (1, S1) ∧
      S1.TheManifest.Commands = sampleOpenState.TheManifest.Commands ++ [C] ∧
      C.Outputs.length = 2 ∧ C.Inputs.length = 1) ∧
    (sampleOpenState.actOnBeginBuildDecl sampleEnv "cc".toList
        ["$x.o".toList, "".toList] ["in.c".toList] 1 0).toOption.map
        (fun r => (r.2.TheManifest.Nodes.map (fun N => N.Path),
          r.2.TheManifest.Commands.map (fun C => (C.Outputs, C.Inputs)),
          r.2.Errors.map (fun d => d.Message))) =
      some (["out.o".toList, "in.c".toList, "a.o".toList, "".toList],
        [([0], [1]), ([2, 3], [1])], ["empty output path"]) ∧
    (load ccEnv 1 "build.ninja".toList).toOption.join.map
        (fun S => (S.TheManifest.Rules.map (fun R => R.1),
          S.TheManifest.Nodes.map (fun N => N.Path),
          S.TheManifest.Commands.map (fun C => (C.Rule, C.Outputs, C.Inputs)),
          S.TheManifest.DefaultTargets, S.Errors)) =
      some (["cc".toList], ["out.o".toList, "in.c".toList],
        [(.named "cc".toList, [0], [1])], [0], []) :=
  ⟨match actOnBeginBuildDecl_nodes sampleEnv sampleOpenState
      { Filename := "build.ninja".toList, Parser := [], Bindings := 0 } "cc".toList
      ["$x.o".toList, "".toList] ["in.c".toList] 1 0 (by decide) with
    | ⟨S1, C, h1, h2, _, _, h5, h6, _⟩ => ⟨S1, C, h1, h2, h5, h6⟩,
   by decide, rfl⟩

end ManifestLoaderImpl

/-! ## Pool depths -/

theorem isDigit_not_space (d : Char) (hd : d.isDigit = true) :
    isspace d = false ∧ d ≠ '-' ∧ d ≠ '+' := by
  refine ⟨?_, ?_, ?_⟩
  · cases hs : isspace d with
    | false => rfl
    | true =>
      simp only [isspace, Bool.or_eq_true, beq_iff_eq] at hs
      rcases hs with ((((h | h) | h) | h) | h) | h <;> (subst h; revert hd; decide)
  · intro h; subst h; revert hd; decide
  · intro h; subst h; revert hd; decide

theorem foldl_digits (c : Str) (hc : ∀ d ∈ c, d.isDigit = true) (acc : Nat) :
    c.foldl (fun (n : Int) d => 10 * n + ((d.toNat : Int) - 48)) (acc : Int) =
      ((c.foldl (fun n d => 10 * n + (d.toNat - 48)) acc : Nat) : Int) := by
  induction c generalizing acc with
  | nil => rfl
  | cons d t ih =>
    have hd : 48 ≤ d.toNat := by
      have := hc d (by simp)
      simp only [Char.isDigit, Bool.and_eq_true, decide_eq_true_eq] at this
      exact this.1
    simp only [List.foldl_cons]
    rw [← ih (fun x hx => hc x (by simp [hx]))]
    congr 1
    push_cast [Nat.cast_sub hd]
    ring

/-- On a non-empty string of decimal digits `strtol` consumes the whole string
and returns the number denoted, clamped to `LONG_MAX`. -/
theorem strtol_digits (c : Str) (hne : c ≠ []) (hc : ∀ d ∈ c, d.isDigit = true) :
    strtol c = (min (decimalValue c : Int) (2 ^ 63 - 1), []) := by
  cases c with
  | nil => exact absurd rfl hne
  | cons D Ds =>
    obtain ⟨h1, h2, h3⟩ := isDigit_not_space D (hc D (by simp))
    have hall : ∀ x ∈ D :: Ds, Char.isDigit x = true := hc
    have hdrop : (D :: Ds).dropWhile isspace = D :: Ds := by simp [List.dropWhile, h1]
    have htake : (D :: Ds).takeWhile Char.isDigit = D :: Ds :=
      List.takeWhile_eq_self_iff.mpr hall
    have hrest : (D :: Ds).dropWhile Char.isDigit = [] :=
      List.dropWhile_eq_nil_iff.mpr hall
    have hfold := foldl_digits (D :: Ds) hc 0
    have hnonneg : (0 : Int) ≤ ((decimalValue (D :: Ds) : Nat) : Int) := Int.ofNat_nonneg _
    have hsplit : ∀ (r : Bool × Str), r = (false, D :: Ds) →
        (match r.2.takeWhile Char.isDigit with
          | [] => ((0 : Int), D :: Ds)
          | D1 :: Ds1 =>
            (max (-(2 ^ 63)) (min (if r.1 then
                -((D1 :: Ds1).foldl (fun (n : Int) d => 10 * n + ((d.toNat : Int) - 48)) 0)
              else (D1 :: Ds1).foldl (fun (n : Int) d => 10 * n + ((d.toNat : Int) - 48)) 0)
              (2 ^ 63 - 1)), r.2.dropWhile Char.isDigit)) =
          (min (decimalValue (D :: Ds) : Int) (2 ^ 63 - 1), []) := by
      intro r hr
      subst hr
      simp only [htake, hrest, Bool.false_eq_true, if_false]
      rw [show ((0 : Int)) = ((0 : Nat) : Int) from rfl, hfold]
      simp only [decimalValue]
      congr 1
      have : (0 : Int) ≤
          min ((List.foldl (fun n d => 10 * n + (d.toNat - 48)) 0 (D :: Ds) : Nat) : Int)
            (2 ^ 63 - 1) := le_min hnonneg (by norm_num)
      exact max_eq_right (le_trans (by norm_num) this)
    unfold strtol
    simp only [hdrop]
    refine hsplit _ ?_
    split
    · rename_i heq; simp at heq; exact absurd heq.1 h2
    · rename_i heq; simp at heq; exact absurd heq.1 h3
    · rfl

namespace ManifestLoaderImpl

theorem actOnPoolBindingDecl_ok (E : Env) (S : ManifestLoaderImpl) (Top : IncludeEntry)
    (Decl : Str) (NameTok ValueTok : Token) (hTop : S.IncludeStack.getLast? = some Top) :
    S.actOnPoolBindingDecl E Decl NameTok ValueTok =
      .ok (if NameTok = "depth".toList then
          if (strtol ((ninja.evalString E.Lexer S.BindingSets Top.Bindings ValueTok).1.takeWhile
                (fun c => c != '\x00'))).2 ≠ [] ∨
              (strtol ((ninja.evalString E.Lexer S.BindingSets Top.Bindings ValueTok).1.takeWhile
                (fun c => c != '\x00'))).1 ≤ 0 then
            { S with
              Errors := S.Errors ++
                (ninja.evalString E.Lexer S.BindingSets Top.Bindings ValueTok).2.map
                  (fun M => { Filename := Top.Filename, Message := M, At := ValueTok }) ++
                [{ Filename := Top.Filename, Message := "invalid depth", At := ValueTok }] }
          else
            { S with
              Errors := S.Errors ++
                (ninja.evalString E.Lexer S.BindingSets Top.Bindings ValueTok).2.map
                  (fun M => { Filename := Top.Filename, Message := M, At := ValueTok })
              TheManifest :=
                { S.TheManifest with
                  Pools := tableModify Decl
                    (fun P =>
                      { P with
                        Depth := (strtol
                          ((ninja.evalString E.Lexer S.BindingSets Top.Bindings
                            ValueTok).1.takeWhile (fun c => c != '\x00'))).1.toNat % 2 ^ 32 })
                    S.TheManifest.Pools } }
        else
          { S with
            Errors := S.Errors ++
              (ninja.evalString E.Lexer S.BindingSets Top.Bindings ValueTok).2.map
                (fun M => { Filename := Top.Filename, Message := M, At := ValueTok }) ++
              [{ Filename := Top.Filename, Message := "unexpected variable",
                 At := NameTok }] }) := by
  have he : ∀ (M : String) (At : Token),
      ({ S with
          Errors := S.Errors ++
            (ninja.evalString E.Lexer S.BindingSets Top.Bindings ValueTok).2.map
              (fun M => { Filename := Top.Filename, Message := M, At := ValueTok }) } :
        ManifestLoaderImpl).error M At = .ok
        { S with
          Errors := S.Errors ++
            (ninja.evalString E.Lexer S.BindingSets Top.Bindings ValueTok).2.map
              (fun M => { Filename := Top.Filename, Message := M, At := ValueTok }) ++
            [{ Filename := Top.Filename, Message := M, At := At }] } :=
    fun M At => by simp [error, getCurrentFilename, hTop]
  simp only [actOnPoolBindingDecl, getCurrentBindings, hTop, evalString_ok S E Top hTop, bind,
    Except.bind]
  by_cases hn : NameTok = "depth".toList
  · simp only [hn, if_true]
    split_ifs with hbad
    · exact he _ _
    · rfl
  · simp only [hn, if_false]
    exact he _ _

end ManifestLoaderImpl

namespace ManifestLoaderImpl

/-- C12, at a concrete input: the pool `link` of `sampleOpenState` gets
`depth = 7$`; the depth is set to 7 and an error is reported, the one of
evaluating the malformed template, which is no invalid-depth error. -/
theorem actOnPoolBindingDecl_sets_and_reports :
    (sampleOpenState.actOnPoolBindingDecl sampleEnv "link".toList "depth".toList
        "7$".toList).toOption.map (fun S => (S.TheManifest.Pools, S.Errors)) =
      some ([("link".toList, { Name := "link".toList, Depth := 7 })],
        [{ Filename := "build.ninja".toList, Message := "invalid '$'-escape at end of string",
           At := "7$".toList }]) := by
  decide

/-- C12, amended: for every pool and every value template,
`actOnPoolBindingDecl` with the name `depth` reports the errors of evaluating
the template and then has exactly two outcomes, decided by `strtol` on the
evaluated value read as a C string: when text is left over or the number is
not positive it reports an invalid-depth error and leaves the pool, like the
whole manifest, unchanged; otherwise it reports no further error and sets the
depth, and when the number is below `2 ^ 32` the depth set is that positive
number.  A value made of decimal digits that denotes a positive number below
`2 ^ 32` is accepted with that number as depth; `abc`, the empty string,
`12abc`, `0` and `-3` take the error outcome. -/
theorem actOnPoolBindingDecl_depth (E : Env) (S : ManifestLoaderImpl) (Top : IncludeEntry)
    (Decl : Str) (P : Pool) (ValueTok : Token)
    (hTop : S.IncludeStack.getLast? = some Top)
    (hP : tableFind Decl S.TheManifest.Pools = some P) :
    ∃ S1, S.actOnPoolBindingDecl E Decl "depth".toList ValueTok = .ok S1 ∧
      (((strtol ((ninja.evalString E.Lexer S.BindingSets Top.Bindings ValueTok).1.takeWhile
            (fun c => c != '\x00'))).2 ≠ [] ∨
          (strtol ((ninja.evalString E.Lexer S.BindingSets Top.Bindings ValueTok).1.takeWhile
            (fun c => c != '\x00'))).1 ≤ 0) →
        S1.Errors = S.Errors ++
          (ninja.evalString E.Lexer S.BindingSets Top.Bindings ValueTok).2.map
            (fun M => { Filename := Top.Filename, Message := M, At := ValueTok }) ++
          [{ Filename := Top.Filename, Message := "invalid depth", At := ValueTok }] ∧
        S1.TheManifest = S.TheManifest) ∧
      (¬((strtol ((ninja.evalString E.Lexer S.BindingSets Top.Bindings ValueTok).1.takeWhile
            (fun c => c != '\x00'))).2 ≠ [] ∨
          (strtol ((ninja.evalString E.Lexer S.BindingSets Top.Bindings ValueTok).1.takeWhile
            (fun c => c != '\x00'))).1 ≤ 0) →
        S1.Errors = S.Errors ++
          (ninja.evalString E.Lexer S.BindingSets Top.Bindings ValueTok).2.map
            (fun M => { Filename := Top.Filename, Message := M, At := ValueTok }) ∧
        ((strtol ((ninja.evalString E.Lexer S.BindingSets Top.Bindings ValueTok).1.takeWhile
            (fun c => c != '\x00'))).1 < 2 ^ 32 →
          tableFind Decl S1.TheManifest.Pools =
            some { P with
                   Depth := (strtol
                     ((ninja.evalString E.Lexer S.BindingSets Top.Bindings
                       ValueTok).1.takeWhile (fun c => c != '\x00'))).1.toNat } ∧
          0 < (strtol ((ninja.evalString E.Lexer S.BindingSets Top.Bindings
            ValueTok).1.takeWhile (fun c => c != '\x00'))).1.toNat)) ∧
      ((ninja.evalString E.Lexer S.BindingSets Top.Bindings ValueTok).1.takeWhile
          (fun c => c != '\x00') ≠ [] →
        (∀ d ∈ (ninja.evalString E.Lexer S.BindingSets Top.Bindings ValueTok).1.takeWhile
          (fun c => c != '\x00'), d.isDigit = true) →
        0 < decimalValue ((ninja.evalString E.Lexer S.BindingSets Top.Bindings
          ValueTok).1.takeWhile (fun c => c != '\x00')) →
        decimalValue ((ninja.evalString E.Lexer S.BindingSets Top.Bindings
          ValueTok).1.takeWhile (fun c => c != '\x00')) < 2 ^ 32 →
        S1.Errors = S.Errors ++
          (ninja.evalString E.Lexer S.BindingSets Top.Bindings ValueTok).2.map
            (fun M => { Filename := Top.Filename, Message := M, At := ValueTok }) ∧
        tableFind Decl S1.TheManifest.Pools =
          some { P with
                 Depth := decimalValue
                   ((ninja.evalString E.Lexer S.BindingSets Top.Bindings
                     ValueTok).1.takeWhile (fun c => c != '\x00')) }) ∧
      (∀ c ∈ ["abc".toList, [], "12abc".toList, "0".toList, "-3".toList],
        (strtol c).2 ≠ [] ∨ (strtol c).1 ≤ 0) := by
  generalize hv : (ninja.evalString E.Lexer S.BindingSets Top.Bindings ValueTok).1.takeWhile
    (fun c => c != '\x00') = Start
  have hok := actOnPoolBindingDecl_ok E S Top Decl "depth".toList ValueTok hTop
  rw [hv] at hok
  simp only [if_true] at hok
  have hacc : ∀ (S1 : ManifestLoaderImpl),
      S.actOnPoolBindingDecl E Decl "depth".toList ValueTok = .ok S1 →
      ¬((strtol Start).2 ≠ [] ∨ (strtol Start).1 ≤ 0) →
      S1.Errors = S.Errors ++
          (ninja.evalString E.Lexer S.BindingSets Top.Bindings ValueTok).2.map
            (fun M => { Filename := Top.Filename, Message := M, At := ValueTok }) ∧
        tableFind Decl S1.TheManifest.Pools =
          some { P with Depth := (strtol Start).1.toNat % 2 ^ 32 } := by
    intro S1 h1 hgood
    rw [hok, if_neg hgood] at h1
    simp only [Except.ok.injEq] at h1
    subst h1
    exact ⟨rfl, by simp [tableFind_modify_self, hP]⟩
  refine ⟨_, hok, ?_, ?_, ?_, by decide⟩
  · intro hbad
    rw [if_pos hbad]
    exact ⟨rfl, rfl⟩
  · intro hgood
    obtain ⟨e1, e2⟩ := hacc _ hok hgood
    refine ⟨e1, fun hlt => ?_⟩
    have hpos : 0 < (strtol Start).1 := by
      by_contra hn
      exact hgood (Or.inr (not_lt.mp hn))
    have hnat : (strtol Start).1.toNat < 2 ^ 32 := by
      have := Int.toNat_of_nonneg (le_of_lt hpos)
      omega
    rw [e2, Nat.mod_eq_of_lt hnat]
    exact ⟨rfl, by omega⟩
  · intro hne hdig hpos hlt
    have hs := strtol_digits Start hne hdig
    have hmin : min (decimalValue Start : Int) (2 ^ 63 - 1) = (decimalValue Start : Int) := by
      apply min_eq_left
      have : (decimalValue Start : Int) < 2 ^ 32 := by exact_mod_cast hlt
      omega
    rw [hmin] at hs
    have hgood : ¬((strtol Start).2 ≠ [] ∨ (strtol Start).1 ≤ 0) := by
      rw [hs]
      simp only [ne_eq, not_true_eq_false, false_or, not_le]
      exact_mod_cast hpos
    obtain ⟨e1, e2⟩ := hacc _ hok hgood
    refine ⟨e1, ?_⟩
    rw [e2, hs]
    simp only [Int.toNat_ofNat]
    rw [Nat.mod_eq_of_lt hlt]

theorem actOnPoolBindingDecl_depth_witness :
    ∃ S1, sampleOpenState.actOnPoolBindingDecl sampleEnv "link".toList "depth".toList
        "12".toList = .ok S1 ∧
      S1.Errors = [] ∧
      tableFind "link".toList S1.TheManifest.Pools =
        some { Name := "link".toList, Depth := 12 } :=
  match actOnPoolBindingDecl_depth sampleEnv sampleOpenState
      { Filename := "build.ninja".toList, Parser := [], Bindings := 0 } "link".toList
      { Name := "link".toList, Depth := 0 } "12".toList (by decide) (by decide) with
  | ⟨S1, h1, _, _, h4, _⟩ =>
    ⟨S1, h1, ((h4 (by decide) (by decide) (by decide) (by decide)).1).trans (by decide),
      ((h4 (by decide) (by decide) (by decide) (by decide)).2).trans (by decide)⟩

/-- C13, at the failing input: the pool block `pool p` with the single binding
`depth = 4294967296` reports no invalid-depth error, stores the depth 0
and reports a missing-'depth' error at its end. -/
theorem poolBlock_depth_truncated :
    (actOnDecl sampleEnv Except.ok
        (.Pool "p".toList [("depth".toList, "4294967296".toList)] "pool".toList)
        sampleState).toOption.map (fun S => (S.TheManifest.Pools, S.Errors)) =
      some ([("p".toList, { Name := "p".toList, Depth := 0 })],
        [{ Filename := "build.ninja".toList,
           Message := "missing 'depth' variable assignment", At := "pool".toList }]) := by
  decide

end ManifestLoaderImpl

namespace ManifestLoaderImpl

/-! ### The include stack -/

theorem actOnBindings_total
    (act : ManifestLoaderImpl → Token → Token → Except Fault ManifestLoaderImpl)
    (hact : ∀ (S : ManifestLoaderImpl) (Top : IncludeEntry) (N V : Token),
      S.IncludeStack.getLast? = some Top →
      ∃ S1, act S N V = .ok S1 ∧ S1.IncludeStack = S.IncludeStack)
    (B : List (Token × Token)) :
    ∀ (S : ManifestLoaderImpl) (Top : IncludeEntry), S.IncludeStack.getLast? = some Top →
      ∃ S1, actOnBindings act B S = .ok S1 ∧ S1.IncludeStack = S.IncludeStack := by
  induction B with
  | nil => intro S Top _; exact ⟨S, rfl, rfl⟩
  | cons a Rest ih =>
    obtain ⟨N, V⟩ := a
    intro S Top hTop
    obtain ⟨S2, h2, hI2⟩ := hact S Top N V hTop
    obtain ⟨S1, h1, hI1⟩ := ih S2 Top (by rw [hI2]; exact hTop)
    exact ⟨S1, by simp only [actOnBindings, h2]; exact h1, hI1.trans hI2⟩

theorem actOnBeginPoolDecl_total (S : ManifestLoaderImpl) (Top : IncludeEntry)
    (NameTok : Token) (hTop : S.IncludeStack.getLast? = some Top) :
    ∃ S1, S.actOnBeginPoolDecl NameTok = .ok (NameTok, S1) ∧
      S1.IncludeStack = S.IncludeStack := by
  cases hf : tableFind NameTok S.TheManifest.Pools with
  | none =>
    have hb : S.actOnBeginPoolDecl NameTok = .ok (NameTok,
        { S with
          TheManifest :=
            { S.TheManifest with
              Pools := tableInsert NameTok { Name := NameTok, Depth := 0 }
                S.TheManifest.Pools } }) := by
      simp only [actOnBeginPoolDecl, hf, bind, Except.bind, pure, Except.pure]
    exact ⟨_, hb, rfl⟩
  | some P0 =>
    have hb : S.actOnBeginPoolDecl NameTok = .ok (NameTok,
        { S with
          Errors := S.Errors ++
            [{ Filename := Top.Filename, Message := "duplicate pool", At := NameTok }]
          TheManifest :=
            { S.TheManifest with
              Pools := tableInsert NameTok { Name := NameTok, Depth := 0 }
                S.TheManifest.Pools } }) := by
      simp only [actOnBeginPoolDecl, hf, error_ok S Top hTop, bind, Except.bind, pure,
        Except.pure]
    exact ⟨_, hb, rfl⟩

theorem actOnEndPoolDecl_total (S : ManifestLoaderImpl) (Top : IncludeEntry)
    (Decl : Str) (StartTok : Token) (hTop : S.IncludeStack.getLast? = some Top) :
    ∃ S1, S.actOnEndPoolDecl Decl StartTok = .ok S1 ∧ S1.IncludeStack = S.IncludeStack := by
  unfold actOnEndPoolDecl
  split
  · exact ⟨S, rfl, rfl⟩
  · split
    · exact ⟨_, error_ok S Top hTop _ _, rfl⟩
    · exact ⟨S, rfl, rfl⟩

/-- With an entry on the include stack, the callbacks of a declaration that is
no include always return. -/
theorem actOnDecl_total (E : Env)
    (run : ManifestLoaderImpl → Except Fault ManifestLoaderImpl) (D : Decl)
    (S : ManifestLoaderImpl) (Top : IncludeEntry)
    (hTop : S.IncludeStack.getLast? = some Top) (hI : ∀ b P, D ≠ .Include b P) :
    ∃ S1, actOnDecl E run D S = .ok S1 := by
  cases D with
  | Binding N V => exact ⟨_, actOnBindingDecl_ok E S Top N V hTop⟩
  | Default Names => exact ⟨_, actOnDefaultDecl_ok Names S Top hTop⟩
  | Include b P => exact absurd rfl (hI b P)
  | Build Name Outs Ins ne ni Bs St =>
    obtain ⟨_, _, S2, h2, _, _, _, _, _, _, _, _, hI2, _, _⟩ :=
      actOnBeginBuildDecl_result E S Top Name Outs Ins ne ni hTop
    obtain ⟨S4, h4, _⟩ := actOnBindings_total
      (fun S0 N V => S0.actOnBuildBindingDecl E S.TheManifest.Commands.length N V)
      (fun S0 Top0 N V h0 => ⟨_, actOnBuildBindingDecl_ok E S0 Top0 _ N V h0, rfl⟩) Bs S2 Top
      (by rw [hI2]; exact hTop)
    exact ⟨S4, by simp only [actOnDecl, h2, h4, bind, Except.bind, actOnEndBuildDecl, pure,
      Except.pure]⟩
  | Pool Name Bs St =>
    obtain ⟨S2, h2, hI2⟩ := actOnBeginPoolDecl_total S Top Name hTop
    obtain ⟨S3, h3, hI3⟩ := actOnBindings_total
      (fun S0 N V => S0.actOnPoolBindingDecl E Name N V)
      (fun S0 Top0 N V h0 => ⟨_, actOnPoolBindingDecl_ok E S0 Top0 Name N V h0, by
        split_ifs <;> rfl⟩) Bs S2 Top (by rw [hI2]; exact hTop)
    obtain ⟨S4, h4, _⟩ := actOnEndPoolDecl_total S3 Top Name St (by rw [hI3, hI2]; exact hTop)
    exact ⟨S4, by simp only [actOnDecl, h2, h3, h4, bind, Except.bind]⟩
  | Rule Name Bs St =>
    obtain ⟨S1, _, _, h1, _⟩ := ruleBlock_spec E run S Top Name Bs St hTop
    exact ⟨S1, h1⟩
  | Error M At => exact ⟨_, error_ok S Top hTop M At⟩

theorem actOnDecl_noAssert (E : Env)
    (run : ManifestLoaderImpl → Except Fault ManifestLoaderImpl) (hrun : NoAssert run)
    (D : Decl) (S : ManifestLoaderImpl) (Top : IncludeEntry)
    (hTop : S.IncludeStack.getLast? = some Top) :
    actOnDecl E run D S ≠ .error .assertion := by
  by_cases hI : ∃ b P, D = .Include b P
  · obtain ⟨b, P, rfl⟩ := hI
    show S.actOnIncludeDecl E run b P ≠ .error .assertion
    cases hopen : E.readFileContents Top.Filename
        (ninja.evalString E.Lexer S.BindingSets Top.Bindings P).1 (some P) with
    | none =>
      rw [actOnIncludeDecl_closed E S Top b P run hTop hopen]
      exact fun h => Except.noConfusion h
    | some Decls =>
      rw [actOnIncludeDecl_opened E S Top b P Decls run hTop hopen]
      have hr := hrun (includeEntered S E Top b P Decls)
        { Filename := (ninja.evalString E.Lexer S.BindingSets Top.Bindings P).1,
          Parser := Decls,
          Bindings := if b then Top.Bindings else S.BindingSets.length }
        (by simp [includeEntered])
      cases hres : run (includeEntered S E Top b P Decls) with
      | error f =>
        rw [hres] at hr
        intro h
        simp only [Except.error.injEq] at h
        exact hr (by rw [h])
      | ok T => exact fun h => Except.noConfusion h
  · obtain ⟨S1, h1⟩ := actOnDecl_total E run D S Top hTop (fun b P hD => hI ⟨b, P, hD⟩)
    rw [h1]
    exact fun h => Except.noConfusion h

theorem actOnDecls_noAssert (E : Env)
    (run : ManifestLoaderImpl → Except Fault ManifestLoaderImpl) (hrun : NoAssert run)
    (hframe : ParseFrame run) (Ds : List Decl) :
    ∀ (S : ManifestLoaderImpl) (Top : IncludeEntry), S.IncludeStack.getLast? = some Top →
      actOnDecls E run Ds S ≠ .error .assertion := by
  induction Ds with
  | nil => intro S Top _ h; exact Except.noConfusion h
  | cons D Ds ih =>
    intro S Top hTop
    have h1 := actOnDecl_noAssert E run hrun D S Top hTop
    simp only [actOnDecls]
    cases hd : actOnDecl E run D S with
    | error f =>
      rw [hd] at h1
      simpa using h1
    | ok S2 =>
      have f1 := actOnDecl_frame E run hframe D S S2 Top hTop hd
      exact ih S2 Top (by rw [f1.1]; exact hTop)

/-- No run of `parse` breaks an `assert` as long as it starts with an entry on
the include stack. -/
theorem parse_noAssert (E : Env) (fuel : Nat) : NoAssert (parse E fuel) := by
  induction fuel with
  | zero =>
    intro T Top _ h
    simp [parse] at h
  | succ f ih =>
    intro T Top hTop
    simp only [parse, getCurrentParser, hTop]
    have h1 := actOnDecls_noAssert E (parse E f) ih (parse_frame E f) Top.Parser T Top hTop
    cases hd : actOnDecls E (parse E f) Top.Parser T with
    | error g =>
      rw [hd] at h1
      simpa using h1
    | ok T2 =>
      have f1 := actOnDecls_frame E (parse E f) (parse_frame E f) Top.Parser T T2 Top hTop hd
      simp only [actOnEndManifest, exitCurrentFile]
      split
      · rename_i hnil
        rw [f1.1] at hnil
        rw [hnil] at hTop
        simp at hTop
      · exact fun h => Except.noConfusion h

end ManifestLoaderImpl

namespace ManifestLoaderImpl

/-- C18: with each file given as the declarations its parser delivers between
manifest-begin and the one manifest-end, for every environment, main file and
fuel: `load` never breaks an `assert` (it fails only when the fuel that bounds
the include nesting runs out); the include stack holds exactly one entry when
the main parse starts and is empty in the state `load` returns; a successful
`enterFile` adds one entry and a failing one none; every run of `parse` removes
exactly the entry it ran on, at its manifest-end; and the callbacks of a
declaration, nested parses included, leave the stack as it was. -/
theorem load_include_stack (E : Env) (fuel : Nat) (MainFilename : Str) :
    load E fuel MainFilename ≠ .error .assertion ∧
    (∀ S, load E fuel MainFilename = .ok (some S) → S.IncludeStack = []) ∧
    (∀ Data, E.readFileContents MainFilename MainFilename none = some Data →
      ((init MainFilename).enterFile E MainFilename 0 none).1 = true ∧
      ((init MainFilename).enterFile E MainFilename 0 none).2.IncludeStack.length = 1) ∧
    (∀ (S : ManifestLoaderImpl) (Filename : Str) (Bindings : Nat) (ForToken : Option Token),
      ((S.enterFile E Filename Bindings ForToken).1 = true →
        (S.enterFile E Filename Bindings ForToken).2.IncludeStack.length =
          S.IncludeStack.length + 1) ∧
      ((S.enterFile E Filename Bindings ForToken).1 = false →
        (S.enterFile E Filename Bindings ForToken).2 = S)) ∧
    (∀ (f : Nat) (T T1 : ManifestLoaderImpl) (Top : IncludeEntry),
      T.IncludeStack.getLast? = some Top → parse E f T = .ok T1 →
      T1.IncludeStack = T.IncludeStack.dropLast ∧
      T1.IncludeStack.length + 1 = T.IncludeStack.length) ∧
    (∀ (T T1 : ManifestLoaderImpl), T.actOnEndManifest = .ok T1 →
      T1.IncludeStack.length + 1 = T.IncludeStack.length) ∧
    (∀ (f : Nat) (D : Decl) (T T1 : ManifestLoaderImpl) (Top : IncludeEntry),
      T.IncludeStack.getLast? = some Top → actOnDecl E (parse E f) D T = .ok T1 →
      T1.IncludeStack = T.IncludeStack) := by
  have hdrop : ∀ (l : List IncludeEntry) (Top : IncludeEntry), l.getLast? = some Top →
      l.dropLast.length + 1 = l.length := by
    intro l Top h
    cases l with
    | nil => simp at h
    | cons a t => simp
  refine ⟨?_, ?_, ?_, ?_, ?_, ?_, ?_⟩
  · unfold load
    cases hopen : E.readFileContents MainFilename MainFilename none with
    | none => simp [enterFile, init, hopen]
    | some Data =>
      simp only [enterFile, init, hopen, List.getLast?_nil, List.nil_append,
        List.length_singleton, ne_eq, not_true_eq_false, if_false]
      have hn := parse_noAssert E fuel
        { MainFilename := MainFilename, TheManifest := Manifest.new,
          IncludeStack := [{ Filename := MainFilename, Parser := Data, Bindings := 0 }],
          BindingSets := [{ Entries := [], ParentScope := none }], Errors := [] }
        { Filename := MainFilename, Parser := Data, Bindings := 0 } (by simp)
      cases hp : parse E fuel
        { MainFilename := MainFilename, TheManifest := Manifest.new,
          IncludeStack := [{ Filename := MainFilename, Parser := Data, Bindings := 0 }],
          BindingSets := [{ Entries := [], ParentScope := none }], Errors := [] } with
      | error f =>
        rw [hp] at hn
        simpa using hn
      | ok S1 =>
        have hf := parse_frame E fuel _ S1
          { Filename := MainFilename, Parser := Data, Bindings := 0 } (by simp) hp
        simp only [List.dropLast_single] at hf
        simp [hf.1]
  · intro S hS
    unfold load at hS
    cases hopen : E.readFileContents MainFilename MainFilename none with
    | none => simp [enterFile, init, hopen] at hS
    | some Data =>
      simp only [enterFile, init, hopen, List.getLast?_nil, List.nil_append,
        List.length_singleton, ne_eq, not_true_eq_false, if_false] at hS
      split at hS
      · exact Except.noConfusion hS
      · rename_i S1 hp
        split_ifs at hS with hlen
        simp only [Except.ok.injEq, Option.some.injEq] at hS
        subst hS
        exact List.length_eq_zero.mp (by simpa using hlen)
  · intro Data hopen
    simp [enterFile, init, hopen]
  · intro S Filename Bindings ForToken
    unfold enterFile
    split
    · cases h : E.readFileContents Filename Filename ForToken <;> simp [h]
    · rename_i Top0 _
      cases h : E.readFileContents Top0.Filename Filename ForToken <;> simp [h]
  · intro f T T1 Top hTop hp
    have hf := parse_frame E f T T1 Top hTop hp
    exact ⟨hf.1, by rw [hf.1]; exact hdrop _ Top hTop⟩
  · intro T T1 h
    simp only [actOnEndManifest, exitCurrentFile] at h
    split at h
    · exact Except.noConfusion h
    · simp only [Except.ok.injEq] at h
      subst h
      rename_i a t heq
      simp [heq]
  · intro f D T T1 Top hTop h
    exact (actOnDecl_frame E (parse E f) (parse_frame E f) D T T1 Top hTop h).1

end ManifestLoaderImpl

namespace ManifestLoaderImpl

/-! ### Reported errors are never read -/

theorem error_addErrors (Pre : List Diag) (S : ManifestLoaderImpl) (M : String) (At : Token) :
    (addErrors Pre S).error M At = (S.error M At).map (addErrors Pre) := by
  simp only [error, getCurrentFilename, addErrors]
  cases S.IncludeStack.getLast? with
  | none => rfl
  | some Top => simp [Except.map, addErrors]

theorem errorAll_addErrors (Pre : List Diag) (At : Token) (Ms : List String)
    (S : ManifestLoaderImpl) :
    errorAll At Ms (addErrors Pre S) = (errorAll At Ms S).map (addErrors Pre) := by
  induction Ms generalizing S with
  | nil => rfl
  | cons M R ih =>
    simp only [errorAll, error_addErrors]
    cases S.error M At with
    | error f => rfl
    | ok S1 =>
      simp only [Except.map]
      exact ih S1

theorem evalString_addErrors (Pre : List Diag) (S : ManifestLoaderImpl) (E : Env)
    (V : Token) (B : Nat) :
    (addErrors Pre S).evalString E V B =
      (S.evalString E V B).map (Prod.map id (addErrors Pre)) := by
  simp only [evalString, show (addErrors Pre S).BindingSets = S.BindingSets from rfl,
    errorAll_addErrors]
  cases errorAll V (ninja.evalString E.Lexer S.BindingSets B V).2 S <;> rfl

theorem getCurrentBindings_addErrors (Pre : List Diag) (S : ManifestLoaderImpl) :
    (addErrors Pre S).getCurrentBindings = S.getCurrentBindings := rfl

theorem actOnBindingDecl_addErrors (E : Env) (N V : Token) :
    ErrorsFree (fun S => S.actOnBindingDecl E N V) := by
  intro Pre S
  simp only [actOnBindingDecl, bind, Except.bind, getCurrentBindings_addErrors,
    evalString_addErrors]
  cases S.getCurrentBindings with
  | error f => rfl
  | ok B =>
    simp only []
    cases S.evalString E V B with
    | error f => rfl
    | ok r =>
      obtain ⟨Value, S1⟩ := r
      simp only [Except.map, Prod.map, id, getCurrentBindings_addErrors]
      cases S1.getCurrentBindings with
      | error f => rfl
      | ok B1 => rfl

theorem actOnDefaultDecl_addErrors (Names : List Token) :
    ErrorsFree (actOnDefaultDecl Names) := by
  intro Pre S
  induction Names generalizing S with
  | nil => rfl
  | cons N Ns ih =>
    simp only [actOnDefaultDecl, show (addErrors Pre S).TheManifest = S.TheManifest from rfl]
    cases findNode N S.TheManifest.Nodes with
    | none =>
      simp only [bind, Except.bind, error_addErrors]
      cases S.error "unknown target name" N with
      | error f => rfl
      | ok S1 =>
        simp only [Except.map]
        exact ih S1
    | some it =>
      exact ih { S with TheManifest :=
        { S.TheManifest with DefaultTargets := S.TheManifest.DefaultTargets ++ [it] } }

theorem enterFile_addErrors (Pre : List Diag) (S : ManifestLoaderImpl) (E : Env)
    (Filename : Str) (Bindings : Nat) (ForToken : Option Token) :
    (addErrors Pre S).enterFile E Filename Bindings ForToken =
      Prod.map id (addErrors Pre) (S.enterFile E Filename Bindings ForToken) := by
  simp only [enterFile, show (addErrors Pre S).IncludeStack = S.IncludeStack from rfl]
  split <;> rfl

theorem actOnIncludeDecl_addErrors (E : Env)
    (run : ManifestLoaderImpl → Except Fault ManifestLoaderImpl) (hrun : ErrorsFree run)
    (IsInclude : Bool) (PathTok : Token) :
    ErrorsFree (fun S => S.actOnIncludeDecl E run IsInclude PathTok) := by
  intro Pre S
  simp only [actOnIncludeDecl, bind, Except.bind, getCurrentBindings_addErrors,
    evalString_addErrors]
  cases S.getCurrentBindings with
  | error f => rfl
  | ok B =>
    simp only []
    cases S.evalString E PathTok B with
    | error f => rfl
    | ok r =>
      obtain ⟨Path, S1⟩ := r
      simp only [Except.map, Prod.map, id, getCurrentBindings_addErrors]
      cases IsInclude with
      | true =>
        simp only [if_true]
        cases S1.getCurrentBindings with
        | error f => rfl
        | ok B1 =>
          simp only [enterFile_addErrors]
          rcases h : S1.enterFile E Path B1 (some PathTok) with ⟨b, S2⟩
          cases b with
          | true =>
            simp only [Prod.map, id, hrun Pre S2]
            cases run S2 <;> rfl
          | false => rfl
      | false =>
        simp only [Bool.false_eq_true, if_false]
        cases S1.getCurrentBindings with
        | error f => rfl
        | ok B1 =>
          simp only [show (addErrors Pre S1).BindingSets = S1.BindingSets from rfl]
          have hst : ∀ c, ({ addErrors Pre S1 with BindingSets := S1.BindingSets ++ [c] } :
              ManifestLoaderImpl) =
              addErrors Pre { S1 with BindingSets := S1.BindingSets ++ [c] } := fun _ => rfl
          simp only [hst, enterFile_addErrors]
          rcases h : ({ S1 with BindingSets := S1.BindingSets ++
            [{ Entries := [], ParentScope := some B1 }] } : ManifestLoaderImpl).enterFile E Path
              S1.BindingSets.length (some PathTok) with ⟨b, S2⟩
          cases b with
          | true =>
            simp only [Prod.map, id, hrun Pre S2]
            cases run S2 <;> rfl
          | false => rfl

theorem resolveNodes_addErrors (E : Env) (EmptyMessage : String) (Pre : List Diag)
    (Toks : List Token) (Nodes : List Nat) (S : ManifestLoaderImpl) :
    resolveNodes E EmptyMessage Toks Nodes (addErrors Pre S) =
      (resolveNodes E EmptyMessage Toks Nodes S).map (Prod.map id (addErrors Pre)) := by
  induction Toks generalizing Nodes S with
  | nil => rfl
  | cons Tok Toks ih =>
    simp only [resolveNodes, bind, Except.bind, getCurrentBindings_addErrors,
      evalString_addErrors]
    cases S.getCurrentBindings with
    | error f => rfl
    | ok B =>
      simp only []
      cases S.evalString E Tok B with
      | error f => rfl
      | ok r =>
        obtain ⟨Path, S1⟩ := r
        simp only [Except.map, Prod.map, id]
        by_cases hP : Path = []
        · simp only [hP, if_true, error_addErrors]
          cases S1.error EmptyMessage Tok with
          | error f => rfl
          | ok S2 =>
            simp only [Except.map]
            exact ih _ { S2 with TheManifest := (S2.TheManifest.getOrCreateNode []).2 }
        · simp only [hP, if_false, pure, Except.pure]
          exact ih _ { S1 with TheManifest := (S1.TheManifest.getOrCreateNode Path).2 }

theorem actOnBeginBuildDecl_addErrors (Pre : List Diag) (S : ManifestLoaderImpl) (E : Env)
    (NameTok : Token) (OutputTokens InputTokens : List Token)
    (NumExplicitInputs NumImplicitInputs : Nat) :
    (addErrors Pre S).actOnBeginBuildDecl E NameTok OutputTokens InputTokens NumExplicitInputs
        NumImplicitInputs =
      (S.actOnBeginBuildDecl E NameTok OutputTokens InputTokens NumExplicitInputs
        NumImplicitInputs).map (Prod.map id (addErrors Pre)) := by
  simp only [actOnBeginBuildDecl, bind, Except.bind,
    show (addErrors Pre S).TheManifest = S.TheManifest from rfl]
  have tail : ∀ (T : ManifestLoaderImpl) (k : List Nat → List Nat → ManifestLoaderImpl →
        Nat × ManifestLoaderImpl),
      (∀ Os Is T2, k Os Is (addErrors Pre T2) = Prod.map id (addErrors Pre) (k Os Is T2)) →
      (resolveNodes E "empty output path" OutputTokens [] (addErrors Pre T) >>= fun r1 =>
        resolveNodes E "empty input path" InputTokens [] r1.2 >>= fun r2 =>
          (pure (k r1.1 r2.1 r2.2) : Except Fault (Nat × ManifestLoaderImpl))) =
      (resolveNodes E "empty output path" OutputTokens [] T >>= fun r1 =>
        resolveNodes E "empty input path" InputTokens [] r1.2 >>= fun r2 =>
          (pure (k r1.1 r2.1 r2.2) : Except Fault (Nat × ManifestLoaderImpl))).map
        (Prod.map id (addErrors Pre)) := by
    intro T k hk
    rw [resolveNodes_addErrors]
    cases resolveNodes E "empty output path" OutputTokens [] T with
    | error f => rfl
    | ok r =>
      obtain ⟨Outputs, T1⟩ := r
      simp only [Except.map, Prod.map, id, bind, Except.bind]
      rw [resolveNodes_addErrors]
      cases resolveNodes E "empty input path" InputTokens [] T1 with
      | error f => rfl
      | ok r2 =>
        obtain ⟨Inputs, T2⟩ := r2
        simp only [Except.map, Prod.map, id, pure, Except.pure, hk]
  cases tableFind NameTok S.TheManifest.Rules with
  | none =>
    simp only [error_addErrors]
    cases S.error "unknown rule" NameTok with
    | error f => rfl
    | ok S1 =>
      simp only [Except.map, pure, Except.pure]
      exact tail S1 (fun Os Is T2 => (T2.TheManifest.Commands.length,
        { T2 with TheManifest := { T2.TheManifest with
          Commands := T2.TheManifest.Commands ++
            [{ Rule := RuleRef.phony, Outputs := Os, Inputs := Is,
               NumExplicitInputs := NumExplicitInputs,
               NumImplicitInputs := NumImplicitInputs,
               Parameters := [] }] } })) (fun _ _ _ => rfl)
  | some r =>
    simp only [pure, Except.pure]
    exact tail S (fun Os Is T2 => (T2.TheManifest.Commands.length,
        { T2 with TheManifest := { T2.TheManifest with
          Commands := T2.TheManifest.Commands ++
            [{ Rule := RuleRef.named NameTok, Outputs := Os, Inputs := Is,
               NumExplicitInputs := NumExplicitInputs,
               NumImplicitInputs := NumImplicitInputs,
               Parameters := [] }] } })) (fun _ _ _ => rfl)

theorem actOnBuildBindingDecl_addErrors (E : Env) (Decl : Nat) (N V : Token) :
    ErrorsFree (fun S => S.actOnBuildBindingDecl E Decl N V) := by
  intro Pre S
  simp only [actOnBuildBindingDecl, bind, Except.bind, getCurrentBindings_addErrors,
    evalString_addErrors]
  cases S.getCurrentBindings with
  | error f => rfl
  | ok B =>
    simp only []
    cases S.evalString E V B with
    | error f => rfl
    | ok r => rfl

theorem actOnBeginPoolDecl_addErrors (Pre : List Diag) (S : ManifestLoaderImpl)
    (NameTok : Token) :
    (addErrors Pre S).actOnBeginPoolDecl NameTok =
      (S.actOnBeginPoolDecl NameTok).map (Prod.map id (addErrors Pre)) := by
  simp only [actOnBeginPoolDecl, bind, Except.bind,
    show (addErrors Pre S).TheManifest = S.TheManifest from rfl]
  cases tableFind NameTok S.TheManifest.Pools with
  | none => rfl
  | some P =>
    simp only [error_addErrors]
    cases S.error "duplicate pool" NameTok <;> rfl

theorem actOnPoolBindingDecl_addErrors (E : Env) (Decl : Str) (N V : Token) :
    ErrorsFree (fun S => S.actOnPoolBindingDecl E Decl N V) := by
  intro Pre S
  simp only [actOnPoolBindingDecl, bind, Except.bind, getCurrentBindings_addErrors,
    evalString_addErrors]
  cases S.getCurrentBindings with
  | error f => rfl
  | ok B =>
    simp only []
    cases S.evalString E V B with
    | error f => rfl
    | ok r =>
      obtain ⟨Value, S1⟩ := r
      simp only [Except.map, Prod.map, id, error_addErrors]
      split_ifs <;> rfl

theorem actOnEndPoolDecl_addErrors (Decl : Str) (StartTok : Token) :
    ErrorsFree (fun S => S.actOnEndPoolDecl Decl StartTok) := by
  intro Pre S
  simp only [actOnEndPoolDecl, show (addErrors Pre S).TheManifest = S.TheManifest from rfl]
  cases tableFind Decl S.TheManifest.Pools with
  | none => rfl
  | some P =>
    simp only [error_addErrors]
    split_ifs <;> rfl

theorem actOnBeginRuleDecl_addErrors (Pre : List Diag) (S : ManifestLoaderImpl)
    (NameTok : Token) :
    (addErrors Pre S).actOnBeginRuleDecl NameTok =
      (S.actOnBeginRuleDecl NameTok).map (Prod.map id (addErrors Pre)) := by
  simp only [actOnBeginRuleDecl, bind, Except.bind,
    show (addErrors Pre S).TheManifest = S.TheManifest from rfl]
  cases tableFind NameTok S.TheManifest.Rules with
  | none => rfl
  | some P =>
    simp only [error_addErrors]
    cases S.error "duplicate rule" NameTok <;> rfl

theorem actOnRuleBindingDecl_addErrors (E : Env) (Decl : Str) (N V : Token) :
    ErrorsFree (fun S => S.actOnRuleBindingDecl E Decl N V) := by
  intro Pre S
  simp only [actOnRuleBindingDecl, error_addErrors]
  split_ifs <;> rfl

theorem actOnEndRuleDecl_addErrors (Decl : Str) (StartTok : Token) :
    ErrorsFree (fun S => S.actOnEndRuleDecl Decl StartTok) := by
  intro Pre S
  simp only [actOnEndRuleDecl, show (addErrors Pre S).TheManifest = S.TheManifest from rfl]
  cases tableFind Decl S.TheManifest.Rules with
  | none => rfl
  | some R =>
    simp only [error_addErrors]
    cases tableFind "command".toList R.Parameters <;> rfl

theorem actOnBindings_addErrors
    (act : ManifestLoaderImpl → Token → Token → Except Fault ManifestLoaderImpl)
    (hact : ∀ N V, ErrorsFree (fun S => act S N V)) (Bs : List (Token × Token)) :
    ErrorsFree (actOnBindings act Bs) := by
  intro Pre S
  induction Bs generalizing S with
  | nil => rfl
  | cons b Rest ih =>
    obtain ⟨N, V⟩ := b
    have h := hact N V Pre S
    simp only [] at h
    simp only [actOnBindings, h]
    cases act S N V with
    | error f => rfl
    | ok S1 =>
      simp only [Except.map]
      exact ih S1

theorem actOnDecl_addErrors (E : Env)
    (run : ManifestLoaderImpl → Except Fault ManifestLoaderImpl) (hrun : ErrorsFree run)
    (D : Decl) : ErrorsFree (actOnDecl E run D) := by
  intro Pre S
  cases D with
  | Binding N V => exact actOnBindingDecl_addErrors E N V Pre S
  | Default Names => exact actOnDefaultDecl_addErrors Names Pre S
  | Include b P => exact actOnIncludeDecl_addErrors E run hrun b P Pre S
  | Build N Os Is NE NI Bs St =>
    simp only [actOnDecl, bind, Except.bind, actOnBeginBuildDecl_addErrors]
    cases S.actOnBeginBuildDecl E N Os Is NE NI with
    | error f => rfl
    | ok r =>
      obtain ⟨Decl, S1⟩ := r
      simp only [Except.map, Prod.map, id]
      rw [actOnBindings_addErrors _ (fun N V => actOnBuildBindingDecl_addErrors E Decl N V)]
      cases actOnBindings (fun S N V => S.actOnBuildBindingDecl E Decl N V) Bs S1 <;> rfl
  | Pool N Bs St =>
    simp only [actOnDecl, bind, Except.bind, actOnBeginPoolDecl_addErrors]
    cases S.actOnBeginPoolDecl N with
    | error f => rfl
    | ok r =>
      obtain ⟨Decl, S1⟩ := r
      simp only [Except.map, Prod.map, id]
      rw [actOnBindings_addErrors _ (fun N V => actOnPoolBindingDecl_addErrors E Decl N V)]
      cases actOnBindings (fun S N V => S.actOnPoolBindingDecl E Decl N V) Bs S1 with
      | error f => rfl
      | ok S2 => exact actOnEndPoolDecl_addErrors Decl St Pre S2
  | Rule N Bs St =>
    simp only [actOnDecl, bind, Except.bind, actOnBeginRuleDecl_addErrors]
    cases S.actOnBeginRuleDecl N with
    | error f => rfl
    | ok r =>
      obtain ⟨Decl, S1⟩ := r
      simp only [Except.map, Prod.map, id]
      rw [actOnBindings_addErrors _ (fun N V => actOnRuleBindingDecl_addErrors E Decl N V)]
      cases actOnBindings (fun S N V => S.actOnRuleBindingDecl E Decl N V) Bs S1 with
      | error f => rfl
      | ok S2 => exact actOnEndRuleDecl_addErrors Decl St Pre S2
  | Error M At => exact error_addErrors Pre S M At

theorem actOnDecls_addErrors (E : Env)
    (run : ManifestLoaderImpl → Except Fault ManifestLoaderImpl) (hrun : ErrorsFree run)
    (Ds : List Decl) : ErrorsFree (actOnDecls E run Ds) := by
  intro Pre S
  induction Ds generalizing S with
  | nil => rfl
  | cons D Ds ih =>
    simp only [actOnDecls, actOnDecl_addErrors E run hrun D Pre S]
    cases actOnDecl E run D S with
    | error f => rfl
    | ok S1 =>
      simp only [Except.map]
      exact ih S1

theorem parse_addErrors (E : Env) (fuel : Nat) : ErrorsFree (parse E fuel) := by
  induction fuel with
  | zero => intro Pre S; rfl
  | succ n ih =>
    intro Pre S
    simp only [parse, show (addErrors Pre S).getCurrentParser = S.getCurrentParser from rfl]
    cases S.getCurrentParser with
    | error f => rfl
    | ok Decls =>
      simp only [actOnDecls_addErrors E (parse E n) ih Decls Pre S]
      cases actOnDecls E (parse E n) Decls S with
      | error f => rfl
      | ok S1 =>
        simp only [Except.map, actOnEndManifest, exitCurrentFile,
          show (addErrors Pre S1).IncludeStack = S1.IncludeStack from rfl]
        cases S1.IncludeStack <;> rfl

theorem insertErrors_addErrors (Pre Ds : List Diag) (S : ManifestLoaderImpl) :
    insertErrors Pre.length Ds (addErrors Pre S) = addErrors (Pre ++ Ds) S := by
  simp [insertErrors, addErrors]

/-- An include whose file cannot be opened, followed by further declarations:
they are processed as without the include, and the errors of the path
evaluation stand where the include reported them. -/
theorem actOnDecls_include_closed (E : Env)
    (run : ManifestLoaderImpl → Except Fault ManifestLoaderImpl) (hrun : ErrorsFree run)
    (S : ManifestLoaderImpl) (Top : IncludeEntry) (IsInclude : Bool) (PathTok : Token)
    (Ds : List Decl)
    (hTop : S.IncludeStack.getLast? = some Top)
    (hopen : E.readFileContents Top.Filename
      (ninja.evalString E.Lexer S.BindingSets Top.Bindings PathTok).1 (some PathTok) = none) :
    actOnDecls E run (.Include IsInclude PathTok :: Ds) S =
      (actOnDecls E run Ds S).map (insertErrors S.Errors.length
        ((ninja.evalString E.Lexer S.BindingSets Top.Bindings PathTok).2.map
          (fun M => { Filename := Top.Filename, Message := M, At := PathTok }))) := by
  have h0 : ∀ Pre, ({ S with Errors := Pre } : ManifestLoaderImpl) =
      addErrors Pre { S with Errors := [] } := by
    intro Pre
    simp [addErrors]
  have hS : S = addErrors S.Errors { S with Errors := [] } := by
    simp [addErrors]
  simp only [actOnDecls, actOnDecl, actOnIncludeDecl_closed E S Top IsInclude PathTok run hTop hopen]
  have hR := actOnDecls_addErrors E run hrun Ds S.Errors { S with Errors := [] }
  rw [← hS] at hR
  rw [h0, actOnDecls_addErrors E run hrun Ds, hR]
  cases actOnDecls E run Ds { S with Errors := [] } with
  | error f => rfl
  | ok R =>
    simp only [Except.map]
    rw [insertErrors_addErrors]

/-- C19: for a state in which a callback is delivered and an "include" or
"subninja" whose file the reader fails to open: `enterFile` returns failure and
leaves the state alone; `actOnIncludeDecl` returns, whatever the parser of a
nested file would do, a state with the same include stack, binding sets and
manifest, in which only the errors of evaluating the path are reported (the
same state when there are none); the declarations that follow are processed as
without the include, with those errors standing where the include reported
them; and `load` returns no manifest exactly when the main file cannot be
opened. -/
theorem include_open_failure (E : Env) (S : ManifestLoaderImpl) (Top : IncludeEntry)
    (IsInclude : Bool) (PathTok : Token)
    (hTop : S.IncludeStack.getLast? = some Top)
    (hopen : E.readFileContents Top.Filename
      (ninja.evalString E.Lexer S.BindingSets Top.Bindings PathTok).1 (some PathTok) = none) :
    (∀ (T : ManifestLoaderImpl) (Bindings : Nat), T.IncludeStack = S.IncludeStack →
      T.enterFile E (ninja.evalString E.Lexer S.BindingSets Top.Bindings PathTok).1 Bindings
        (some PathTok) = (false, T)) ∧
    (∃ S1, (∀ run, S.actOnIncludeDecl E run IsInclude PathTok = .ok S1) ∧
      S1.IncludeStack = S.IncludeStack ∧ S1.BindingSets = S.BindingSets ∧
      S1.TheManifest = S.TheManifest ∧ S1.MainFilename = S.MainFilename ∧
      S1.Errors = S.Errors ++
        (ninja.evalString E.Lexer S.BindingSets Top.Bindings PathTok).2.map
          (fun M => { Filename := Top.Filename, Message := M, At := PathTok }) ∧
      ((ninja.evalString E.Lexer S.BindingSets Top.Bindings PathTok).2 = [] → S1 = S)) ∧
    (∀ (fuel : Nat) (Ds : List Decl),
      actOnDecls E (parse E fuel) (.Include IsInclude PathTok :: Ds) S =
        (actOnDecls E (parse E fuel) Ds S).map (insertErrors S.Errors.length
          ((ninja.evalString E.Lexer S.BindingSets Top.Bindings PathTok).2.map
            (fun M => { Filename := Top.Filename, Message := M, At := PathTok }))) ∧
      ((ninja.evalString E.Lexer S.BindingSets Top.Bindings PathTok).2 = [] →
        actOnDecls E (parse E fuel) (.Include IsInclude PathTok :: Ds) S =
          actOnDecls E (parse E fuel) Ds S)) ∧
    (∀ (fuel : Nat) (MainFilename : Str),
      load E fuel MainFilename = .ok none ↔
        E.readFileContents MainFilename MainFilename none = none) := by
  refine ⟨?_, ?_, ?_, ?_⟩
  · intro T Bindings hT
    simp only [enterFile, hT, hTop, hopen]
  · refine ⟨{ S with
        Errors := S.Errors ++
          (ninja.evalString E.Lexer S.BindingSets Top.Bindings PathTok).2.map
            (fun M => { Filename := Top.Filename, Message := M, At := PathTok }) },
      fun run => actOnIncludeDecl_closed E S Top IsInclude PathTok run hTop hopen,
      rfl, rfl, rfl, rfl, rfl, ?_⟩
    intro h
    simp [h]
  · intro fuel Ds
    have hmain := actOnDecls_include_closed E (parse E fuel) (parse_addErrors E fuel) S Top
      IsInclude PathTok Ds hTop hopen
    refine ⟨hmain, ?_⟩
    intro h
    rw [hmain, h]
    cases actOnDecls E (parse E fuel) Ds S with
    | error f => rfl
    | ok R => simp [Except.map, insertErrors]
  · intro fuel MainFilename
    unfold load
    cases hMain : E.readFileContents MainFilename MainFilename none with
    | none => simp [enterFile, init, hMain]
    | some Data =>
      simp only [enterFile, init, hMain, List.getLast?_nil, List.nil_append,
        List.length_singleton, ne_eq, not_true_eq_false, if_false]
      split
      · simp
      · split_ifs <;> simp

theorem include_open_failure_witness :
    (∀ run, sampleState.actOnIncludeDecl sampleEnv run false "nope.ninja".toList =
      .ok sampleState) ∧
    actOnDecls sampleEnv (parse sampleEnv 1)
        [.Include true "nope.ninja".toList, .Binding "y".toList "$x.o".toList] sampleState =
      actOnDecls sampleEnv (parse sampleEnv 1) [.Binding "y".toList "$x.o".toList]
        sampleState ∧
    (load sampleEnv 1 "build.ninja".toList = .ok none ↔
      sampleEnv.readFileContents "build.ninja".toList "build.ninja".toList none = none) :=
  ⟨match include_open_failure sampleEnv sampleState
      { Filename := "build.ninja".toList, Parser := [], Bindings := 0 } false
      "nope.ninja".toList (by decide) (by decide) with
    | ⟨_, ⟨_, h1, _, _, _, _, _, h7⟩, _, _⟩ =>
      fun run => (h1 run).trans (congrArg Except.ok (h7 (by decide))),
   ((include_open_failure sampleEnv sampleState
      { Filename := "build.ninja".toList, Parser := [], Bindings := 0 } true
      "nope.ninja".toList (by decide) (by decide)).2.2.1 1
        [.Binding "y".toList "$x.o".toList]).2 (by decide),
   (include_open_failure sampleEnv sampleState
      { Filename := "build.ninja".toList, Parser := [], Bindings := 0 } true
      "nope.ninja".toList (by decide) (by decide)).2.2.2 1 "build.ninja".toList⟩

end ManifestLoaderImpl

end llbuild.ninja
